import Mathlib

/-!
# build2: the dependency database (`build2/depdb.cxx`)

A shallow embedding of `depdb` over an in-memory model of `std::fstream`.

Bytes are natural numbers (`10` is the newline, `0` the null byte, `49` the
character `1`).  The stream model keeps the content of the underlying file,
the single position of the file buffer, `eofbit`, `failbit`, whether `failbit`
is part of the exception mask, and the trace of the byte writes made so far.
The device itself never fails (`badbit` is never set).
-/

namespace build2

set_option linter.dupNamespace false

/-- Ways in which a call does not return normally. -/
inductive fault where
  /-- A `std::ios_base::failure` thrown because a bit of the exception mask got set. -/
  | ios_failure
  /-- A failed `assert`. -/
  | assertion
  /-- A loop that does not terminate. -/
  | diverges
  deriving DecidableEq, Repr

/-- Model of `std::fstream` (opened in binary mode) over a list of bytes. -/
structure fstream where
  /-- Content of the underlying file. -/
  file : List Nat
  /-- Position of the file buffer, shared by reading and writing. -/
  pos : Nat
  eofbit : Bool
  failbit : Bool
  /-- Whether `failbit` is in the `exceptions()` mask (`badbit` always is). -/
  exfail : Bool
  /-- Trace of byte writes `(offset, byte)` made through this stream, oldest first. -/
  wlog : List (Nat × Nat)
  deriving DecidableEq, Repr

/-- Store byte `b` at offset `off` of a file, extending it (with a zero-filled gap) if needed. -/
def poke (f : List Nat) (off b : Nat) : List Nat :=
  f.take off ++ List.replicate (off - f.length) 0 ++ b :: f.drop (off + 1)

/-- The file obtained from `f` by a trace of byte writes. -/
def replay (f : List Nat) (w : List (Nat × Nat)) : List Nat :=
  w.foldl (fun g e => poke g e.1 e.2) f

namespace fstream

/-- Stream `open ()`: `none` is a path without a file (created empty by `out | binary`). -/
def open_ (p : Option (List Nat)) : fstream :=
  { file := p.getD [], pos := 0, eofbit := false, failbit := false, exfail := false, wlog := [] }

def good (s : fstream) : Bool := !s.eofbit && !s.failbit

def fail (s : fstream) : Bool := s.failbit

def eof (s : fstream) : Bool := s.eofbit

/-- Stream `setstate()`: add bits, then throw if a bit of the exception mask is set. -/
def setstate (s : fstream) (e f : Bool) : Except fault fstream :=
  let s1 := { s with eofbit := s.eofbit || e, failbit := s.failbit || f }
  if s1.failbit && s1.exfail then .error .ios_failure else .ok s1

/-- Stream `clear()`: reset to `goodbit`. -/
def clear (s : fstream) : fstream := { s with eofbit := false, failbit := false }

/-- Stream `exceptions(mask)`: `mask` is `badbit` plus `failbit` when `f`. -/
def exceptions (s : fstream) (f : Bool) : Except fault fstream :=
  setstate { s with exfail := f } false false

/-- Stream `tellg()`: `-1` (and `failbit`) unless the stream is good. -/
def tellg (s : fstream) : Except fault (Int × fstream) :=
  if s.good then .ok ((s.pos : Int), s)
  else do
    let s1 ← s.setstate false true
    pure (-1, s1)

/-- Stream `seekg(0, end)`: clears `eofbit` first. -/
def seekg_end (s : fstream) : Except fault fstream :=
  let s1 := { s with eofbit := false }
  if s1.failbit then s1.setstate false true
  else .ok { s1 with pos := s1.file.length }

/-- Stream `seekp(pos)`. -/
def seekp (s : fstream) (p : Int) : Except fault fstream :=
  if s.failbit then .ok s
  else if p < 0 then s.setstate false true
  else .ok { s with pos := p.toNat }

/-- Stream `seekp(0, cur)`. -/
def seekp_cur (s : fstream) : Except fault fstream :=
  .ok s

/-- Stream `put(c)`. -/
def put (s : fstream) (c : Nat) : Except fault fstream :=
  if s.good then
    .ok { s with file := poke s.file s.pos c, pos := s.pos + 1, wlog := s.wlog ++ [(s.pos, c)] }
  else s.setstate false true

/-- Stream `write(s, n)`: the bytes are put one after the other. -/
def write (s : fstream) : List Nat → Except fault fstream
  | [] => .ok s
  | c :: cs => if s.good then do
      let s1 ← s.put c
      write s1 cs
    else s.setstate false true

/-- Stream `flush()`: buffering is not modelled. -/
def flush (s : fstream) : fstream := s

/-- Free function `std::getline(s, line)`, delimiter newline. -/
def getline (s : fstream) (line : List Nat) : Except fault (List Nat × fstream) :=
  if s.good then
    let rest := s.file.drop s.pos
    let l := rest.takeWhile (fun b => b != 10)
    match rest.dropWhile (fun b => b != 10) with
    | [] => do
      -- End of file before a delimiter; failbit if nothing at all was extracted.
      let s1 ← setstate { s with pos := s.pos + l.length } true (l.length == 0)
      pure (l, s1)
    | _ :: _ => .ok (l, { s with pos := s.pos + l.length + 1 })
  else do
    let s1 ← s.setstate false true
    pure (line, s1)

/-- Stream `peek()`: `none` is `traits_type::eof()`. -/
def peek (s : fstream) : Except fault (Option Nat × fstream) :=
  if s.good then
    match s.file.drop s.pos with
    | [] => do
      let s1 ← s.setstate true false
      pure (none, s1)
    | b :: _ => .ok (some b, s)
  else do
    let s1 ← s.setstate false true
    pure (none, s1)

/-- Stream `get()`: `none` is `traits_type::eof()`. -/
def get (s : fstream) : Except fault (Option Nat × fstream) :=
  if s.good then
    match s.file.drop s.pos with
    | [] => do
      let s1 ← s.setstate true true
      pure (none, s1)
    | b :: _ => .ok (some b, { s with pos := s.pos + 1 })
  else do
    let s1 ← s.setstate false true
    pure (none, s1)

end fstream

inductive timestamp where
  | timestamp_nonexistent
  | timestamp_unknown
  | known
  deriving DecidableEq, Repr

/-- Function `file_mtime()`: `timestamp_nonexistent` exactly when there is no file. -/
def file_mtime (p : Option (List Nat)) : timestamp :=
  match p with
  | none => .timestamp_nonexistent
  | some _ => .known

inductive state where
  | read
  | read_eof
  | write
  deriving DecidableEq, Repr

structure depdb where
  mtime : timestamp
  touch : Bool
  state_ : state
  fs_ : fstream
  /-- Start of the last returned line (`-1` is `pos_type (-1)`). -/
  pos_ : Int
  line_ : List Nat
  deriving DecidableEq, Repr

namespace depdb

/-- The loop `for (auto i (end - pos_); i != 0; --i)` that puts a null byte each time, for
`i >= 0`. -/
def put_zeros : Nat → fstream → Except fault fstream
  | 0, fs => .ok fs
  | i + 1, fs => do
    let fs1 ← fs.put 0
    put_zeros i fs1

/-- Member `depdb::change (bool flush)`. -/
def change (d : depdb) (flush : Bool) : Except fault depdb :=
  if d.state_ = .write then .error .assertion
  else do
    let fs := d.fs_.clear
    let fs ← fs.exceptions true
    let fs ← fs.seekg_end
    let (end_, fs) ← fs.tellg
    let fs ← if end_ != d.pos_ then do
        let fs ← fs.seekp d.pos_
        -- A negative count never reaches zero by decrements.
        let fs ← if end_ - d.pos_ < 0 then .error .diverges
                 else put_zeros (end_ - d.pos_).toNat fs
        pure (if flush then fs.flush else fs)
      else pure fs
    let fs ← fs.seekp d.pos_
    pure { d with fs_ := fs, state_ := .write, mtime := .timestamp_unknown }

/-- Member `depdb::read_ ()`: the result is the line returned (`none` is `nullptr`). -/
def read_ (d : depdb) : Except fault (Option (List Nat) × depdb) := do
  let (p, fs) ← d.fs_.tellg
  let d := { d with pos_ := p, fs_ := fs }
  if d.state_ = .read_eof then pure (none, d)
  else do
    let (l, fs) ← d.fs_.getline d.line_
    let d := { d with line_ := l, fs_ := fs }
    if d.fs_.fail then do
      let d ← d.change true
      pure (none, d)
    else if d.fs_.eof then do
      let d ← d.change true
      pure (none, d)
    else do
      let (c, fs) ← d.fs_.peek
      let d := { d with fs_ := fs }
      if c = none then do
        let d ← d.change true
        pure (none, d)
      else
        let d := if c = some 0 then { d with state_ := .read_eof } else d
        pure (some d.line_, d)

/-- Modelled from the spec: the inline `depdb::read ()` of `depdb.hxx`, which is not among
the sources. In `Read` and `ReadEnd` it is `read_ ()`; a store in `Write` is treated as
empty and yields no line. -/
def read (d : depdb) : Except fault (Option (List Nat) × depdb) :=
  if d.state_ = .write then .ok (none, d) else d.read_

/-- The `do ... while (c != eof)` loop of `depdb::skip ()`; the result is `true` when the
loop is left by `return true` (end marker found). -/
def skip_loop : Nat → depdb → Except fault (Bool × depdb)
  | 0, _ => .error .diverges
  | fuel + 1, d => do
    let (c, fs) ← d.fs_.get
    let d := { d with fs_ := fs }
    if c = some 10 then do
      let (c, fs) ← d.fs_.get
      let d := { d with fs_ := fs }
      if c = some 0 then pure (true, { d with state_ := .read_eof })
      else if c != none then skip_loop fuel d
      else pure (false, d)
    else if c != none then skip_loop fuel d
    else pure (false, d)

/-- Member `depdb::skip ()`. -/
def skip (d : depdb) : Except fault (Bool × depdb) :=
  if d.state_ = .read_eof then .ok (true, d)
  else if d.state_ ≠ .read then .error .assertion
  else do
    let (p, fs) ← d.fs_.tellg
    let d := { d with pos_ := p, fs_ := fs }
    let (r, d) ← skip_loop (d.fs_.file.length + 1) d
    if r then pure (true, d)
    else do
      let d ← d.change true
      pure (false, d)

/-- Member `depdb::write (const char* s, size_t n, bool nl)`. -/
def write (d : depdb) (s : List Nat) (nl : Bool) : Except fault depdb := do
  let d ← if d.state_ ≠ .write then d.change true else pure d
  let fs ← d.fs_.write s
  let fs ← if nl then fs.put 10 else pure fs
  pure { d with fs_ := fs }

/-- Member `depdb::write (char c, bool nl)`. -/
def write_char (d : depdb) (c : Nat) (nl : Bool) : Except fault depdb := do
  let d ← if d.state_ ≠ .write then d.change true else pure d
  let fs ← d.fs_.put c
  let fs ← if nl then fs.put 10 else pure fs
  pure { d with fs_ := fs }

/-- Member `depdb::close ()`; the file left on disk is `fs_.file` of the result (closing
the stream and the query of the modification time that follows write no byte). -/
def close (d : depdb) : Except fault depdb :=
  if d.state_ = .read_eof then
    if d.touch then do
      let fs := d.fs_.clear
      let fs ← fs.exceptions true
      let fs ← fs.seekp_cur
      let fs ← fs.put 0
      pure { d with fs_ := fs, state_ := .write }
    else pure d
  else do
    let d ← if d.state_ ≠ .write then do
        let (p, fs) ← d.fs_.tellg
        change { d with pos_ := p, fs_ := fs } false
      else pure d
    let fs ← d.fs_.put 0
    pure { d with fs_ := fs }

/-- Constructor `depdb::depdb (path_type p)`: `p` is the file found at the path, if any.
Opening the stream succeeds (the `fail` diagnostics of a stream that is not open is the
failure of the device, which is not modelled). -/
def depdb (p : Option (List Nat)) : Except fault build2.depdb := do
  let mtime := file_mtime p
  let d : build2.depdb :=
    if mtime = .timestamp_nonexistent then
      { mtime := .timestamp_unknown, touch := false, state_ := .write,
        fs_ := fstream.open_ p, pos_ := 0, line_ := [] }
    else
      { mtime := mtime, touch := false, state_ := .read,
        fs_ := fstream.open_ p, pos_ := 0, line_ := [] }
  let fs ← d.fs_.exceptions (decide (mtime = .timestamp_nonexistent))
  let d := { d with fs_ := fs }
  if d.state_ = .read then do
    let (l, d) ← d.read
    if l = none ∨ l ≠ some [49] then d.write_char 49 true else pure d
  else d.write_char 49 true

end depdb

end build2

/-! ## Sessions: sequences of calls, and the on-disk form of a list of lines -/

namespace build2

/-- Call `read ()` `k` times in a row, collecting what each call returns. -/
def reads : Nat → depdb → Except fault (List (Option (List Nat)) × depdb)
  | 0, d => .ok ([], d)
  | k + 1, d => do
    let (l, d1) ← d.read
    let (ls, d2) ← reads k d1
    pure (l :: ls, d2)

/-- Call `write (l)`, with the trailing newline, for each line in order. -/
def write_lines (d : depdb) : List (List Nat) → Except fault depdb
  | [] => .ok d
  | l :: ls => do
    let d1 ← d.write l true
    write_lines d1 ls

/-- The bytes of a list of lines: every line followed by a newline. -/
def enc : List (List Nat) → List Nat
  | [] => []
  | l :: ls => l ++ 10 :: enc ls

/-- A cleanly closed store: version line, the lines, the end marker, and whatever bytes
an earlier, longer content left behind the end marker. -/
def store (ls : List (List Nat)) (junk : List Nat) : List Nat :=
  [49, 10] ++ enc ls ++ 0 :: junk

/-- A line that can be stored and read back: no newline in it, and no null byte first. -/
def storable (l : List Nat) : Prop := 10 ∉ l ∧ l.head? ≠ some 0

instance (l : List Nat) : Decidable (storable l) := by
  unfold storable; exact inferInstance

/-- A line without newline and without null byte. -/
def plain (l : List Nat) : Prop := 10 ∉ l ∧ 0 ∉ l

instance (l : List Nat) : Decidable (plain l) := by
  unfold plain; exact inferInstance

/-- The byte writes `(offset, byte)` that put the bytes `bs` from offset `p` on. -/
def trace (p : Nat) : List Nat → List (Nat × Nat)
  | [] => []
  | b :: bs => (p, b) :: trace (p + 1) bs

/-- A session on a path without a file: open, write the lines, close. -/
def fresh_session (ls : List (List Nat)) : Except fault depdb := do
  let d ← depdb.depdb none
  let d1 ← write_lines d ls
  d1.close

/-- Open the file `f` and call `read ()` `k` times. -/
def reopen_reads (f : List Nat) (k : Nat) : Except fault (List (Option (List Nat)) × depdb) := do
  let d ← depdb.depdb (some f)
  reads k d

/-- The offset `q` is that of the first newline of `f` at or after offset `p`. -/
def first_newline (f : List Nat) (p q : Nat) : Prop :=
  p ≤ q ∧ f[q]? = some 10 ∧ ∀ i, p ≤ i → i < q → f[i]? ≠ some 10

/-- A store in `Read` as the constructor and `read ()` leave it: stream good, `failbit`
not in the exception mask, position inside the file. -/
def reading (d : depdb) : Prop :=
  d.state_ = .read ∧ d.fs_.eofbit = false ∧ d.fs_.failbit = false ∧ d.fs_.exfail = false ∧
    d.fs_.pos ≤ d.fs_.file.length

instance (d : depdb) : Decidable (reading d) := by
  unfold reading; exact inferInstance

/-- A call that reads: `read ()` or `skip ()`. -/
inductive call where
  | read
  | skip
  deriving DecidableEq, Repr

/-- Make the calls one after the other, dropping what they return. -/
def run : List call → depdb → Except fault depdb
  | [], d => .ok d
  | .read :: cs, d => do
    let (_, d1) ← d.read
    run cs d1
  | .skip :: cs, d => do
    let (_, d1) ← d.skip
    run cs d1

/-- A session that overwrites: open the file `f`, call `read ()` `r` times, switch to
`Write` at the remembered offset, write the lines `ns`, close. -/
def overwrite_session (f : List Nat) (r : Nat) (ns : List (List Nat)) : Except fault depdb := do
  let (_, d) ← reopen_reads f r
  let d1 ← d.change true
  let d2 ← write_lines d1 ns
  d2.close

/-- A store from which `read ()` yields no further line: in `Write`, or in `ReadEnd` with a
good stream. -/
def settled (d : depdb) : Prop :=
  d.state_ = .write ∨ (d.state_ = .read_eof ∧ d.fs_.eofbit = false ∧ d.fs_.failbit = false)

instance (d : depdb) : Decidable (settled d) := by
  unfold settled; exact inferInstance

/-- What the loop of `skip ()` finds in the bytes from the current position on: the number
of bytes consumed when it returns through the end marker, nothing when it runs into the
end of the file. -/
def skip_scan : List Nat → Option Nat
  | [] => none
  | c :: rest =>
    if c = 10 then
      match rest with
      | [] => none
      | c2 :: rest2 => if c2 = 0 then some 2 else (skip_scan rest2).map (fun k => k + 2)
    else (skip_scan rest).map (fun k => k + 1)

/-- A store whose stream is good and positioned inside the file and which, while it is
not in `Write`, has `failbit` out of the exception mask and remembers an offset inside the
file. -/
def sound (d : depdb) : Prop :=
  d.fs_.eofbit = false ∧ d.fs_.failbit = false ∧ d.fs_.pos ≤ d.fs_.file.length ∧
    (d.state_ ≠ .write →
      d.fs_.exfail = false ∧ 0 ≤ d.pos_ ∧ d.pos_ ≤ (d.fs_.file.length : Int))

instance (d : depdb) : Decidable (sound d) := by
  unfold sound; exact inferInstance

/-- A call made on an open store: `read ()`, `skip ()`, `write (s, n, nl)` or
`write (c, nl)`. -/
inductive op where
  | read
  | skip
  | write (s : List Nat) (nl : Bool)
  | write_char (c : Nat) (nl : Bool)
  deriving DecidableEq, Repr

/-- Make the calls one after the other, dropping what they return; a call that does not
return ends the sequence with its fault. -/
def exec : List op → depdb → Except fault depdb
  | [], d => .ok d
  | .read :: cs, d => do
    let (_, d1) ← d.read
    exec cs d1
  | .skip :: cs, d => do
    let (_, d1) ← d.skip
    exec cs d1
  | .write s nl :: cs, d => do
    let d1 ← d.write s nl
    exec cs d1
  | .write_char c nl :: cs, d => do
    let d1 ← d.write_char c nl
    exec cs d1

/-- Every byte of the file at or after the current position is null. -/
def null_tail (d : depdb) : Prop := ∀ b ∈ d.fs_.file.drop d.fs_.pos, b = 0

instance (d : depdb) : Decidable (null_tail d) := by
  unfold null_tail; exact inferInstance

/-- The file begins with the version line and the current position is behind it. -/
def headed (d : depdb) : Prop := d.fs_.file.take 2 = [49, 10] ∧ 2 ≤ d.fs_.pos

instance (d : depdb) : Decidable (headed d) := by
  unfold headed; exact inferInstance

/-- While the store is not in `Write`, the offset it remembers is behind the version
line. -/
def armed (d : depdb) : Prop := d.state_ ≠ .write → 2 ≤ d.pos_

instance (d : depdb) : Decidable (armed d) := by
  unfold armed; exact inferInstance

/-- Whether, in a sequence of calls made on a store in state `st` that is not `Write`, a
call that makes the store remember the current position comes before the first write:
`read ()` always does, `skip ()` does in `Read` and returns at once in `ReadEnd`. -/
def reads_first (st : state) : List op → Bool
  | [] => true
  | .read :: _ => true
  | .skip :: cs => decide (st = .read) || reads_first st cs
  | .write _ _ :: _ => false
  | .write_char _ _ :: _ => false

/-- The `std::invalid_argument` that `to_version` throws, named after its message. -/
inductive invalid_argument where
  /-- Message: invalid major version. -/
  | invalid_major
  /-- Message: dot expected after major version. -/
  | dot_after_major
  /-- Message: invalid minor version. -/
  | invalid_minor
  /-- Message: dot expected after minor version. -/
  | dot_after_minor
  /-- Message: invalid bugfix version. -/
  | invalid_bugfix
  /-- Message: dash expected after bugfix version. -/
  | dash_after_bugfix
  /-- Message: a or b expected in release component. -/
  | a_or_b_expected
  /-- Message: invalid release component. -/
  | invalid_release
  /-- Message: junk after release component. -/
  | junk_after_release
  /-- Message: 0.0.0 version with release component. -/
  | zero_with_release
  deriving DecidableEq, Repr

/-- The character `s[p]` of a `std::string`, for `p <= size ()`: the null character at
`p = size ()`. -/
def char_at (s : List Nat) (p : Nat) : Nat := s.getD p 0

/-- The C string `s.c_str () + p`: the characters from offset `p` up to the first null. -/
def c_str (s : List Nat) (p : Nat) : List Nat := (s.drop p).takeWhile (fun c => c != 0)

/-- Function `isspace` in the C locale: space, and horizontal tab to carriage return. -/
def isspace (c : Nat) : Bool := c == 32 || (9 ≤ c && c ≤ 13)

/-- Function `isdigit`. -/
def isdigit (c : Nat) : Bool := 48 ≤ c && c ≤ 57

/-- Value of a run of decimal digits. -/
def digits_val (ds : List Nat) : Nat := ds.foldl (fun a c => 10 * a + (c - 48)) 0

/-- Function `strtol (b, &e, 10)` on a C string, for a 64-bit `long`: the value and the
number of characters consumed (`e - b`), or `none` when no conversion is made (`e == b`).
Leading white space is skipped, one sign is taken, then the longest run of digits; a value
out of range is clamped. -/
def strtol (b : List Nat) : Option (Int × Nat) :=
  let ws := b.takeWhile isspace
  let r1 := b.dropWhile isspace
  let sgn := if r1.head? = some 45 ∨ r1.head? = some 43 then 1 else 0
  let ds := (r1.drop sgn).takeWhile isdigit
  if ds = [] then none
  else
    let v : Int :=
      if r1.head? = some 45 then max (-(digits_val ds : Int)) (-(2 ^ 63))
      else min (digits_val ds : Int) (2 ^ 63 - 1)
    some (v, ws.length + sgn + ds.length)

/-- The lambda `parse` of `to_version`: the value and the new `p`. -/
def to_version.parse (s : List Nat) (p : Nat) (m : invalid_argument) (min max : Int) :
    Except invalid_argument (Nat × Nat) :=
  if char_at s p = 45 ∨ char_at s p = 43 then .error m
  else
    match strtol (c_str s p) with
    | none => .error m
    | some (r, k) => if r < min ∨ r > max then .error m else .ok (r.toNat, p + k)

/-- Function `to_version (const string&)`; `unsigned int` has 32 bits. -/
def to_version (s : List Nat) : Except invalid_argument Nat := do
  let n := s.length
  let (ma, p) ← to_version.parse s 0 .invalid_major 0 99
  if p ≥ n ∨ char_at s p ≠ 46 then .error .dot_after_major
  else do
  let (mi, p) ← to_version.parse s (p + 1) .invalid_minor 0 99
  if p ≥ n ∨ char_at s p ≠ 46 then .error .dot_after_minor
  else do
  let (bf, p) ← to_version.parse s (p + 1) .invalid_bugfix 0 99
  let ab ←
    if p < n then
      if char_at s p ≠ 45 then .error .dash_after_bugfix
      else
        let k := char_at s (p + 1)
        if k ≠ 0 then
          if k ≠ 97 ∧ k ≠ 98 then .error .a_or_b_expected
          else do
            let (ab, p) ← to_version.parse s (p + 1 + 1) .invalid_release 1 49
            if p ≠ n then .error .junk_after_release
            else pure (if k = 98 then ab + 50 else ab)
        else pure 1
    else pure 0
  let r := (ma * 1000000 + mi * 10000 + bf * 100) % 2 ^ 32
  if ab ≠ 0 then
    if r = 0 then .error .zero_with_release
    else pure (((r + (2 ^ 32 - 100)) % 2 ^ 32 + ab) % 2 ^ 32)
  else pure r

/-- The decimal digits of a number, as characters. -/
def dec (n : Nat) : List Nat := (Nat.toDigits 10 n).map Char.toNat

/-- Release stage of a version: alpha `N`, beta `N`, or the final release. -/
inductive stage where
  | alpha (n : Nat)
  | beta (n : Nat)
  | final
  deriving DecidableEq, Repr

/-- A version `major.minor.bugfix` with its release stage. -/
structure version where
  major : Nat
  minor : Nat
  bugfix : Nat
  stage : stage
  deriving DecidableEq, Repr

/-- The string of a version: `ma.mi.bf`, followed by `-aN` or `-bN` for a pre-release. -/
def version.render (v : version) : List Nat :=
  dec v.major ++ 46 :: dec v.minor ++ 46 :: dec v.bugfix ++
    match v.stage with
    | .alpha n => 45 :: 97 :: dec n
    | .beta n => 45 :: 98 :: dec n
    | .final => []

/-- Position of a stage in the order `a1 < ... < a49 < b1 < ... < b49 < final`. -/
def stage.rank : stage → Nat
  | .alpha n => n
  | .beta n => 50 + n
  | .final => 100

/-- A stage whose pre-release number, if it has one, is from 1 to 49. -/
def stage.in_range : stage → Bool
  | .alpha n => decide (1 ≤ n ∧ n ≤ 49)
  | .beta n => decide (1 ≤ n ∧ n ≤ 49)
  | .final => true

/-- A version that `to_version` accepts: components up to 99, a pre-release number from 1
to 49, and no pre-release of `0.0.0`. -/
def version.accepted (v : version) : Prop :=
  v.major ≤ 99 ∧ v.minor ≤ 99 ∧ v.bugfix ≤ 99 ∧ v.stage.in_range = true ∧
    (v.stage ≠ .final → ¬ (v.major = 0 ∧ v.minor = 0 ∧ v.bugfix = 0))

/-- Lexicographic order on (major, minor, bugfix, stage). -/
def version.lt (a b : version) : Prop :=
  a.major < b.major ∨ (a.major = b.major ∧
    (a.minor < b.minor ∨ (a.minor = b.minor ∧
      (a.bugfix < b.bugfix ∨ (a.bugfix = b.bugfix ∧ a.stage.rank < b.stage.rank)))))

/-- The characters `ds` are a decimal numeral, possibly with leading zeros, of `n`. -/
def decimal (ds : List Nat) (n : Nat) : Prop :=
  ds ≠ [] ∧ (∀ c ∈ ds, 48 ≤ c ∧ c ≤ 57) ∧ digits_val ds = n

instance (ds : List Nat) (n : Nat) : Decidable (decimal ds n) := by
  unfold decimal; exact inferInstance

instance (v : version) : Decidable v.accepted := by
  unfold version.accepted; exact inferInstance

instance (a b : version) : Decidable (a.lt b) := by
  unfold version.lt; exact inferInstance

/-- Modelled from the spec: the kind descriptor `target_type` of `build/target`, which is
not among the sources. Its fields are those the initialisers of `build/cxx/target.cxx`
give in order: type id, name, base kind, factory and search function; the base is the
descriptor that the pointer refers to, none for a null pointer. -/
inductive target_type where
  | mk (id : String) (name : String) (base : Option target_type) (factory : String)
      (search : String)

namespace target_type

def id : target_type → String
  | .mk i _ _ _ _ => i

def name : target_type → String
  | .mk _ n _ _ _ => n

def base : target_type → Option target_type
  | .mk _ _ b _ _ => b

def factory : target_type → String
  | .mk _ _ _ f _ => f

def search : target_type → String
  | .mk _ _ _ _ s => s

/-- Modelled from the spec: the query `is_a`, which walks the base chain of a kind and
compares descriptors by their id. -/
def is_a : target_type → target_type → Bool
  | .mk i _ none _ _, tt => i == tt.id
  | .mk i _ (some b) _ _, tt => i == tt.id || is_a b tt

end target_type

/-- Kind `hxx::static_type` of `build/cxx/target.cxx`; `file` is `file::static_type`, which
is defined outside the sources. -/
def hxx.static_type (file : target_type) : target_type :=
  .mk "hxx" "hxx" (some file) "target_factory<hxx>" file.search

/-- Kind `ixx::static_type`. -/
def ixx.static_type (file : target_type) : target_type :=
  .mk "ixx" "ixx" (some file) "target_factory<ixx>" file.search

/-- Kind `txx::static_type`. -/
def txx.static_type (file : target_type) : target_type :=
  .mk "txx" "txx" (some file) "target_factory<txx>" file.search

/-- Kind `cxx::static_type`. -/
def cxx.static_type (file : target_type) : target_type :=
  .mk "cxx" "cxx" (some file) "target_factory<cxx>" file.search

/-- Kind `h::static_type`. -/
def h.static_type (file : target_type) : target_type :=
  .mk "h" "h" (some file) "target_factory<h>" file.search

/-- Kind `c::static_type`. -/
def c.static_type (file : target_type) : target_type :=
  .mk "c" "c" (some file) "target_factory<c>" file.search

/-- The six source kinds that `build/cxx/target.cxx` defines. -/
def source_kinds (file : target_type) : List target_type :=
  [hxx.static_type file, ixx.static_type file, txx.static_type file, cxx.static_type file,
    h.static_type file, c.static_type file]

/-- Modelled from the spec: `target_key` of `target-key.hxx`, which is not among the
sources: a view of the kind, the two directories, the name and the extension. -/
structure target_key where
  type : target_type
  dir : String
  out : String
  name : String
  ext : Option String

/-- Class `prerequisite_key`; the scope is the address of the scope object. -/
structure prerequisite_key where
  proj : Option String
  tk : target_key
  scope : Nat

/-- Class `prerequisite`; `scope` is the address of the scope object and `target` is the
cache of the resolved target, none while it is null. -/
structure prerequisite where
  proj : Option String
  type : target_type
  dir : String
  out : String
  name : String
  ext : Option String
  scope : Nat
  target : Option Nat

/-- Member `prerequisite::key ()`. -/
def prerequisite.key (p : prerequisite) : prerequisite_key :=
  ⟨p.proj, ⟨p.type, p.dir, p.out, p.name, p.ext⟩, p.scope⟩

/-- A prerequisite instance: the object and the address at which it lives. -/
structure placed where
  addr : Nat
  obj : prerequisite

/-- Modelled from the spec: a target with its own prerequisite list, a vector whose
elements lie one after the other from the address `data` on. The class is defined outside
the sources. -/
structure target where
  data : Nat
  prerequisites : List prerequisite

/-- The element `i` of the prerequisite list of a target as an instance; `size` is the size
of a prerequisite object. -/
def target.element (t : target) (size i : Nat) : Option placed :=
  (t.prerequisites.get? i).map (fun o => ⟨t.data + i * size, o⟩)

/-- Modelled from the spec: `prerequisite::belongs (const target&)`, which
`prerequisite.hxx` declares and the sources do not define: whether this instance is
physically an element of the prerequisite list of the target, a check of identity by
address and not of value. -/
def placed.belongs (p : placed) (size : Nat) (t : target) : Bool :=
  (List.range t.prerequisites.length).any (fun i => p.addr == t.data + i * size)

end build2

namespace build2

/-! ## Lists and the `Except` monad -/

@[simp] theorem except_bind_ok {α β : Type} (a : α) (f : α → Except fault β) :
    (Except.ok a >>= f) = f a := rfl

@[simp] theorem except_bind_error {α β : Type} (e : fault) (f : α → Except fault β) :
    ((Except.error e : Except fault α) >>= f) = Except.error e := rfl

@[simp] theorem except_pure {α : Type} (a : α) : (pure a : Except fault α) = Except.ok a := rfl

theorem takeWhile_nl (l rest : List Nat) (h : 10 ∉ l) :
    (l ++ 10 :: rest).takeWhile (fun b => b != 10) = l := by
  induction l with
  | nil => simp
  | cons a l ih =>
      have ha : (a != 10) = true := by
        have : a ≠ 10 := fun e => h (by simp [e])
        simpa using this
      have hl : 10 ∉ l := fun e => h (by simp [e])
      simp [List.takeWhile_cons, ha, ih hl]

theorem dropWhile_nl (l rest : List Nat) (h : 10 ∉ l) :
    (l ++ 10 :: rest).dropWhile (fun b => b != 10) = 10 :: rest := by
  induction l with
  | nil => simp
  | cons a l ih =>
      have ha : (a != 10) = true := by
        have : a ≠ 10 := fun e => h (by simp [e])
        simpa using this
      have hl : 10 ∉ l := fun e => h (by simp [e])
      simp [List.dropWhile_cons, ha, ih hl]

theorem takeWhile_no_nl (l : List Nat) (h : 10 ∉ l) :
    l.takeWhile (fun b => b != 10) = l := by
  induction l with
  | nil => simp
  | cons a l ih =>
      have ha : (a != 10) = true := by
        have : a ≠ 10 := fun e => h (by simp [e])
        simpa using this
      have hl : 10 ∉ l := fun e => h (by simp [e])
      simp [List.takeWhile_cons, ha, ih hl]

theorem dropWhile_no_nl (l : List Nat) (h : 10 ∉ l) :
    l.dropWhile (fun b => b != 10) = [] := by
  induction l with
  | nil => simp
  | cons a l ih =>
      have ha : (a != 10) = true := by
        have : a ≠ 10 := fun e => h (by simp [e])
        simpa using this
      have hl : 10 ∉ l := fun e => h (by simp [e])
      simp [List.dropWhile_cons, ha, ih hl]

/-- Writing inside or at the end of a file. -/
theorem poke_mid (pre tl : List Nat) (b : Nat) :
    poke (pre ++ tl) pre.length b = pre ++ b :: tl.drop 1 := by
  simp [poke]

theorem fstream_write_eq (bs : List Nat) : ∀ (pre tl : List Nat) (x : Bool) (w : List (Nat × Nat)),
    fstream.write ⟨pre ++ tl, pre.length, false, false, x, w⟩ bs
      = .ok ⟨pre ++ bs ++ tl.drop bs.length, pre.length + bs.length, false, false, x,
          w ++ trace pre.length bs⟩ := by
  induction bs with
  | nil => intro pre tl x w; simp [fstream.write, trace]
  | cons b bs ih =>
      intro pre tl x w
      simp only [fstream.write, fstream.good, fstream.put]
      simp only [Bool.not_false, Bool.and_self, if_true, except_bind_ok, poke_mid]
      have := ih (pre ++ [b]) (tl.drop 1) x (w ++ [(pre.length, b)])
      simp only [List.length_append, List.length_singleton, List.append_assoc,
        List.singleton_append] at this
      rw [this]
      simp [trace, Nat.add_assoc, Nat.add_comm 1]

/-! ## The mode switch -/

theorem put_zeros_eq (n : Nat) : ∀ (pre tl : List Nat) (x : Bool) (w : List (Nat × Nat)),
    depdb.put_zeros n ⟨pre ++ tl, pre.length, false, false, x, w⟩
      = .ok ⟨pre ++ List.replicate n 0 ++ tl.drop n, pre.length + n, false, false, x,
          w ++ trace pre.length (List.replicate n 0)⟩ := by
  induction n with
  | zero => intro pre tl x w; simp [depdb.put_zeros, trace]
  | succ n ih =>
      intro pre tl x w
      simp only [depdb.put_zeros, fstream.good, fstream.put]
      simp only [Bool.not_false, Bool.and_self, if_true, except_bind_ok, poke_mid]
      have := ih (pre ++ [0]) (tl.drop 1) x (w ++ [(pre.length, 0)])
      simp only [List.length_append, List.length_singleton, List.append_assoc,
        List.singleton_append] at this
      rw [this]
      simp [trace, List.replicate_succ, Nat.add_assoc, Nat.add_comm 1]

/-- The mode switch, in closed form. -/
theorem change_eq (mt : timestamp) (tch : Bool) (st : state) (file : List Nat) (p : Nat)
    (e f x : Bool) (w : List (Nat × Nat)) (q : Int) (ln : List Nat) (fl : Bool)
    (pre tl : List Nat) (hst : st ≠ .write) (hf : file = pre ++ tl) (hq : q = (pre.length : Int)) :
    depdb.change ⟨mt, tch, st, ⟨file, p, e, f, x, w⟩, q, ln⟩ fl
      = .ok ⟨.timestamp_unknown, tch, .write,
          ⟨pre ++ List.replicate tl.length 0, pre.length, false, false, true,
            w ++ trace pre.length (List.replicate tl.length 0)⟩, q, ln⟩ := by
  subst hf hq
  simp only [depdb.change, if_neg hst, fstream.clear, fstream.exceptions, fstream.setstate,
    fstream.seekg_end, fstream.tellg, fstream.good, fstream.seekp, fstream.flush]
  have hpn : ¬ ((pre.length : Int) < 0) := by omega
  by_cases htl : tl = []
  · subst htl
    simp [trace, hpn]
  · have hnn : ¬ ((tl.length : Int) < 0) := by omega
    have htn : ((pre.length : Int) + (tl.length : Int)).toNat - pre.length = tl.length := by omega
    simp [htl, hpn, hnn, htn, put_zeros_eq]

/-! ## Reading -/

theorem tellg_ok (file : List Nat) (p : Nat) (x : Bool) (w : List (Nat × Nat)) :
    fstream.tellg ⟨file, p, false, false, x, w⟩ = .ok ((p : Int), ⟨file, p, false, false, x, w⟩) := rfl

theorem getline_line (file : List Nat) (p : Nat) (x : Bool) (w : List (Nat × Nat))
    (ln pre l rest : List Nat) (hf : file = pre ++ l ++ 10 :: rest) (hp : p = pre.length)
    (hl : 10 ∉ l) :
    fstream.getline ⟨file, p, false, false, x, w⟩ ln
      = .ok (l, ⟨file, pre.length + l.length + 1, false, false, x, w⟩) := by
  subst hf hp
  simp [fstream.getline, fstream.good, takeWhile_nl l rest hl, dropWhile_nl l rest hl]

theorem getline_eof (file : List Nat) (p : Nat) (w : List (Nat × Nat))
    (ln pre tl : List Nat) (hf : file = pre ++ tl) (hp : p = pre.length) (hl : 10 ∉ tl) :
    fstream.getline ⟨file, p, false, false, false, w⟩ ln
      = .ok (tl, ⟨file, pre.length + tl.length, true, tl.length == 0, false, w⟩) := by
  subst hf hp
  simp [fstream.getline, fstream.good, fstream.setstate, takeWhile_no_nl tl hl,
    dropWhile_no_nl tl hl]

theorem peek_some (file : List Nat) (p : Nat) (x : Bool) (w : List (Nat × Nat))
    (pre : List Nat) (c : Nat) (r : List Nat) (hf : file = pre ++ c :: r) (hp : p = pre.length) :
    fstream.peek ⟨file, p, false, false, x, w⟩ = .ok (some c, ⟨file, p, false, false, x, w⟩) := by
  subst hf hp
  simp [fstream.peek, fstream.good]

theorem peek_eof (file : List Nat) (p : Nat) (w : List (Nat × Nat)) (hp : p = file.length) :
    fstream.peek ⟨file, p, false, false, false, w⟩
      = .ok (none, ⟨file, p, true, false, false, w⟩) := by
  subst hp
  simp [fstream.peek, fstream.good, fstream.setstate]

theorem get_some (file : List Nat) (p : Nat) (x : Bool) (w : List (Nat × Nat))
    (pre : List Nat) (c : Nat) (r : List Nat) (hf : file = pre ++ c :: r) (hp : p = pre.length) :
    fstream.get ⟨file, p, false, false, x, w⟩
      = .ok (some c, ⟨file, p + 1, false, false, x, w⟩) := by
  subst hf hp
  simp [fstream.get, fstream.good]

theorem get_eof (file : List Nat) (p : Nat) (w : List (Nat × Nat)) (hp : p = file.length) :
    fstream.get ⟨file, p, false, false, false, w⟩
      = .ok (none, ⟨file, p, true, true, false, w⟩) := by
  subst hp
  simp [fstream.get, fstream.good, fstream.setstate]

/-- In `Read`, on a line that is terminated and followed by at least one more byte. -/
theorem read_line (mt : timestamp) (tch : Bool) (file : List Nat) (p : Nat) (x : Bool)
    (w : List (Nat × Nat)) (q : Int) (ln : List Nat) (pre l : List Nat) (c : Nat) (r : List Nat)
    (hf : file = pre ++ l ++ 10 :: c :: r) (hp : p = pre.length) (hl : 10 ∉ l) :
    depdb.read ⟨mt, tch, .read, ⟨file, p, false, false, x, w⟩, q, ln⟩
      = .ok (some l, ⟨mt, tch, if c = 0 then .read_eof else .read,
          ⟨file, pre.length + l.length + 1, false, false, x, w⟩, (pre.length : Int), l⟩) := by
  have hg := getline_line file p x w ln pre l (c :: r) hf hp hl
  have hk := peek_some file (pre.length + l.length + 1) x w (pre ++ l ++ [10]) c r
    (by simp [hf]) (by simp; omega)
  subst hp
  simp only [depdb.read, depdb.read_, tellg_ok, except_bind_ok, hg, hk, fstream.fail,
    fstream.eof, reduceCtorEq, ↓reduceIte, except_pure, Bool.false_eq_true]
  by_cases hc : c = 0 <;> simp [hc]

/-- In `Read`, when no newline is left before the end of the file. -/
theorem read_defect_eof (mt : timestamp) (tch : Bool) (file : List Nat) (p : Nat)
    (w : List (Nat × Nat)) (q : Int) (ln : List Nat) (pre tl : List Nat)
    (hf : file = pre ++ tl) (hp : p = pre.length) (hl : 10 ∉ tl) :
    depdb.read ⟨mt, tch, .read, ⟨file, p, false, false, false, w⟩, q, ln⟩
      = .ok (none, ⟨.timestamp_unknown, tch, .write,
          ⟨pre ++ List.replicate tl.length 0, pre.length, false, false, true,
            w ++ trace pre.length (List.replicate tl.length 0)⟩, (pre.length : Int), tl⟩) := by
  have hg := getline_eof file p w ln pre tl hf hp hl
  have hc := fun e f => change_eq mt tch .read file (pre.length + tl.length) e f false w
    (pre.length : Int) tl true pre tl (by decide) hf rfl
  subst hp
  simp only [depdb.read, depdb.read_, tellg_ok, except_bind_ok, hg, fstream.fail,
    fstream.eof, reduceCtorEq, ↓reduceIte, except_pure, Bool.false_eq_true, hc]
  by_cases ht : (tl.length == 0) = true <;> simp [ht]

/-- In `Read`, when the newline of the line is the last byte of the file. -/
theorem read_defect_last (mt : timestamp) (tch : Bool) (file : List Nat) (p : Nat)
    (w : List (Nat × Nat)) (q : Int) (ln : List Nat) (pre l : List Nat)
    (hf : file = pre ++ l ++ [10]) (hp : p = pre.length) (hl : 10 ∉ l) :
    depdb.read ⟨mt, tch, .read, ⟨file, p, false, false, false, w⟩, q, ln⟩
      = .ok (none, ⟨.timestamp_unknown, tch, .write,
          ⟨pre ++ List.replicate (l.length + 1) 0, pre.length, false, false, true,
            w ++ trace pre.length (List.replicate (l.length + 1) 0)⟩, (pre.length : Int), l⟩) := by
  have hg := getline_line file p false w ln pre l [] hf hp hl
  have hk := peek_eof file (pre.length + l.length + 1) w (by simp [hf]; omega)
  have hc := fun e f => change_eq mt tch .read file (pre.length + l.length + 1) e f false w
    (pre.length : Int) l true pre (l ++ [10]) (by decide) (by simp [hf]) rfl
  subst hp
  simp only [depdb.read, depdb.read_, tellg_ok, except_bind_ok, hg, hk, fstream.fail,
    fstream.eof, reduceCtorEq, ↓reduceIte, except_pure, Bool.false_eq_true, hc]
  simp

/-- In `ReadEnd`, `read ()` yields no line and only remembers the position. -/
theorem read_at_end (mt : timestamp) (tch : Bool) (file : List Nat) (p : Nat) (x : Bool)
    (w : List (Nat × Nat)) (q : Int) (ln : List Nat) :
    depdb.read ⟨mt, tch, .read_eof, ⟨file, p, false, false, x, w⟩, q, ln⟩
      = .ok (none, ⟨mt, tch, .read_eof, ⟨file, p, false, false, x, w⟩, (p : Int), ln⟩) := by
  simp [depdb.read, depdb.read_, tellg_ok]

/-- In `Write`, `read ()` yields no line and changes nothing. -/
theorem read_in_write (d : depdb) (h : d.state_ = .write) : d.read = .ok (none, d) := by
  simp [depdb.read, h]

/-! ## Writing and closing -/

theorem trace_append (a b : List Nat) : ∀ p : Nat,
    trace p (a ++ b) = trace p a ++ trace (p + a.length) b := by
  induction a with
  | nil => intro p; simp [trace]
  | cons c a ih =>
      intro p
      simp [trace, ih (p + 1), Nat.add_assoc, Nat.add_comm 1]

theorem trace_length (a : List Nat) : ∀ p : Nat, (trace p a).length = a.length := by
  induction a with
  | nil => intro p; simp [trace]
  | cons c a ih => intro p; simp [trace, ih (p + 1)]

theorem trace_take (a : List Nat) : ∀ (p m : Nat), (trace p a).take m = trace p (a.take m) := by
  induction a with
  | nil => intro p m; simp [trace]
  | cons c a ih =>
      intro p m
      cases m with
      | zero => simp [trace]
      | succ m => simp [trace, ih (p + 1) m]

theorem put_ok (file : List Nat) (p : Nat) (x : Bool) (w : List (Nat × Nat)) (c : Nat) :
    fstream.put ⟨file, p, false, false, x, w⟩ c
      = .ok ⟨poke file p c, p + 1, false, false, x, w ++ [(p, c)]⟩ := rfl

/-- In `Write`, `write (s)` with the newline puts the bytes of `s` and the newline. -/
theorem write_eq (mt : timestamp) (tch : Bool) (file : List Nat) (p : Nat) (x : Bool)
    (w : List (Nat × Nat)) (q : Int) (ln : List Nat) (pre tl bs : List Nat)
    (hf : file = pre ++ tl) (hp : p = pre.length) :
    depdb.write ⟨mt, tch, .write, ⟨file, p, false, false, x, w⟩, q, ln⟩ bs true
      = .ok ⟨mt, tch, .write,
          ⟨pre ++ (bs ++ [10]) ++ tl.drop (bs.length + 1), pre.length + (bs.length + 1),
            false, false, x, w ++ trace pre.length (bs ++ [10])⟩, q, ln⟩ := by
  subst hf hp
  have h1 := fstream_write_eq bs pre tl x w
  have h2 : poke (pre ++ bs ++ List.drop bs.length tl) (pre.length + bs.length) 10
      = pre ++ (bs ++ [10]) ++ tl.drop (bs.length + 1) := by
    have := poke_mid (pre ++ bs) (List.drop bs.length tl) 10
    simp only [List.length_append] at this
    rw [this]
    simp [Nat.add_comm 1]
  simp only [depdb.write, ne_eq, not_true_eq_false, ↓reduceIte, except_pure, except_bind_ok,
    h1, put_ok, h2, trace_append, trace]
  simp [Nat.add_assoc]

/-- In `Write`, `close ()` puts the end marker. -/
theorem close_write (mt : timestamp) (tch : Bool) (file : List Nat) (p : Nat) (x : Bool)
    (w : List (Nat × Nat)) (q : Int) (ln : List Nat) (pre tl : List Nat)
    (hf : file = pre ++ tl) (hp : p = pre.length) :
    depdb.close ⟨mt, tch, .write, ⟨file, p, false, false, x, w⟩, q, ln⟩
      = .ok ⟨mt, tch, .write,
          ⟨pre ++ 0 :: tl.drop 1, pre.length + 1, false, false, x, w ++ [(pre.length, 0)]⟩,
          q, ln⟩ := by
  subst hf hp
  simp only [depdb.close, reduceCtorEq, ↓reduceIte, ne_eq, not_true_eq_false, except_pure,
    except_bind_ok, put_ok, poke_mid]

/-- Lines written one after the other in `Write`. -/
theorem write_lines_eq (ls : List (List Nat)) : ∀ (mt : timestamp) (tch : Bool)
    (file : List Nat) (p : Nat) (x : Bool) (w : List (Nat × Nat)) (q : Int) (ln : List Nat)
    (pre tl : List Nat), file = pre ++ tl → p = pre.length →
    write_lines ⟨mt, tch, .write, ⟨file, p, false, false, x, w⟩, q, ln⟩ ls
      = .ok ⟨mt, tch, .write,
          ⟨pre ++ enc ls ++ tl.drop (enc ls).length, pre.length + (enc ls).length,
            false, false, x, w ++ trace pre.length (enc ls)⟩, q, ln⟩ := by
  induction ls with
  | nil => intro mt tch file p x w q ln pre tl hf hp; subst hf hp; simp [write_lines, enc, trace]
  | cons l ls ih =>
      intro mt tch file p x w q ln pre tl hf hp
      have h1 := write_eq mt tch file p x w q ln pre tl l hf hp
      have h2 := ih mt tch (pre ++ (l ++ [10]) ++ tl.drop (l.length + 1))
        (pre.length + (l.length + 1)) x (w ++ trace pre.length (l ++ [10])) q ln
        (pre ++ (l ++ [10])) (tl.drop (l.length + 1)) rfl (by simp)
      simp only [write_lines, h1, except_bind_ok, h2]
      have e1 : enc (l :: ls) = (l ++ [10]) ++ enc ls := by simp [enc]
      rw [e1, trace_append]
      simp [Nat.add_assoc, Nat.add_comm, Nat.add_left_comm]
      have e2 : l ++ 10 :: enc ls = l ++ ([10] ++ enc ls) := by simp
      rw [e2, trace_append, trace_append]
      simp [Nat.add_assoc, Nat.add_comm, Nat.add_left_comm]

/-! ## Opening, and reading several lines -/

theorem ctor_none :
    depdb.depdb none
      = .ok ⟨.timestamp_unknown, false, .write,
          ⟨[49, 10], 2, false, false, true, [(0, 49), (1, 10)]⟩, 0, []⟩ := rfl

/-- Opening a file that starts with the version line followed by one more byte. -/
theorem ctor_version (c : Nat) (r : List Nat) :
    depdb.depdb (some ([49, 10] ++ c :: r))
      = .ok ⟨.known, false, if c = 0 then .read_eof else .read,
          ⟨[49, 10] ++ c :: r, 2, false, false, false, []⟩, 0, [49]⟩ := by
  have h := read_line .known false ([49, 10] ++ c :: r) 0 false [] 0 [] [] [49] c r
    (by simp) (by simp) (by decide)
  simp only [depdb.depdb, file_mtime, fstream.open_, fstream.exceptions, fstream.setstate,
    reduceCtorEq, ↓reduceIte, decide_False, Bool.or_false, Bool.and_false, Bool.false_eq_true,
    except_bind_ok, Option.getD_some, h]
  by_cases hc : c = 0 <;> simp [hc]

/-- The first byte of a non-empty run of storable lines is not null. -/
theorem enc_head (l : List Nat) (ls : List (List Nat)) (rest : List Nat) (h : storable l) :
    ∃ c r, enc (l :: ls) ++ rest = c :: r ∧ c ≠ 0 := by
  cases l with
  | nil => exact ⟨10, enc ls ++ rest, by simp [enc], by decide⟩
  | cons a l =>
      refine ⟨a, l ++ 10 :: enc ls ++ rest, by simp [enc], ?_⟩
      intro e
      exact h.2 (by simp [e])

theorem enc_append (a b : List (List Nat)) : enc (a ++ b) = enc a ++ enc b := by
  induction a with
  | nil => simp [enc]
  | cons l a ih => simp [enc, ih]

/-- Reading a run of storable lines that is followed by at least one more byte `c`. -/
theorem reads_lines (ls : List (List Nat)) : ∀ (l : List Nat) (mt : timestamp) (tch : Bool)
    (file : List Nat) (p : Nat) (x : Bool) (w : List (Nat × Nat)) (q : Int) (ln : List Nat)
    (pre : List Nat) (c : Nat) (r : List Nat),
    (∀ a ∈ ls, storable a) → storable l → file = pre ++ enc ls ++ l ++ 10 :: c :: r →
    p = pre.length →
    reads (ls.length + 1) ⟨mt, tch, .read, ⟨file, p, false, false, x, w⟩, q, ln⟩
      = .ok (ls.map some ++ [some l], ⟨mt, tch, if c = 0 then .read_eof else .read,
          ⟨file, pre.length + (enc ls).length + l.length + 1, false, false, x, w⟩,
          ((pre.length + (enc ls).length : Nat) : Int), l⟩) := by
  induction ls with
  | nil =>
      intro l mt tch file p x w q ln pre c r _ hl hf hp
      have h := read_line mt tch file p x w q ln pre l c r (by simpa [enc] using hf) hp hl.1
      simp [reads, h, enc]
  | cons a ls ih =>
      intro l mt tch file p x w q ln pre c r hs hl hf hp
      have ha : storable a := hs a (by simp)
      have hs2 : ∀ b ∈ ls, storable b := fun b hb => hs b (by simp [hb])
      -- The byte after the newline of `a` is the first byte of the next line.
      obtain ⟨c1, r1, e1, hc1⟩ : ∃ c1 r1, enc ls ++ l ++ 10 :: c :: r = c1 :: r1 ∧ c1 ≠ 0 := by
        cases ls with
        | nil =>
            cases l with
            | nil => exact ⟨10, c :: r, by simp [enc], by decide⟩
            | cons b l => exact ⟨b, l ++ 10 :: c :: r, by simp [enc], by
                intro e; subst e
                exact hl.2 (by simp)⟩
        | cons b ls =>
            obtain ⟨c1, r1, e1, hc1⟩ := enc_head b ls (l ++ 10 :: c :: r) (hs2 b (by simp))
            exact ⟨c1, r1, by simpa using e1, hc1⟩
      have hf1 : file = pre ++ a ++ 10 :: c1 :: r1 := by
        rw [← e1, hf]; simp [enc]
      have h := read_line mt tch file p x w q ln pre a c1 r1 hf1 hp ha.1
      have h2 := ih l mt tch file (pre.length + a.length + 1) x w (pre.length : Int) a
        (pre ++ a ++ [10]) c r hs2 hl (by rw [hf]; simp [enc]) (by simp; omega)
      simp only [reads, h, except_bind_ok, if_neg hc1]
      rw [show ls.length + 1 = ls.length + 1 from rfl] at h2
      simp only [reads] at h2 ⊢
      rw [h2]
      simp [enc, Nat.add_assoc, Nat.add_comm, Nat.add_left_comm]

/-! ## Reading a whole store -/

theorem reads_add (a : Nat) : ∀ (b : Nat) (d : depdb),
    reads (a + b) d = (do
      let (r1, d1) ← reads a d
      let (r2, d2) ← reads b d1
      pure (r1 ++ r2, d2)) := by
  induction a with
  | zero =>
      intro b d
      simp only [Nat.zero_add, reads, except_bind_ok, List.nil_append]
      cases reads b d <;> rfl
  | succ a ih =>
      intro b d
      rw [Nat.add_right_comm]
      simp only [reads]
      cases h : d.read with
      | error e => rfl
      | ok v =>
          simp only [except_bind_ok, ih]
          cases reads a v.2 with
          | error e => rfl
          | ok v1 =>
              simp only [except_bind_ok]
              cases hb : reads b v1.2 with
              | error e => simp [hb]
              | ok v2 => simp [hb]

/-- In `ReadEnd`, every further `read ()` yields no line. -/
theorem reads_at_end (k : Nat) : ∀ (mt : timestamp) (tch : Bool) (file : List Nat) (p : Nat)
    (x : Bool) (w : List (Nat × Nat)) (q : Int) (ln : List Nat),
    reads (k + 1) ⟨mt, tch, .read_eof, ⟨file, p, false, false, x, w⟩, q, ln⟩
      = .ok (List.replicate (k + 1) none,
          ⟨mt, tch, .read_eof, ⟨file, p, false, false, x, w⟩, (p : Int), ln⟩) := by
  induction k with
  | zero => intro mt tch file p x w q ln; simp [reads, read_at_end]
  | succ k ih =>
      intro mt tch file p x w q ln
      rw [reads]
      simp only [read_at_end, except_bind_ok, ih]
      simp [List.replicate_succ]

/-- In `Write`, every `read ()` yields no line. -/
theorem reads_in_write (k : Nat) (d : depdb) (h : d.state_ = .write) :
    reads k d = .ok (List.replicate k none, d) := by
  induction k with
  | zero => simp [reads]
  | succ k ih => simp [reads, read_in_write d h, ih, List.replicate_succ]

/-- Opening a store and reading its first lines `a ++ [l]`. -/
theorem open_store_reads (a : List (List Nat)) (l : List Nat) (b : List (List Nat))
    (junk : List Nat) (h : ∀ y ∈ a ++ l :: b, storable y) :
    reopen_reads (store (a ++ l :: b) junk) (a.length + 1)
      = .ok (a.map some ++ [some l], ⟨.known, false, if b = [] then .read_eof else .read,
          ⟨store (a ++ l :: b) junk, 2 + (enc a).length + l.length + 1, false, false, false, []⟩,
          ((2 + (enc a).length : Nat) : Int), l⟩) := by
  have ha : ∀ y ∈ a, storable y := fun y hy => h y (by simp [hy])
  have hl : storable l := h l (by simp)
  have hb : ∀ y ∈ b, storable y := fun y hy => h y (by simp [hy])
  -- The byte after the version line is not null.
  obtain ⟨c0, r0, e0, hc0⟩ : ∃ c0 r0, enc (a ++ l :: b) ++ 0 :: junk = c0 :: r0 ∧ c0 ≠ 0 := by
    cases a with
    | nil => exact enc_head l b _ hl
    | cons y a => exact enc_head y (a ++ l :: b) _ (ha y (by simp))
  -- The byte after the newline of `l`.
  obtain ⟨c1, r1, e1, hc1⟩ : ∃ c1 r1, enc b ++ 0 :: junk = c1 :: r1 ∧ (c1 = 0 ↔ b = []) := by
    cases b with
    | nil => exact ⟨0, junk, by simp [enc], by simp⟩
    | cons y b =>
        obtain ⟨c, r, e, hc⟩ := enc_head y b (0 :: junk) (hb y (by simp))
        exact ⟨c, r, e, by simp [hc]⟩
  have hfile : store (a ++ l :: b) junk = [49, 10] ++ c0 :: r0 := by
    simp only [store, List.append_assoc]; rw [e0]
  have hfile2 : store (a ++ l :: b) junk = [49, 10] ++ enc a ++ l ++ 10 :: c1 :: r1 := by
    rw [← e1]; simp [store, enc_append, enc]
  have h1 := ctor_version c0 r0
  rw [← hfile, if_neg hc0] at h1
  have h2 := reads_lines a l .known false (store (a ++ l :: b) junk) 2 false [] 0 [49]
    [49, 10] c1 r1 ha hl hfile2 rfl
  simp only [reopen_reads, h1, except_bind_ok, h2]
  by_cases hbe : b = []
  · simp [hbe, hc1.mpr hbe]
  · have : c1 ≠ 0 := fun e => hbe (hc1.mp e)
    simp [hbe, this]

/-- Opening a store, reading all its lines and asking for one more. -/
theorem open_store_reads_all (ls : List (List Nat)) (junk : List Nat)
    (h : ∀ y ∈ ls, storable y) :
    ∃ ln, reopen_reads (store ls junk) (ls.length + 1)
      = .ok (ls.map some ++ [none], ⟨.known, false, .read_eof,
          ⟨store ls junk, 2 + (enc ls).length, false, false, false, []⟩,
          ((2 + (enc ls).length : Nat) : Int), ln⟩) := by
  rcases List.eq_nil_or_concat ls with hnil | ⟨a, l, hcat⟩
  · subst hnil
    refine ⟨[49], ?_⟩
    have h1 := ctor_version 0 junk
    simp only [if_true] at h1
    have hs : store [] junk = [49, 10] ++ 0 :: junk := rfl
    rw [hs]
    simp only [reopen_reads, h1, except_bind_ok, reads, read_at_end, except_pure]
    simp [enc]
  · rw [List.concat_eq_append] at hcat
    subst hcat
    refine ⟨l, ?_⟩
    have h1 := open_store_reads a l [] junk (by simpa using h)
    simp only [if_true] at h1
    have e : (a ++ [l]).length + 1 = (a.length + 1) + 1 := by simp
    rw [e]
    simp only [reopen_reads] at h1 ⊢
    cases hd : depdb.depdb (some (store (a ++ [l]) junk)) with
    | error e => rw [hd] at h1; exact absurd h1 (by simp)
    | ok d =>
        rw [hd] at h1
        simp only [except_bind_ok] at h1 ⊢
        rw [reads_add, h1]
        simp only [except_bind_ok, reads, read_at_end, except_pure]
        simp [enc_append, enc, Nat.add_assoc]

/-! ## Round trip -/

theorem plain_storable (l : List Nat) (h : plain l) : storable l := by
  refine ⟨h.1, ?_⟩
  intro e
  cases l with
  | nil => simp at e
  | cons a l =>
      simp at e
      exact h.2 (by simp [e])

/-- A session on a new file leaves exactly the store of the lines written. -/
theorem fresh_session_eq (ls : List (List Nat)) :
    fresh_session ls
      = .ok ⟨.timestamp_unknown, false, .write,
          ⟨store ls [], 2 + (enc ls).length + 1, false, false, true,
            [(0, 49), (1, 10)] ++ trace 2 (enc ls) ++ [(2 + (enc ls).length, 0)]⟩, 0, []⟩ := by
  have h1 := write_lines_eq ls .timestamp_unknown false [49, 10] 2 true [(0, 49), (1, 10)] 0 []
    [49, 10] [] (by simp) rfl
  have h2 := close_write .timestamp_unknown false ([49, 10] ++ enc ls ++ List.drop (enc ls).length [])
    ([49, 10].length + (enc ls).length) true
    ([(0, 49), (1, 10)] ++ trace [49, 10].length (enc ls)) 0 [] ([49, 10] ++ enc ls) []
    (by simp) (by simp; omega)
  simp only [fresh_session, ctor_none, except_bind_ok, h1, h2]
  have e : 2 + (enc ls).length = (enc ls).length + 2 := by omega
  simp [store, e]

theorem round_trip_storable (ls : List (List Nat)) (h : ∀ l ∈ ls, storable l) :
    ∃ d1 d2, fresh_session ls = .ok d1 ∧
      reopen_reads d1.fs_.file (ls.length + 1) = .ok (ls.map some ++ [none], d2) ∧
      d2.state_ = .read_eof := by
  obtain ⟨ln, h2⟩ := open_store_reads_all ls [] h
  exact ⟨_, _, fresh_session_eq ls, h2, rfl⟩

/-- C1. Round trip: writing lines without newline and without null byte to a new store,
closing, reopening and calling `read ()` returns exactly the lines in order and then no
line, with the store in `ReadEnd`. -/
theorem round_trip (ls : List (List Nat)) (h : ∀ l ∈ ls, plain l) :
    ∃ d1 d2, fresh_session ls = .ok d1 ∧
      reopen_reads d1.fs_.file (ls.length + 1) = .ok (ls.map some ++ [none], d2) ∧
      d2.state_ = .read_eof :=
  round_trip_storable ls (fun l hl => plain_storable l (h l hl))

/-- C1 at three lines, one of them empty. -/
theorem round_trip_witness :
    (∀ l ∈ [[97, 98], [], [99]], plain l) ∧
    ∃ d1 d2, fresh_session [[97, 98], [], [99]] = .ok d1 ∧
      reopen_reads d1.fs_.file ([[97, 98], [], [99]].length + 1)
        = .ok ([[97, 98], [], [99]].map some ++ [none], d2) ∧
      d2.state_ = .read_eof :=
  ⟨by simp [plain], round_trip [[97, 98], [], [99]] (by simp [plain])⟩

/-- C9, as stated, fails: the line made of one null byte is newline-free, yet a new store
written with it does not read back as that line followed by end of data. -/
theorem null_first_line_lost :
    (∀ l ∈ [[0]], 10 ∉ l) ∧
    ¬ ∃ d1 d2, fresh_session [[0]] = .ok d1 ∧
      reopen_reads d1.fs_.file ([[0]].length + 1) = .ok ([[0]].map some ++ [none], d2) ∧
      d2.state_ = .read_eof := by
  refine ⟨by decide, ?_⟩
  rintro ⟨d1, d2, h1, h2, -⟩
  rw [fresh_session_eq] at h1
  cases h1
  have h3 : reopen_reads (store [[0]] []) 2 = .ok ([none, none], _) := rfl
  simp only [List.length_cons, List.length_nil] at h2
  rw [h3] at h2
  exact absurd h2 (by simp)

/-- C9, amended. The round trip holds for every list of lines in which no line contains a
newline and no line begins with a null byte (null bytes elsewhere and empty lines are
fine). -/
theorem round_trip_any_storable (ls : List (List Nat))
    (h : ∀ l ∈ ls, 10 ∉ l ∧ l.head? ≠ some 0) :
    ∃ d1 d2, fresh_session ls = .ok d1 ∧
      reopen_reads d1.fs_.file (ls.length + 1) = .ok (ls.map some ++ [none], d2) ∧
      d2.state_ = .read_eof :=
  round_trip_storable ls h

/-- C9, amended, at lines holding null bytes behind their first byte. -/
theorem round_trip_any_storable_witness :
    (∀ l ∈ [[97, 0, 0], [], [255, 0]], 10 ∉ l ∧ l.head? ≠ some 0) ∧
    ∃ d1 d2, fresh_session [[97, 0, 0], [], [255, 0]] = .ok d1 ∧
      reopen_reads d1.fs_.file ([[97, 0, 0], [], [255, 0]].length + 1)
        = .ok ([[97, 0, 0], [], [255, 0]].map some ++ [none], d2) ∧
      d2.state_ = .read_eof :=
  ⟨by simp, round_trip_any_storable [[97, 0, 0], [], [255, 0]] (by simp)⟩

/-! ## Files with a defect -/

/-- A list of bytes either has no newline or splits at its first newline. -/
theorem split_nl (f : List Nat) : 10 ∉ f ∨ ∃ l rest, f = l ++ 10 :: rest ∧ 10 ∉ l := by
  induction f with
  | nil => left; simp
  | cons a f ih =>
      by_cases ha : a = 10
      · right; exact ⟨[], f, by simp [ha], by simp⟩
      · rcases ih with h | ⟨l, rest, e, hl⟩
        · left
          simp only [List.mem_cons, not_or]
          exact ⟨fun e => ha e.symm, h⟩
        · right
          refine ⟨a :: l, rest, by simp [e], ?_⟩
          simp only [List.mem_cons, not_or]
          exact ⟨fun e => ha e.symm, hl⟩

/-- Opening a file that holds the version line, storable lines and then a byte that is
not null, and reading those lines: the store is in `Read` right behind them. -/
theorem open_reads_block (ls : List (List Nat)) (c : Nat) (r : List Nat)
    (h : ∀ y ∈ ls, storable y) (hc : c ≠ 0) :
    ∃ q ln, reopen_reads ([49, 10] ++ enc ls ++ c :: r) ls.length
      = .ok (ls.map some, ⟨.known, false, .read,
          ⟨[49, 10] ++ enc ls ++ c :: r, 2 + (enc ls).length, false, false, false, []⟩,
          q, ln⟩) := by
  rcases List.eq_nil_or_concat ls with hnil | ⟨a, l, hcat⟩
  · subst hnil
    have h1 := ctor_version c r
    rw [if_neg hc] at h1
    refine ⟨0, [49], ?_⟩
    have e : [49, 10] ++ enc [] ++ c :: r = [49, 10] ++ c :: r := rfl
    rw [e]
    simp only [reopen_reads, h1, except_bind_ok, List.length_nil, reads]
    simp [enc]
  · rw [List.concat_eq_append] at hcat
    subst hcat
    have ha : ∀ y ∈ a, storable y := fun y hy => h y (by simp [hy])
    have hl : storable l := h l (by simp)
    obtain ⟨c0, r0, e0, hc0⟩ : ∃ c0 r0, enc (a ++ [l]) ++ c :: r = c0 :: r0 ∧ c0 ≠ 0 := by
      cases a with
      | nil => exact enc_head l [] _ hl
      | cons y a => exact enc_head y (a ++ [l]) _ (ha y (by simp))
    have hfile : [49, 10] ++ enc (a ++ [l]) ++ c :: r = [49, 10] ++ c0 :: r0 := by
      simp only [List.append_assoc]; rw [e0]
    have hfile2 : [49, 10] ++ enc (a ++ [l]) ++ c :: r = [49, 10] ++ enc a ++ l ++ 10 :: c :: r := by
      simp [enc_append, enc]
    have h1 := ctor_version c0 r0
    rw [← hfile, if_neg hc0] at h1
    have h2 := reads_lines a l .known false ([49, 10] ++ enc (a ++ [l]) ++ c :: r) 2 false [] 0
      [49] [49, 10] c r ha hl hfile2 rfl
    rw [if_neg hc] at h2
    refine ⟨(([49, 10].length + (enc a).length : Nat) : Int), l, ?_⟩
    simp only [reopen_reads, h1, except_bind_ok, List.length_append, List.length_singleton, h2]
    simp [enc_append, enc]; omega

/-- After the lines of `open_reads_block`, a tail without newline is a structural defect:
the next `read ()` yields no line and switches to `Write`, null-filling the tail. -/
theorem open_reads_defect (ls : List (List Nat)) (c : Nat) (r : List Nat)
    (h : ∀ y ∈ ls, storable y) (hc : c ≠ 0) (hn : 10 ∉ c :: r) :
    reopen_reads ([49, 10] ++ enc ls ++ c :: r) (ls.length + 1)
      = .ok (ls.map some ++ [none], ⟨.timestamp_unknown, false, .write,
          ⟨[49, 10] ++ enc ls ++ List.replicate (r.length + 1) 0, 2 + (enc ls).length,
            false, false, true, trace (2 + (enc ls).length) (List.replicate (r.length + 1) 0)⟩,
          ((2 + (enc ls).length : Nat) : Int), c :: r⟩) := by
  obtain ⟨q, ln, h1⟩ := open_reads_block ls c r h hc
  have h2 := read_defect_eof .known false ([49, 10] ++ enc ls ++ c :: r) (2 + (enc ls).length) []
    q ln ([49, 10] ++ enc ls) (c :: r) rfl (by simp; omega) hn
  simp only [reopen_reads] at h1 ⊢
  cases hd : depdb.depdb (some ([49, 10] ++ enc ls ++ c :: r)) with
  | error e => rw [hd] at h1; exact absurd h1 (by simp)
  | ok d =>
      rw [hd] at h1
      simp only [except_bind_ok] at h1 ⊢
      rw [reads_add, h1]
      simp only [except_bind_ok, reads, h2, except_pure]
      have e : (enc ls).length + 1 + 1 = 2 + (enc ls).length := by omega
      simp [e]

/-- A file that ends right after the newline of its last line: that line is a structural
defect, the lines before it are read. -/
theorem open_reads_last (ls : List (List Nat)) (l : List Nat)
    (h : ∀ y ∈ ls, storable y) (hl : storable l) :
    ∃ d, reopen_reads ([49, 10] ++ enc ls ++ (l ++ [10])) (ls.length + 1)
      = .ok (ls.map some ++ [none], d) ∧ d.state_ = .write := by
  obtain ⟨c, r, e, hc⟩ := enc_head l [] [] hl
  simp only [enc, List.append_nil] at e
  have e2 : l ++ [10] = c :: r := by simpa using e
  obtain ⟨q, ln, h1⟩ := open_reads_block ls c r h hc
  rw [← e2] at h1
  have h2 := read_defect_last .known false ([49, 10] ++ enc ls ++ (l ++ [10]))
    (2 + (enc ls).length) [] q ln ([49, 10] ++ enc ls) l (by simp) (by simp; omega) hl.1
  simp only [reopen_reads] at h1 ⊢
  cases hd : depdb.depdb (some ([49, 10] ++ enc ls ++ (l ++ [10]))) with
  | error e => rw [hd] at h1; exact absurd h1 (by simp)
  | ok d =>
      rw [hd] at h1
      simp only [except_bind_ok] at h1 ⊢
      rw [reads_add, h1]
      simp only [except_bind_ok, reads, h2, except_pure]
      exact ⟨_, rfl, rfl⟩

/-! ## Defect recovery and the version gate -/

/-- C3. Defect recovery: a file made of the version line, lines without newline and null
byte, and then a non-empty tail without newline that does not start with a null byte reads
as those lines and then no line, with the store switched to `Write`; after `close ()`,
reopening reads exactly the same lines and then the end of the data. -/
theorem defect_recovery (ls : List (List Nat)) (t : List Nat) (hls : ∀ l ∈ ls, plain l)
    (ht1 : t ≠ []) (ht2 : 10 ∉ t) (ht3 : t.head? ≠ some 0) :
    ∃ d1 d2 d3, reopen_reads ([49, 10] ++ enc ls ++ t) (ls.length + 1)
        = .ok (ls.map some ++ [none], d1) ∧
      d1.state_ = .write ∧
      d1.close = .ok d2 ∧
      reopen_reads d2.fs_.file (ls.length + 1) = .ok (ls.map some ++ [none], d3) ∧
      d3.state_ = .read_eof := by
  have hs : ∀ l ∈ ls, storable l := fun l hl => plain_storable l (hls l hl)
  cases t with
  | nil => exact absurd rfl ht1
  | cons c r =>
      have hc : c ≠ 0 := fun e => ht3 (by simp [e])
      have h1 := open_reads_defect ls c r hs hc ht2
      have h2 := close_write .timestamp_unknown false
        ([49, 10] ++ enc ls ++ List.replicate (r.length + 1) 0) (2 + (enc ls).length) true
        (trace (2 + (enc ls).length) (List.replicate (r.length + 1) 0))
        ((2 + (enc ls).length : Nat) : Int) (c :: r) ([49, 10] ++ enc ls)
        (List.replicate (r.length + 1) 0) rfl (by simp; omega)
      obtain ⟨ln, h3⟩ := open_store_reads_all ls (List.replicate r.length 0) hs
      have e : [49, 10] ++ enc ls ++ 0 :: List.drop 1 (List.replicate (r.length + 1) 0)
          = store ls (List.replicate r.length 0) := by
        simp [store, List.replicate_succ]
      rw [← e] at h3
      exact ⟨_, _, _, h1, rfl, h2, h3, rfl⟩

/-- C3 at two lines and a corrupt tail of three bytes. -/
theorem defect_recovery_witness :
    (∀ l ∈ [[97], [98]], plain l) ∧ ([99, 0, 7] : List Nat) ≠ [] ∧ 10 ∉ [99, 0, 7] ∧
    ([99, 0, 7] : List Nat).head? ≠ some 0 ∧
    ∃ d1 d2 d3, reopen_reads ([49, 10] ++ enc [[97], [98]] ++ [99, 0, 7]) ([[97], [98]].length + 1)
        = .ok ([[97], [98]].map some ++ [none], d1) ∧
      d1.state_ = .write ∧
      d1.close = .ok d2 ∧
      reopen_reads d2.fs_.file ([[97], [98]].length + 1)
        = .ok ([[97], [98]].map some ++ [none], d3) ∧
      d3.state_ = .read_eof :=
  ⟨by simp [plain], by simp, by simp, by simp,
    defect_recovery [[97], [98]] [99, 0, 7] (by simp [plain]) (by simp) (by simp) (by simp)⟩

theorem write_char_eq (mt : timestamp) (tch : Bool) (file : List Nat) (p : Nat) (x : Bool)
    (w : List (Nat × Nat)) (q : Int) (ln : List Nat) (c : Nat) :
    depdb.write_char ⟨mt, tch, .write, ⟨file, p, false, false, x, w⟩, q, ln⟩ c true
      = .ok ⟨mt, tch, .write,
          ⟨poke (poke file p c) (p + 1) 10, p + 1 + 1, false, false, x,
            w ++ [(p, c)] ++ [(p + 1, 10)]⟩, q, ln⟩ := by
  simp only [depdb.write_char, ne_eq, not_true_eq_false, ↓reduceIte, except_pure, except_bind_ok,
    put_ok]

theorem poke_version (n : Nat) :
    poke (poke (List.replicate n 0) 0 49) 1 10 = [49, 10] ++ List.replicate (n - 2) 0 := by
  rcases n with _ | _ | n <;> simp [poke, List.replicate_succ]

/-- Opening an existing file whose first line is not the version token, or is not followed
by any byte: everything is null-filled and the version line is written at the top. -/
theorem ctor_obsolete (f : List Nat)
    (hv : f.takeWhile (fun b => b != 10) ≠ [49] ∨ f = [49, 10]) :
    ∃ ln, depdb.depdb (some f)
      = .ok ⟨.timestamp_unknown, false, .write,
          ⟨[49, 10] ++ List.replicate (f.length - 2) 0, 2, false, false, true,
            trace 0 (List.replicate f.length 0) ++ [(0, 49)] ++ [(1, 10)]⟩, 0, ln⟩ := by
  rcases split_nl f with hno | ⟨l, rest, e, hl⟩
  · -- no newline at all
    have h1 := read_defect_eof .known false f 0 [] 0 [] [] f (by simp) rfl hno
    refine ⟨f, ?_⟩
    simp only [depdb.depdb, file_mtime, fstream.open_, fstream.exceptions, fstream.setstate,
      reduceCtorEq, ↓reduceIte, decide_False, Bool.or_false, Bool.and_false, Bool.false_eq_true,
      except_bind_ok, Option.getD_some, h1, true_or, write_char_eq, List.length_nil,
      List.nil_append, poke_version]
    simp [poke_version]
  · cases rest with
    | nil =>
        have h1 := read_defect_last .known false f 0 [] 0 [] [] l (by simp [e]) rfl hl
        refine ⟨l, ?_⟩
        have e2 : f.length = l.length + 1 := by simp [e]
        simp only [depdb.depdb, file_mtime, fstream.open_, fstream.exceptions, fstream.setstate,
          reduceCtorEq, ↓reduceIte, decide_False, Bool.or_false, Bool.and_false,
          Bool.false_eq_true, except_bind_ok, Option.getD_some, h1, true_or, write_char_eq,
          List.length_nil, List.nil_append, poke_version, e2]
        simp [poke_version]
    | cons c r =>
        have hl49 : l ≠ [49] := by
          rcases hv with hv | hv
          · rw [e, takeWhile_nl l (c :: r) hl] at hv; exact hv
          · intro h49
            rw [e, h49] at hv
            simp at hv
        have h1 := read_line .known false f 0 false [] 0 [] [] l c r (by simp [e]) rfl hl
        have hc := fun st (hst : st ≠ state.write) => change_eq .known false st f
          (l.length + 1) false false false [] 0 l true [] f hst (by simp) (by simp)
        refine ⟨l, ?_⟩
        simp only [depdb.depdb, file_mtime, fstream.open_, fstream.exceptions, fstream.setstate,
          reduceCtorEq, ↓reduceIte, decide_False, Bool.or_false, Bool.and_false,
          Bool.false_eq_true, except_bind_ok, Option.getD_some, h1]
        have hcond : (False ∨ some l ≠ some [49]) := Or.inr (by simpa using hl49)
        rw [if_pos hcond]
        by_cases hc0 : c = 0
        · simp only [hc0, ↓reduceIte, depdb.write_char, ne_eq, reduceCtorEq, not_false_eq_true,
            List.length_nil, Nat.zero_add, Nat.cast_zero]
          rw [hc .read_eof (by decide)]
          simp only [except_bind_ok, put_ok, except_pure]
          simp [poke_version]
        · simp only [hc0, ↓reduceIte, depdb.write_char, ne_eq, reduceCtorEq, not_false_eq_true,
            List.length_nil, Nat.zero_add, Nat.cast_zero]
          rw [hc .read (by decide)]
          simp only [except_bind_ok, put_ok, except_pure]
          simp [poke_version]

/-- C4. Version gate: opening an existing file whose first line is not the version token
`1` leaves the store in `Write` with `read ()` returning no line; writing one line without
newline and null byte, closing and reopening yields exactly that line and then the end of
the data. -/
theorem version_gate (f l1 : List Nat) (hv : f.takeWhile (fun b => b != 10) ≠ [49])
    (hl : plain l1) :
    ∃ d0 d2 d3, depdb.depdb (some f) = .ok d0 ∧
      d0.read = .ok (none, d0) ∧ d0.state_ = .write ∧
      (do let d1 ← d0.write l1 true; d1.close) = .ok d2 ∧
      reopen_reads d2.fs_.file 2 = .ok ([some l1, none], d3) ∧
      d3.state_ = .read_eof := by
  obtain ⟨ln, h0⟩ := ctor_obsolete f (Or.inl hv)
  have h1 := write_eq .timestamp_unknown false ([49, 10] ++ List.replicate (f.length - 2) 0) 2 true
    (trace 0 (List.replicate f.length 0) ++ [(0, 49)] ++ [(1, 10)]) 0 ln [49, 10]
    (List.replicate (f.length - 2) 0) l1 rfl rfl
  have h2 := close_write .timestamp_unknown false
    ([49, 10] ++ (l1 ++ [10]) ++ List.drop (l1.length + 1) (List.replicate (f.length - 2) 0))
    ([49, 10].length + (l1.length + 1)) true
    (trace 0 (List.replicate f.length 0) ++ [(0, 49)] ++ [(1, 10)] ++ trace [49, 10].length (l1 ++ [10]))
    0 ln ([49, 10] ++ (l1 ++ [10]))
    (List.drop (l1.length + 1) (List.replicate (f.length - 2) 0)) rfl (by simp; omega)
  obtain ⟨ln3, h3⟩ := open_store_reads_all [l1]
    (List.drop 1 (List.drop (l1.length + 1) (List.replicate (f.length - 2) 0)))
    (by
      intro y hy
      simp only [List.mem_singleton] at hy
      subst hy
      exact plain_storable y hl)
  have e : [49, 10] ++ (l1 ++ [10])
        ++ 0 :: List.drop 1 (List.drop (l1.length + 1) (List.replicate (f.length - 2) 0))
      = store [l1] (List.drop 1 (List.drop (l1.length + 1) (List.replicate (f.length - 2) 0))) := by
    simp [store, enc]
  rw [← e] at h3
  refine ⟨_, ?_, ?_, h0, read_in_write _ rfl, rfl, ?_, ?_, ?_⟩
  rotate_left 2
  · simp only [h1, except_bind_ok]
    exact h2
  · exact h3
  · rfl

/-- C4 at a file that starts with the version token `2`. -/
theorem version_gate_witness :
    ([50, 10, 97, 10, 98, 10, 0] : List Nat).takeWhile (fun b => b != 10) ≠ [49] ∧ plain [120] ∧
    ∃ d0 d2 d3, depdb.depdb (some [50, 10, 97, 10, 98, 10, 0]) = .ok d0 ∧
      d0.read = .ok (none, d0) ∧ d0.state_ = .write ∧
      (do let d1 ← d0.write [120] true; d1.close) = .ok d2 ∧
      reopen_reads d2.fs_.file 2 = .ok ([some [120], none], d3) ∧
      d3.state_ = .read_eof :=
  ⟨by decide, by simp [plain],
    version_gate [50, 10, 97, 10, 98, 10, 0] [120] (by decide) (by simp [plain])⟩

/-! ## The mode switch, as the spec states it -/

/-- C6. Mode switch: when the store changes from `Read` or `ReadEnd` to `Write` with
remembered overwrite offset `p` in a file of length `n`, then afterwards the file still has
length `n`, every byte below `p` is unchanged, every byte from `p` to `n - 1` is null, the
write position is `p` and the state is `Write`. -/
theorem mode_switch (d : depdb) (p : Nat) (flush : Bool)
    (hst : d.state_ = .read ∨ d.state_ = .read_eof) (hq : d.pos_ = (p : Int))
    (hp : p ≤ d.fs_.file.length) :
    ∃ d1, d.change flush = .ok d1 ∧
      d1.fs_.file.length = d.fs_.file.length ∧
      (∀ i, i < p → d1.fs_.file[i]? = d.fs_.file[i]?) ∧
      (∀ i, p ≤ i → i < d.fs_.file.length → d1.fs_.file[i]? = some 0) ∧
      d1.fs_.pos = p ∧ d1.state_ = .write := by
  obtain ⟨mt, tch, st, ⟨file, pos, e, f, x, w⟩, q, ln⟩ := d
  simp only at hst hq hp ⊢
  have hst2 : st ≠ .write := by rcases hst with h | h <;> simp [h]
  have hlen : (file.take p).length = p := by simp [hp]
  have h := change_eq mt tch st file pos e f x w q ln flush (file.take p) (file.drop p) hst2
    (by simp) (by rw [hlen]; exact hq)
  rw [hlen] at h
  refine ⟨_, h, ?_, ?_, ?_, rfl, rfl⟩
  · simp; omega
  · intro i hi
    simp only
    rw [List.getElem?_append_left (by rw [hlen]; exact hi), List.getElem?_take_of_lt hi]
  · intro i h1 h2
    simp only
    rw [List.getElem?_append_right (by rw [hlen]; exact h1)]
    rw [List.getElem?_replicate]
    simp [hlen]
    omega

/-- C6 at a store in `Read` with remembered offset 2 in a file of 7 bytes. -/
theorem mode_switch_witness :
    ((⟨.known, false, .read, ⟨[49, 10, 97, 10, 98, 10, 0], 4, false, false, false, []⟩, 2, [97]⟩ :
        depdb).state_ = .read ∨
      (⟨.known, false, .read, ⟨[49, 10, 97, 10, 98, 10, 0], 4, false, false, false, []⟩, 2, [97]⟩ :
        depdb).state_ = .read_eof) ∧
    ∃ d1, depdb.change
        ⟨.known, false, .read, ⟨[49, 10, 97, 10, 98, 10, 0], 4, false, false, false, []⟩, 2, [97]⟩
        true = .ok d1 ∧
      d1.fs_.file.length = 7 ∧
      (∀ i, i < 2 → d1.fs_.file[i]? = [49, 10, 97, 10, 98, 10, 0][i]?) ∧
      (∀ i, 2 ≤ i → i < 7 → d1.fs_.file[i]? = some 0) ∧
      d1.fs_.pos = 2 ∧ d1.state_ = .write :=
  ⟨Or.inl rfl,
    mode_switch
      ⟨.known, false, .read, ⟨[49, 10, 97, 10, 98, 10, 0], 4, false, false, false, []⟩, 2, [97]⟩
      2 true (Or.inl rfl) rfl (by decide)⟩

/-! ## Reference semantics of reading -/

/-- The first newline at or after `p`, when the rest of the file splits at a newline. -/
theorem first_newline_unique (f : List Nat) (p q : Nat) (l rest : List Nat)
    (h : first_newline f p q) (hd : f.drop p = l ++ 10 :: rest) (hl : 10 ∉ l) :
    q = p + l.length := by
  obtain ⟨h1, h2, h3⟩ := h
  have hq : (f.drop p)[q - p]? = some 10 := by
    rw [List.getElem?_drop]
    have : p + (q - p) = q := by omega
    rw [this]; exact h2
  rcases Nat.lt_trichotomy (q - p) l.length with hlt | heq | hgt
  · exfalso
    rw [hd, List.getElem?_append_left hlt] at hq
    exact hl (List.getElem?_mem hq)
  · omega
  · exfalso
    have hi : f[p + l.length]? = some 10 := by
      rw [← List.getElem?_drop, hd, List.getElem?_append_right (Nat.le_refl _)]
      simp
    exact h3 (p + l.length) (by omega) (by omega) hi

theorem first_newline_mem (f : List Nat) (p q : Nat) (h : first_newline f p q) :
    10 ∈ f.drop p := by
  obtain ⟨h1, h2, -⟩ := h
  have hq : (f.drop p)[q - p]? = some 10 := by
    rw [List.getElem?_drop]
    have : p + (q - p) = q := by omega
    rw [this]; exact h2
  exact List.getElem?_mem hq

theorem first_newline_split (f : List Nat) (p : Nat) (l rest : List Nat)
    (hd : f.drop p = l ++ 10 :: rest) (hl : 10 ∉ l) : first_newline f p (p + l.length) := by
  refine ⟨by omega, ?_, ?_⟩
  · rw [← List.getElem?_drop, hd, List.getElem?_append_right (Nat.le_refl _)]
    simp
  · intro i h1 h2 h3
    have : (f.drop p)[i - p]? = some 10 := by
      rw [List.getElem?_drop]
      have : p + (i - p) = i := by omega
      rw [this]; exact h3
    rw [hd, List.getElem?_append_left (by omega)] at this
    exact hl (List.getElem?_mem this)

/-- C8. Reference semantics of `read ()` for a store in `Read` at offset `p`, with `q` the
offset of the first newline at or after `p`: if `q` exists and `q + 1` is inside the file,
`read ()` returns the bytes `p .. q - 1`, leaves the file unchanged, and the state is
`ReadEnd` when the byte at `q + 1` is null and `Read` otherwise; in every other case
`read ()` returns no line and the store is in `Write` with overwrite offset `p`. -/
theorem read_reference (d : depdb) (h : reading d) :
    (∀ q, first_newline d.fs_.file d.fs_.pos q → q + 1 < d.fs_.file.length →
      ∃ d1, d.read = .ok (some ((d.fs_.file.drop d.fs_.pos).take (q - d.fs_.pos)), d1) ∧
        d1.fs_.file = d.fs_.file ∧
        d1.state_ = (if d.fs_.file[q + 1]? = some 0 then .read_eof else .read)) ∧
    ((∀ q, first_newline d.fs_.file d.fs_.pos q → ¬ q + 1 < d.fs_.file.length) →
      ∃ d1, d.read = .ok (none, d1) ∧ d1.state_ = .write ∧ d1.pos_ = (d.fs_.pos : Int) ∧
        d1.fs_.pos = d.fs_.pos) := by
  obtain ⟨mt, tch, st, ⟨file, p, e, f, x, w⟩, qq, ln⟩ := d
  obtain ⟨hst, he, hf, hx, hp⟩ := h
  simp only at hst he hf hx hp ⊢
  subst hst he hf hx
  have hlen : (file.take p).length = p := by simp [hp]
  have hfile : file = file.take p ++ file.drop p := by simp
  rcases split_nl (file.drop p) with hno | ⟨l, rest, hd, hl⟩
  · -- no newline before the end of the file
    constructor
    · intro q hq
      exact absurd (first_newline_mem file p q hq) hno
    · intro _
      have h1 := read_defect_eof mt tch file p w qq ln (file.take p) (file.drop p) hfile
        hlen.symm hno
      rw [hlen] at h1
      exact ⟨_, h1, rfl, rfl, rfl⟩
  · cases rest with
    | nil =>
        -- the newline is the last byte of the file
        have hflen : file.length = p + l.length + 1 := by
          have := congrArg List.length hd
          simp at this
          omega
        constructor
        · intro q hq hq2
          have := first_newline_unique file p q l [] hq hd hl
          omega
        · intro _
          have h1 := read_defect_last mt tch file p w qq ln (file.take p) l
            (by rw [List.append_assoc, ← hd]; exact hfile) hlen.symm hl
          rw [hlen] at h1
          exact ⟨_, h1, rfl, rfl, rfl⟩
    | cons c r =>
        have hflen : file.length = p + l.length + 1 + (r.length + 1) := by
          have := congrArg List.length hd
          simp at this
          omega
        have h1 := read_line mt tch file p false w qq ln (file.take p) l c r
          (by rw [List.append_assoc, ← hd]; exact hfile) hlen.symm hl
        have hc : file[p + l.length + 1]? = some c := by
          have e1 : p + l.length + 1 = p + (l.length + 1) := by omega
          rw [e1, ← List.getElem?_drop, hd]
          have e2 : l ++ 10 :: c :: r = (l ++ [10]) ++ c :: r := by simp
          rw [e2, List.getElem?_append_right (by simp)]
          simp
        constructor
        · intro q hq _
          have hqe := first_newline_unique file p q l (c :: r) hq hd hl
          subst hqe
          have e3 : p + l.length - p = l.length := by omega
          have e4 : List.take l.length (l ++ 10 :: c :: r) = l := by simp
          rw [hc, e3, hd, e4]
          refine ⟨_, h1, rfl, ?_⟩
          by_cases hc0 : c = 0 <;> simp [hc0]
        · intro hall
          exact absurd (by omega) (hall _ (first_newline_split file p l (c :: r) hd hl))

/-- C8 at a store in `Read` at offset 2 of a file holding the version line, the line `ab`
and the end marker. -/
theorem read_reference_witness :
    reading ⟨.known, false, .read, ⟨[49, 10, 97, 98, 10, 0], 2, false, false, false, []⟩, 0, [49]⟩ ∧
    ((∀ q, first_newline [49, 10, 97, 98, 10, 0] 2 q → q + 1 < 6 →
      ∃ d1, depdb.read
          ⟨.known, false, .read, ⟨[49, 10, 97, 98, 10, 0], 2, false, false, false, []⟩, 0, [49]⟩
          = .ok (some ((([49, 10, 97, 98, 10, 0] : List Nat).drop 2).take (q - 2)), d1) ∧
        d1.fs_.file = [49, 10, 97, 98, 10, 0] ∧
        d1.state_ = (if ([49, 10, 97, 98, 10, 0] : List Nat)[q + 1]? = some 0 then .read_eof
          else .read)) ∧
    ((∀ q, first_newline [49, 10, 97, 98, 10, 0] 2 q → ¬ q + 1 < 6) →
      ∃ d1, depdb.read
          ⟨.known, false, .read, ⟨[49, 10, 97, 98, 10, 0], 2, false, false, false, []⟩, 0, [49]⟩
          = .ok (none, d1) ∧ d1.state_ = .write ∧ d1.pos_ = ((2 : Nat) : Int) ∧
        d1.fs_.pos = 2)) :=
  ⟨⟨rfl, rfl, rfl, rfl, by decide⟩,
    read_reference
      ⟨.known, false, .read, ⟨[49, 10, 97, 98, 10, 0], 2, false, false, false, []⟩, 0, [49]⟩
      ⟨rfl, rfl, rfl, rfl, by decide⟩⟩

/-! ## Skipping, and what calls that read leave unchanged -/

/-- C10 fails on the code: in the cleanly closed store with the lines `a` and the empty
line, a loop of `read ()` calls reaches `ReadEnd` without a defect, while `skip ()` from
the same position reports failure and switches to `Write`. -/
theorem skip_misses_end_marker :
    ∃ d, depdb.depdb (some (store [[97], []] [])) = .ok d ∧ d.state_ = .read ∧
      (∃ d1, reads 3 d = .ok ([some [97], some [], none], d1) ∧ d1.state_ = .read_eof) ∧
      (∃ d2, d.skip = .ok (false, d2) ∧ d2.state_ = .write) :=
  ⟨_, rfl, rfl, ⟨_, rfl, rfl⟩, ⟨_, rfl, rfl⟩⟩

theorem change_state (d : depdb) (fl : Bool) (d1 : depdb) (h : d.change fl = .ok d1) :
    d1.state_ = .write ∧ d1.touch = d.touch := by
  simp only [depdb.change, bind, Except.bind, pure, Except.pure] at h
  repeat' split at h
  all_goals first | contradiction | (cases h; exact ⟨rfl, rfl⟩)


theorem bind_ok_inv {α β : Type} (x : Except fault α) (f : α → Except fault β) (v : β)
    (h : (x >>= f) = .ok v) : ∃ a, x = .ok a ∧ f a = .ok v := by
  cases x with
  | error e => exact absurd h (by simp)
  | ok a => exact ⟨a, rfl, h⟩

theorem setstate_frame (s : fstream) (e f : Bool) (s1 : fstream) (h : s.setstate e f = .ok s1) :
    s1.file = s.file ∧ s1.wlog = s.wlog := by
  simp only [fstream.setstate] at h
  split at h
  · contradiction
  · cases h; exact ⟨rfl, rfl⟩

theorem tellg_frame (s : fstream) (p : Int) (s1 : fstream) (h : s.tellg = .ok (p, s1)) :
    s1.file = s.file ∧ s1.wlog = s.wlog := by
  simp only [fstream.tellg] at h
  split at h
  · cases h; exact ⟨rfl, rfl⟩
  · obtain ⟨a, h1, h2⟩ := bind_ok_inv _ _ _ h
    cases h2
    exact setstate_frame _ _ _ _ h1

theorem getline_frame (s : fstream) (ln l : List Nat) (s1 : fstream)
    (h : s.getline ln = .ok (l, s1)) : s1.file = s.file ∧ s1.wlog = s.wlog := by
  simp only [fstream.getline] at h
  split at h
  · split at h
    · obtain ⟨a, h1, h2⟩ := bind_ok_inv _ _ _ h
      cases h2
      have := setstate_frame _ _ _ _ h1
      exact this
    · cases h; exact ⟨rfl, rfl⟩
  · obtain ⟨a, h1, h2⟩ := bind_ok_inv _ _ _ h
    cases h2
    exact setstate_frame _ _ _ _ h1

theorem peek_frame (s : fstream) (c : Option Nat) (s1 : fstream) (h : s.peek = .ok (c, s1)) :
    s1.file = s.file ∧ s1.wlog = s.wlog := by
  simp only [fstream.peek] at h
  split at h
  · split at h
    · obtain ⟨a, h1, h2⟩ := bind_ok_inv _ _ _ h
      cases h2
      exact setstate_frame _ _ _ _ h1
    · cases h; exact ⟨rfl, rfl⟩
  · obtain ⟨a, h1, h2⟩ := bind_ok_inv _ _ _ h
    cases h2
    exact setstate_frame _ _ _ _ h1

theorem get_frame (s : fstream) (c : Option Nat) (s1 : fstream) (h : s.get = .ok (c, s1)) :
    s1.file = s.file ∧ s1.wlog = s.wlog := by
  simp only [fstream.get] at h
  split at h
  · split at h
    · obtain ⟨a, h1, h2⟩ := bind_ok_inv _ _ _ h
      cases h2
      exact setstate_frame _ _ _ _ h1
    · cases h; exact ⟨rfl, rfl⟩
  · obtain ⟨a, h1, h2⟩ := bind_ok_inv _ _ _ h
    cases h2
    exact setstate_frame _ _ _ _ h1

/-- Frame of `read ()`: `touch` is kept, and unless the store ends in `Write` neither the
file nor the trace of byte writes changes. -/
theorem read_frame (d : depdb) (l : Option (List Nat)) (d1 : depdb) (h : d.read = .ok (l, d1)) :
    d1.touch = d.touch ∧
      (d1.state_ ≠ .write → d1.fs_.file = d.fs_.file ∧ d1.fs_.wlog = d.fs_.wlog) := by
  simp only [depdb.read] at h
  split at h
  · cases h; exact ⟨rfl, fun _ => ⟨rfl, rfl⟩⟩
  · simp only [depdb.read_] at h
    obtain ⟨⟨p, fs⟩, h1, h⟩ := bind_ok_inv _ _ _ h
    have f1 := tellg_frame _ _ _ h1
    simp only at h
    split at h
    · cases h; exact ⟨rfl, fun _ => f1⟩
    · obtain ⟨⟨l2, fs2⟩, h2, h⟩ := bind_ok_inv _ _ _ h
      have f2 := getline_frame _ _ _ _ h2
      simp only at h
      split at h
      · obtain ⟨d2, h3, h⟩ := bind_ok_inv _ _ _ h
        cases h
        have := change_state _ _ _ h3
        exact ⟨this.2, fun hne => absurd this.1 hne⟩
      · split at h
        · obtain ⟨d2, h3, h⟩ := bind_ok_inv _ _ _ h
          cases h
          have := change_state _ _ _ h3
          exact ⟨this.2, fun hne => absurd this.1 hne⟩
        · obtain ⟨⟨c, fs3⟩, h4, h⟩ := bind_ok_inv _ _ _ h
          have f3 := peek_frame _ _ _ h4
          simp only at h
          split at h
          · obtain ⟨d2, h3, h⟩ := bind_ok_inv _ _ _ h
            cases h
            have := change_state _ _ _ h3
            exact ⟨this.2, fun hne => absurd this.1 hne⟩
          · cases h
            simp only at f2 f3
            refine ⟨by split <;> rfl, fun _ => ?_⟩
            split <;> exact ⟨f3.1.trans (f2.1.trans f1.1), f3.2.trans (f2.2.trans f1.2)⟩

theorem skip_loop_frame (n : Nat) : ∀ (d : depdb) (r : Bool) (d1 : depdb),
    depdb.skip_loop n d = .ok (r, d1) →
    d1.touch = d.touch ∧ d1.fs_.file = d.fs_.file ∧ d1.fs_.wlog = d.fs_.wlog := by
  induction n with
  | zero => intro d r d1 h; simp [depdb.skip_loop] at h
  | succ n ih =>
      intro d r d1 h
      simp only [depdb.skip_loop] at h
      obtain ⟨⟨c, fs⟩, h1, h⟩ := bind_ok_inv _ _ _ h
      have f1 := get_frame _ _ _ h1
      simp only at h
      split at h
      · obtain ⟨⟨c2, fs2⟩, h2, h⟩ := bind_ok_inv _ _ _ h
        have f2 := get_frame _ _ _ h2
        simp only at h f2
        split at h
        · cases h
          exact ⟨rfl, f2.1.trans f1.1, f2.2.trans f1.2⟩
        · split at h
          · have := ih _ _ _ h
            simp only at this
            exact ⟨this.1, this.2.1.trans (f2.1.trans f1.1), this.2.2.trans (f2.2.trans f1.2)⟩
          · cases h
            exact ⟨rfl, f2.1.trans f1.1, f2.2.trans f1.2⟩
      · split at h
        · have := ih _ _ _ h
          simp only at this
          exact ⟨this.1, this.2.1.trans f1.1, this.2.2.trans f1.2⟩
        · cases h
          exact ⟨rfl, f1.1, f1.2⟩

/-- Frame of `skip ()`, as for `read ()`. -/
theorem skip_frame (d : depdb) (r : Bool) (d1 : depdb) (h : d.skip = .ok (r, d1)) :
    d1.touch = d.touch ∧
      (d1.state_ ≠ .write → d1.fs_.file = d.fs_.file ∧ d1.fs_.wlog = d.fs_.wlog) := by
  simp only [depdb.skip] at h
  split at h
  · cases h; exact ⟨rfl, fun _ => ⟨rfl, rfl⟩⟩
  · split at h
    · contradiction
    · obtain ⟨⟨p, fs⟩, h1, h⟩ := bind_ok_inv _ _ _ h
      have f1 := tellg_frame _ _ _ h1
      simp only at h
      obtain ⟨⟨r2, d2⟩, h2, h⟩ := bind_ok_inv _ _ _ h
      have f2 := skip_loop_frame _ _ _ _ h2
      simp only at h f2
      split at h
      · cases h
        exact ⟨f2.1, fun _ => ⟨f2.2.1.trans f1.1, f2.2.2.trans f1.2⟩⟩
      · obtain ⟨d3, h3, h⟩ := bind_ok_inv _ _ _ h
        cases h
        have := change_state _ _ _ h3
        exact ⟨this.2.trans f2.1, fun hne => absurd this.1 hne⟩

/-- Once in `Write`, calls that read leave the store as it is. -/
theorem run_in_write (cs : List call) : ∀ (d d1 : depdb), run cs d = .ok d1 →
    d.state_ = .write → d1 = d := by
  induction cs with
  | nil => intro d d1 h _; simp only [run] at h; cases h; rfl
  | cons c cs ih =>
      intro d d1 h hw
      cases c with
      | read =>
          simp only [run, read_in_write d hw, except_bind_ok] at h
          exact ih d d1 h hw
      | skip =>
          simp [run, depdb.skip, hw] at h

/-- Frame of a sequence of calls that read. -/
theorem run_frame (cs : List call) : ∀ (d d1 : depdb), run cs d = .ok d1 →
    d1.touch = d.touch ∧
      (d1.state_ ≠ .write → d1.fs_.file = d.fs_.file ∧ d1.fs_.wlog = d.fs_.wlog) := by
  induction cs with
  | nil => intro d d1 h; simp only [run] at h; cases h; exact ⟨rfl, fun _ => ⟨rfl, rfl⟩⟩
  | cons c cs ih =>
      intro d d1 h
      have step : ∃ d2, run cs d2 = .ok d1 ∧ d2.touch = d.touch ∧
          (d2.state_ ≠ .write → d2.fs_.file = d.fs_.file ∧ d2.fs_.wlog = d.fs_.wlog) := by
        cases c with
        | read =>
            simp only [run] at h
            obtain ⟨⟨l, d2⟩, h1, h2⟩ := bind_ok_inv _ _ _ h
            exact ⟨d2, h2, read_frame _ _ _ h1⟩
        | skip =>
            simp only [run] at h
            obtain ⟨⟨l, d2⟩, h1, h2⟩ := bind_ok_inv _ _ _ h
            exact ⟨d2, h2, skip_frame _ _ _ h1⟩
      obtain ⟨d2, h2, ht, hf⟩ := step
      have i2 := ih d2 d1 h2
      refine ⟨i2.1.trans ht, fun hne => ?_⟩
      have hne2 : d2.state_ ≠ .write := by
        intro hw
        have := run_in_write cs d2 d1 h2 hw
        rw [this] at hne
        exact hne hw
      exact ⟨(i2.2 hne).1.trans (hf hne2).1, (i2.2 hne).2.trans (hf hne2).2⟩

/-- C5, as stated, fails: opening the cleanly closed store with the single line `a` and
closing it at once, with no `read ()`, no `write ()` and no touch, null-fills the unread
line: bytes are written and the file changes. -/
theorem close_before_reading_rewrites :
    ∃ d d1, depdb.depdb (some (store [[97]] [])) = .ok d ∧ d.touch = false ∧
      run [] d = .ok d ∧ d.close = .ok d1 ∧
      d1.fs_.file = [49, 10, 0, 0, 0] ∧ d1.fs_.file ≠ store [[97]] [] ∧ d1.fs_.wlog ≠ [] :=
  ⟨_, _, rfl, rfl, rfl, rfl, rfl, by decide, by decide⟩

/-- C5, amended. Idempotent clean close: for every cleanly closed store, opening it, making
any number of `read ()` and `skip ()` calls that leave the store in `ReadEnd`, and closing
it with no `write ()` call and no touch requested writes no byte: the file is unchanged. -/
theorem clean_close_idempotent (ls : List (List Nat)) (junk : List Nat) (cs : List call)
    (d : depdb)
    (h : (do let d0 ← depdb.depdb (some (store ls junk)); run cs d0) = .ok d)
    (hend : d.state_ = .read_eof) :
    d.touch = false ∧ d.close = .ok d ∧ d.fs_.file = store ls junk ∧ d.fs_.wlog = [] := by
  obtain ⟨c, r, e⟩ : ∃ c r, enc ls ++ 0 :: junk = c :: r := by
    cases hl : enc ls ++ 0 :: junk with
    | nil => simp at hl
    | cons c r => exact ⟨c, r, rfl⟩
  have hs : store ls junk = [49, 10] ++ c :: r := by
    simp only [store, List.append_assoc]; rw [e]
  have h0 := ctor_version c r
  rw [← hs] at h0
  rw [h0] at h
  simp only [except_bind_ok] at h
  have hf := run_frame cs _ d h
  simp only at hf
  have hne : d.state_ ≠ .write := by rw [hend]; decide
  refine ⟨hf.1, ?_, (hf.2 hne).1, (hf.2 hne).2⟩
  simp [depdb.close, hend, hf.1]

/-- C5, amended, at a store of two lines and the calls read, skip, read. -/
theorem clean_close_idempotent_witness :
    ∃ d, (do let d0 ← depdb.depdb (some (store [[97], [98]] [7])); run [.read, .skip, .read] d0)
        = .ok d ∧
      d.state_ = .read_eof ∧
      d.touch = false ∧ d.close = .ok d ∧ d.fs_.file = store [[97], [98]] [7] ∧ d.fs_.wlog = [] :=
  ⟨_, rfl, rfl, clean_close_idempotent [[97], [98]] [7] [.read, .skip, .read] _ rfl rfl⟩

/-! ## Interrupted overwrites -/

theorem replay_append (f : List Nat) (a b : List (Nat × Nat)) :
    replay f (a ++ b) = replay (replay f a) b := by
  simp [replay, List.foldl_append]

/-- Replaying the writes of the bytes `bs` from the offset `pre.length` on. -/
theorem replay_trace (bs : List Nat) : ∀ (pre tl : List Nat),
    replay (pre ++ tl) (trace pre.length bs) = pre ++ bs ++ tl.drop bs.length := by
  induction bs with
  | nil => intro pre tl; simp [replay, trace]
  | cons b bs ih =>
      intro pre tl
      have h := ih (pre ++ [b]) (tl.drop 1)
      simp only [List.length_append, List.length_singleton] at h
      simp only [replay, trace, List.foldl_cons, poke_mid] at h ⊢
      have e : pre ++ b :: List.drop 1 tl = pre ++ [b] ++ List.drop 1 tl := by simp
      rw [e, h]
      simp [Nat.add_comm 1]

/-- The first `t` bytes of a run of lines are whole lines and the beginning of one more. -/
theorem enc_take (ns : List (List Nat)) : ∀ (t : Nat), (∀ l ∈ ns, storable l) →
    t ≤ (enc ns).length →
    ∃ i part, (enc ns).take t = enc (ns.take i) ++ part ∧ 10 ∉ part ∧ part.head? ≠ some 0 := by
  induction ns with
  | nil => intro t _ _; exact ⟨0, [], by simp [enc], by simp, by simp⟩
  | cons l ns ih =>
      intro t hs ht
      have hl : storable l := hs l (by simp)
      by_cases h1 : t ≤ l.length
      · refine ⟨0, l.take t, ?_, ?_, ?_⟩
        · simp [enc, List.take_append_of_le_length h1]
        · intro hm; exact hl.1 (List.mem_of_mem_take hm)
        · cases t with
          | zero => simp
          | succ t =>
              cases l with
              | nil => simp
              | cons a l => simpa using hl.2
      · have h2 : t = l.length + 1 + (t - l.length - 1) := by omega
        simp only [enc, List.length_append, List.length_cons] at ht
        obtain ⟨i, part, e, hp1, hp2⟩ := ih (t - l.length - 1)
          (fun y hy => hs y (by simp [hy])) (by omega)
        refine ⟨i + 1, part, ?_, hp1, hp2⟩
        have e2 : enc (l :: ns) = (l ++ [10]) ++ enc ns := by simp [enc]
        rw [e2, h2, List.take_append_eq_append_take]
        simp only [List.length_append, List.length_singleton]
        have e3 : List.take (l.length + 1 + (t - l.length - 1)) (l ++ [10]) = l ++ [10] := by
          apply List.take_of_length_le; simp
        have e4 : l.length + 1 + (t - l.length - 1) - (l.length + 1) = t - l.length - 1 := by omega
        rw [e3, e4, e]
        simp [enc]

theorem reads_settled (j : Nat) (d : depdb) (h : settled d) :
    ∃ d1, reads j d = .ok (List.replicate j none, d1) := by
  rcases h with hw | ⟨he, h1, h2⟩
  · exact ⟨d, reads_in_write j d hw⟩
  · cases j with
    | zero => exact ⟨d, rfl⟩
    | succ j =>
        obtain ⟨mt, tch, st, ⟨file, p, e, f, x, w⟩, q, ln⟩ := d
        simp only at he h1 h2
        subst he h1 h2
        exact ⟨_, reads_at_end j mt tch file p x w q ln⟩

/-- When some number of `read ()` calls has settled the store, the lines obtained by any
number of `read ()` calls are an initial part of the lines obtained by those. -/
theorem reads_initial (n : Nat) (d0 : depdb) (res : List (Option (List Nat))) (d : depdb)
    (h : reads n d0 = .ok (res, d)) (hs : settled d) (k : Nat) :
    ∃ res1 d1, reads k d0 = .ok (res1, d1) ∧ res1.filterMap id <+: res.filterMap id := by
  rcases Nat.le_total k n with hk | hk
  · obtain ⟨j, rfl⟩ := Nat.exists_eq_add_of_le hk
    rw [reads_add] at h
    obtain ⟨⟨r1, d1⟩, h1, h⟩ := bind_ok_inv _ _ _ h
    obtain ⟨⟨r2, d2⟩, h2, h⟩ := bind_ok_inv _ _ _ h
    cases h
    exact ⟨r1, d1, h1, by simp [List.filterMap_append]⟩
  · obtain ⟨j, rfl⟩ := Nat.exists_eq_add_of_le hk
    obtain ⟨d1, h1⟩ := reads_settled j d hs
    refine ⟨res ++ List.replicate j none, d1, ?_, ?_⟩
    · rw [reads_add, h]
      simp only [except_bind_ok, h1, except_pure]
    · have : List.filterMap id (List.replicate j (none : Option (List Nat))) = [] := by
        induction j with
        | zero => rfl
        | succ j ih => simp [List.replicate_succ]
      simp [List.filterMap_append, this]

theorem reopen_reads_initial (f : List Nat) (n : Nat) (res : List (Option (List Nat)))
    (d : depdb) (h : reopen_reads f n = .ok (res, d)) (hs : settled d) (k : Nat) :
    ∃ res1 d1, reopen_reads f k = .ok (res1, d1) ∧ res1.filterMap id <+: res.filterMap id := by
  simp only [reopen_reads] at h ⊢
  obtain ⟨d0, h0, h1⟩ := bind_ok_inv _ _ _ h
  rw [h0]
  simp only [except_bind_ok]
  exact reads_initial n d0 res d h1 hs k

theorem filterMap_some (ls : List (List Nat)) : (ls.map some).filterMap id = ls := by
  induction ls with
  | nil => rfl
  | cons l ls ih => simp [ih]

/-- Reading a file made of the version line, storable lines and a tail that either holds
no newline or starts with a null byte: some number of `read ()` calls settles the store,
and the lines read are an initial part of those lines. -/
theorem open_reads_settle (ls : List (List Nat)) (t : List Nat) (h : ∀ y ∈ ls, storable y)
    (ht : 10 ∉ t ∨ t.head? = some 0) :
    ∃ n res d, reopen_reads ([49, 10] ++ enc ls ++ t) n = .ok (res, d) ∧ settled d ∧
      res.filterMap id <+: ls := by
  cases t with
  | nil =>
      rcases List.eq_nil_or_concat ls with hnil | ⟨a, l, hcat⟩
      · subst hnil
        obtain ⟨ln, h0⟩ := ctor_obsolete [49, 10] (Or.inr rfl)
        refine ⟨0, [], ?_, ?_, ?_, by simp⟩
        rotate_left 1
        · simp only [reopen_reads, enc, List.append_nil, h0, except_bind_ok, reads]
          exact rfl
        · exact Or.inl rfl
      · rw [List.concat_eq_append] at hcat
        subst hcat
        obtain ⟨d, h1, h2⟩ := open_reads_last a l (fun y hy => h y (by simp [hy])) (h l (by simp))
        refine ⟨a.length + 1, a.map some ++ [none], d, ?_, Or.inl h2, ?_⟩
        · rw [← h1]; simp [enc_append, enc]
        · simp [List.filterMap_append, filterMap_some]
  | cons c r =>
      by_cases hc : c = 0
      · subst hc
        obtain ⟨ln, h1⟩ := open_store_reads_all ls r h
        refine ⟨ls.length + 1, ls.map some ++ [none], _, h1, Or.inr ⟨rfl, rfl, rfl⟩, ?_⟩
        simp [List.filterMap_append, filterMap_some]
      · have hn : 10 ∉ c :: r := by
          rcases ht with ht | ht
          · exact ht
          · simp at ht; exact absurd ht hc
        have h1 := open_reads_defect ls c r h hc hn
        refine ⟨ls.length + 1, ls.map some ++ [none], _, h1, Or.inl rfl, ?_⟩
        simp [List.filterMap_append, filterMap_some]

/-- A store splits at the start of each of its lines (and at its end marker). -/
theorem store_split (ls : List (List Nat)) (junk : List Nat) (n : Nat) :
    store ls junk = ([49, 10] ++ enc (ls.take n)) ++ (enc (ls.drop n) ++ 0 :: junk) := by
  have h : enc ls = enc (ls.take n) ++ enc (ls.drop n) := by
    rw [← enc_append, List.take_append_drop]
  simp [store, h]

/-- Opening a store and calling `read ()` at least once: the store is still reading, and
the remembered offset is the start of the last line returned, or the offset of the end
marker when the lines are exhausted. -/
theorem store_reads_offset (ls : List (List Nat)) (junk : List Nat) (r : Nat)
    (h : ∀ y ∈ ls, storable y) (hr : 1 ≤ r) :
    ∃ res st pos ln, reopen_reads (store ls junk) r
      = .ok (res, ⟨.known, false, st, ⟨store ls junk, pos, false, false, false, []⟩,
          ((2 + (enc (ls.take (r - 1))).length : Nat) : Int), ln⟩) ∧ st ≠ .write := by
  cases hd : ls.drop (r - 1) with
  | cons l b =>
      have hlen : r - 1 < ls.length := by
        by_contra hc
        rw [List.drop_of_length_le (by omega)] at hd
        exact absurd hd (by simp)
      have e : ls = ls.take (r - 1) ++ l :: b := by
        rw [← hd, List.take_append_drop]
      have hl : (ls.take (r - 1)).length = r - 1 := by
        rw [List.length_take]; omega
      have h1 := open_store_reads (ls.take (r - 1)) l b junk (by rw [← e]; exact h)
      rw [← e, hl] at h1
      have er : r - 1 + 1 = r := by omega
      rw [er] at h1
      refine ⟨_, _, _, _, h1, ?_⟩
      split <;> decide
  | nil =>
      have hlen : ls.length ≤ r - 1 := by
        by_contra hc
        have := congrArg List.length hd
        simp at this
        omega
      have e : ls.take (r - 1) = ls := List.take_of_length_le hlen
      obtain ⟨j, hj⟩ : ∃ j, r = (ls.length + 1) + j := ⟨r - (ls.length + 1), by omega⟩
      obtain ⟨ln, h1⟩ := open_store_reads_all ls junk h
      rw [e, hj]
      simp only [reopen_reads] at h1 ⊢
      obtain ⟨d0, h0, h2⟩ := bind_ok_inv _ _ _ h1
      rw [h0]
      simp only [except_bind_ok]
      rw [reads_add, h2]
      simp only [except_bind_ok]
      cases j with
      | zero => exact ⟨_, _, _, _, rfl, by decide⟩
      | succ j =>
          rw [reads_at_end]
          exact ⟨_, _, _, _, rfl, by decide⟩

/-- The overwriting session on a store, in closed form: the byte writes are the null-fill
from the remembered offset to the end of the file, then the bytes of the new lines from
that offset on, then the end marker. -/
theorem overwrite_session_eq (ls : List (List Nat)) (junk : List Nat) (r : Nat)
    (ns : List (List Nat)) (h : ∀ y ∈ ls, storable y) (hr : 1 ≤ r) :
    ∃ d, overwrite_session (store ls junk) r ns = .ok d ∧
      d.fs_.wlog
        = trace (2 + (enc (ls.take (r - 1))).length)
            (List.replicate (enc (ls.drop (r - 1)) ++ 0 :: junk).length 0)
          ++ trace (2 + (enc (ls.take (r - 1))).length) (enc ns ++ [0]) ∧
      d.fs_.file
        = [49, 10] ++ enc (ls.take (r - 1)) ++ (enc ns ++ [0])
          ++ List.drop (enc ns ++ [0]).length
              (List.replicate (enc (ls.drop (r - 1)) ++ 0 :: junk).length 0) := by
  obtain ⟨res, st, pos, ln, h1, hst⟩ := store_reads_offset ls junk r h hr
  have hp : ([49, 10] ++ enc (ls.take (r - 1))).length = 2 + (enc (ls.take (r - 1))).length := by
    simp; omega
  have h2 := change_eq .known false st (store ls junk) pos false false false []
    ((2 + (enc (ls.take (r - 1))).length : Nat) : Int) ln true
    ([49, 10] ++ enc (ls.take (r - 1))) (enc (ls.drop (r - 1)) ++ 0 :: junk) hst
    (store_split ls junk (r - 1)) (by rw [hp])
  have h3 := write_lines_eq ns .timestamp_unknown false
    ([49, 10] ++ enc (ls.take (r - 1))
      ++ List.replicate (enc (ls.drop (r - 1)) ++ 0 :: junk).length 0)
    ([49, 10] ++ enc (ls.take (r - 1))).length true
    ([] ++ trace ([49, 10] ++ enc (ls.take (r - 1))).length
      (List.replicate (enc (ls.drop (r - 1)) ++ 0 :: junk).length 0))
    ((2 + (enc (ls.take (r - 1))).length : Nat) : Int) ln
    ([49, 10] ++ enc (ls.take (r - 1)))
    (List.replicate (enc (ls.drop (r - 1)) ++ 0 :: junk).length 0) rfl rfl
  have h4 := close_write .timestamp_unknown false
    ([49, 10] ++ enc (ls.take (r - 1)) ++ enc ns
      ++ List.drop (enc ns).length
          (List.replicate (enc (ls.drop (r - 1)) ++ 0 :: junk).length 0))
    (([49, 10] ++ enc (ls.take (r - 1))).length + (enc ns).length) true
    ([] ++ trace ([49, 10] ++ enc (ls.take (r - 1))).length
        (List.replicate (enc (ls.drop (r - 1)) ++ 0 :: junk).length 0)
      ++ trace ([49, 10] ++ enc (ls.take (r - 1))).length (enc ns))
    ((2 + (enc (ls.take (r - 1))).length : Nat) : Int) ln
    ([49, 10] ++ enc (ls.take (r - 1)) ++ enc ns)
    (List.drop (enc ns).length (List.replicate (enc (ls.drop (r - 1)) ++ 0 :: junk).length 0))
    rfl (by simp; omega)
  refine ⟨?_, ?_, ?_, ?_⟩
  rotate_left 1
  · simp only [overwrite_session, h1, except_bind_ok, h2, h3]
    exact h4
  · have e1 : ([49, 10] ++ enc (ls.take (r - 1)) ++ enc ns).length
        = 2 + (enc (ls.take (r - 1))).length + (enc ns).length := by
      simp; omega
    have e2 : trace (2 + (enc (ls.take (r - 1))).length) (enc ns ++ [0])
        = trace (2 + (enc (ls.take (r - 1))).length) (enc ns)
          ++ [(2 + (enc (ls.take (r - 1))).length + (enc ns).length, 0)] := by
      rw [trace_append]; rfl
    rw [e2]
    simp only [hp, List.nil_append, List.append_assoc] at e1 ⊢
    rw [e1]
  · simp
    omega

/-- A `write ()` in `Read` or `ReadEnd` is the mode switch followed by the `write ()`. -/
theorem write_after_change (d : depdb) (s : List Nat) (h : d.state_ ≠ .write) :
    d.write s true = (do let d1 ← d.change true; d1.write s true) := by
  simp only [depdb.write, h, ne_eq, not_false_eq_true, ↓reduceIte]
  cases hc : d.change true with
  | error e => rfl
  | ok d1 =>
      have := (change_state d true d1 hc).1
      simp [this]

/-- With at least one replacement line, the overwriting session is the plain sequence of
calls: the first `write ()` makes the mode switch itself. -/
theorem overwrite_session_calls (ls : List (List Nat)) (junk : List Nat) (r : Nat)
    (n1 : List Nat) (ns : List (List Nat)) (h : ∀ y ∈ ls, storable y) (hr : 1 ≤ r) :
    overwrite_session (store ls junk) r (n1 :: ns)
      = (do let (_, d) ← reopen_reads (store ls junk) r
            let d2 ← write_lines d (n1 :: ns)
            d2.close) := by
  obtain ⟨res, st, pos, ln, h1, hst⟩ := store_reads_offset ls junk r h hr
  simp only [overwrite_session, h1, except_bind_ok, write_lines]
  rw [write_after_change _ n1 hst]
  cases hc : depdb.change _ true with
  | error e => rfl
  | ok d1 => rfl

/-- The file when the writes are cut off inside the null-fill. -/
theorem cut_early (pre tl : List Nat) (p : Nat) (v : List (Nat × Nat)) (m : Nat)
    (hp : p = pre.length) (hm : m ≤ tl.length) :
    replay (pre ++ tl) ((trace p (List.replicate tl.length 0) ++ v).take m)
      = pre ++ List.replicate m 0 ++ tl.drop m := by
  subst hp
  have h1 : (trace pre.length (List.replicate tl.length 0) ++ v).take m
      = trace pre.length (List.replicate m 0) := by
    rw [List.take_append_of_le_length (by rw [trace_length]; simpa using hm), trace_take]
    simp [List.take_replicate, Nat.min_eq_left hm]
  rw [h1, replay_trace]
  simp

/-- The file when the writes are cut off after the null-fill, `t` bytes into what follows. -/
theorem cut_late (pre tl : List Nat) (p : Nat) (y : List Nat) (t : Nat) (hp : p = pre.length) :
    replay (pre ++ tl) ((trace p (List.replicate tl.length 0) ++ trace p y).take (tl.length + t))
      = pre ++ y.take t ++ (List.replicate tl.length 0).drop (y.take t).length := by
  subst hp
  have h1 : (trace pre.length (List.replicate tl.length 0) ++ trace pre.length y).take
        (tl.length + t)
      = trace pre.length (List.replicate tl.length 0) ++ trace pre.length (y.take t) := by
    rw [List.take_append_eq_append_take, trace_length, List.length_replicate]
    rw [List.take_of_length_le (by rw [trace_length]; simp), trace_take]
    simp
  rw [h1, replay_append, replay_trace]
  have e : pre ++ List.replicate tl.length 0 ++ List.drop (List.replicate tl.length 0).length tl
      = pre ++ List.replicate tl.length 0 := by simp
  rw [e, replay_trace]

/-- Reading a store in which an overwrite was cut off after at least one byte write: the
lines read are an initial part of the intended content. -/
theorem cut_reads (ls : List (List Nat)) (junk : List Nat) (r : Nat) (ns : List (List Nat))
    (m k : Nat) (h : ∀ y ∈ ls, storable y) (hn : ∀ y ∈ ns, storable y) (hm : 1 ≤ m) :
    ∃ res d1, reopen_reads
        (replay (store ls junk)
          ((trace (2 + (enc (ls.take (r - 1))).length)
              (List.replicate (enc (ls.drop (r - 1)) ++ 0 :: junk).length 0)
            ++ trace (2 + (enc (ls.take (r - 1))).length) (enc ns ++ [0])).take m)) k
        = .ok (res, d1) ∧
      res.filterMap id <+: ls.take (r - 1) ++ ns := by
  have hp : 2 + (enc (ls.take (r - 1))).length = ([49, 10] ++ enc (ls.take (r - 1))).length := by
    simp; omega
  have ha : ∀ y ∈ ls.take (r - 1), storable y := fun y hy => h y (List.mem_of_mem_take hy)
  rw [store_split ls junk (r - 1)]
  -- It is enough to settle the store by some number of reads.
  suffices hs : ∃ n res d, reopen_reads
        (replay ([49, 10] ++ enc (ls.take (r - 1)) ++ (enc (ls.drop (r - 1)) ++ 0 :: junk))
          ((trace (2 + (enc (ls.take (r - 1))).length)
              (List.replicate (enc (ls.drop (r - 1)) ++ 0 :: junk).length 0)
            ++ trace (2 + (enc (ls.take (r - 1))).length) (enc ns ++ [0])).take m)) n
        = .ok (res, d) ∧ settled d ∧ res.filterMap id <+: ls.take (r - 1) ++ ns by
    obtain ⟨n, res, d, h1, h2, h3⟩ := hs
    obtain ⟨res1, d1, h4, h5⟩ := reopen_reads_initial _ n res d h1 h2 k
    exact ⟨res1, d1, h4, h5.trans h3⟩
  rcases Nat.le_total m (enc (ls.drop (r - 1)) ++ 0 :: junk).length with hle | hgt
  · -- inside the null-fill
    rw [cut_early _ _ _ _ m hp hle]
    obtain ⟨m1, rfl⟩ : ∃ m1, m = m1 + 1 := ⟨m - 1, by omega⟩
    obtain ⟨n, res, d, h1, h2, h3⟩ := open_reads_settle (ls.take (r - 1))
      (List.replicate (m1 + 1) 0 ++ (enc (ls.drop (r - 1)) ++ 0 :: junk).drop (m1 + 1)) ha
      (Or.inr (by simp [List.replicate_succ]))
    refine ⟨n, res, d, ?_, h2, h3.trans (List.prefix_append _ _)⟩
    rw [← h1]; simp
  · obtain ⟨t, rfl⟩ := Nat.exists_eq_add_of_le hgt
    rw [cut_late _ _ _ _ t hp]
    rcases Nat.lt_or_ge (enc ns).length t with ht | ht
    rotate_left 1
    · -- inside the new lines
      obtain ⟨i, part, e, hp1, hp2⟩ := enc_take ns t hn ht
      have e2 : (enc ns ++ [0]).take t = enc (ns.take i) ++ part := by
        rw [List.take_append_of_le_length ht, e]
      have hb : ∀ y ∈ ls.take (r - 1) ++ ns.take i, storable y := by
        intro y hy
        rcases List.mem_append.mp hy with hy | hy
        · exact ha y hy
        · exact hn y (List.mem_of_mem_take hy)
      obtain ⟨n, res, d, h1, h2, h3⟩ := open_reads_settle (ls.take (r - 1) ++ ns.take i)
        (part ++ (List.replicate (enc (ls.drop (r - 1)) ++ 0 :: junk).length 0).drop
          (enc (ns.take i) ++ part).length) hb
        (Or.inl (by
          intro hmem
          rcases List.mem_append.mp hmem with hmem | hmem
          · exact hp1 hmem
          · have := List.eq_of_mem_replicate (List.mem_of_mem_drop hmem)
            exact absurd this (by decide)))
      refine ⟨n, res, d, ?_, h2, h3.trans ?_⟩
      · rw [← h1, e2]; simp [enc_append]
      · exact (List.prefix_append_right_inj _).mpr (List.take_prefix i ns)
    · -- the end marker was written as well
      have e2 : (enc ns ++ [0]).take t = enc ns ++ [0] :=
        List.take_of_length_le (by simp; omega)
      have hb : ∀ y ∈ ls.take (r - 1) ++ ns, storable y := by
        intro y hy
        rcases List.mem_append.mp hy with hy | hy
        · exact ha y hy
        · exact hn y hy
      obtain ⟨n, res, d, h1, h2, h3⟩ := open_reads_settle (ls.take (r - 1) ++ ns)
        (0 :: (List.replicate (enc (ls.drop (r - 1)) ++ 0 :: junk).length 0).drop
          (enc ns ++ [0]).length) hb (Or.inr rfl)
      refine ⟨n, res, d, ?_, h2, h3⟩
      rw [← h1, e2]; simp [enc_append]

/-- C2, as stated, fails at the cut before the first byte write: the file is still the old
store, and reading it yields the old lines `a`, `b`, which are not an initial part of the
intended content `a`, `c`. -/
theorem uncut_store_reads_old :
    ∃ d res d1, overwrite_session (store [[97], [98]] []) 2 [[99]] = .ok d ∧
      reopen_reads (replay (store [[97], [98]] []) (d.fs_.wlog.take 0)) 3 = .ok (res, d1) ∧
      ¬ res.filterMap id <+: [[97], [98]].take (2 - 1) ++ [[99]] :=
  ⟨_, _, _, rfl, rfl, by decide⟩

/-- C2, amended. Tail safety: for every cleanly closed store, every overwrite offset reached
by at least one `read ()`, every list of replacement lines without newline and null byte,
and every point after the first byte write at which the sequence of byte writes (the
null-fill of the mode switch, the bytes of the new lines, the end marker) is cut off,
reopening the file and reading it yields lines that are an initial part of the intended
content: the old lines before the overwrite offset followed by the new lines. -/
theorem tail_safety (ls : List (List Nat)) (junk : List Nat) (r : Nat) (ns : List (List Nat))
    (m k : Nat) (hls : ∀ l ∈ ls, storable l) (hns : ∀ l ∈ ns, plain l) (hr : 1 ≤ r)
    (hm : 1 ≤ m) :
    ∃ d, overwrite_session (store ls junk) r ns = .ok d ∧
      d.fs_.wlog
        = trace (2 + (enc (ls.take (r - 1))).length)
            (List.replicate ((store ls junk).length - (2 + (enc (ls.take (r - 1))).length)) 0)
          ++ trace (2 + (enc (ls.take (r - 1))).length) (enc ns ++ [0]) ∧
      ∃ res d1, reopen_reads (replay (store ls junk) (d.fs_.wlog.take m)) k = .ok (res, d1) ∧
        res.filterMap id <+: ls.take (r - 1) ++ ns := by
  obtain ⟨d, h1, h2, -⟩ := overwrite_session_eq ls junk r ns hls hr
  have hlen : (store ls junk).length - (2 + (enc (ls.take (r - 1))).length)
      = (enc (ls.drop (r - 1)) ++ 0 :: junk).length := by
    rw [store_split ls junk (r - 1)]
    simp
    omega
  refine ⟨d, h1, by rw [hlen]; exact h2, ?_⟩
  rw [h2]
  exact cut_reads ls junk r ns m k hls (fun y hy => plain_storable y (hns y hy)) hm

/-- C2, amended, at a cut after nine byte writes. -/
theorem tail_safety_witness :
    (∀ l ∈ [[97], [98], [99]], storable l) ∧ (∀ l ∈ [[120, 121], [122]], plain l) ∧
    1 ≤ 2 ∧ 1 ≤ 9 ∧
    ∃ d, overwrite_session (store [[97], [98], [99]] []) 2 [[120, 121], [122]] = .ok d ∧
      d.fs_.wlog
        = trace (2 + (enc ([[97], [98], [99]].take (2 - 1))).length)
            (List.replicate ((store [[97], [98], [99]] []).length
              - (2 + (enc ([[97], [98], [99]].take (2 - 1))).length)) 0)
          ++ trace (2 + (enc ([[97], [98], [99]].take (2 - 1))).length)
              (enc [[120, 121], [122]] ++ [0]) ∧
      ∃ res d1, reopen_reads (replay (store [[97], [98], [99]] []) (d.fs_.wlog.take 9)) 4
          = .ok (res, d1) ∧
        res.filterMap id <+: [[97], [98], [99]].take (2 - 1) ++ [[120, 121], [122]] :=
  ⟨by simp [storable], by simp [plain], by decide, by decide,
    tail_safety [[97], [98], [99]] [] 2 [[120, 121], [122]] 9 4 (by simp [storable])
      (by simp [plain]) (by decide) (by decide)⟩

/-- C7, as stated, fails: after the null-fill and before the end marker is written, a cut
right behind the newline of the new line `c` leaves the version line and the line `c`
followed by nulls of the fill; on the next open, reading returns `c` and ends in
`ReadEnd`. -/
theorem cut_on_boundary_reads_end :
    ∃ d d1, overwrite_session (store [[97], [98]] []) 1 [[99]] = .ok d ∧
      d.fs_.wlog = trace 2 (List.replicate 5 0) ++ trace 2 [99, 10, 0] ∧
      replay (store [[97], [98]] []) (d.fs_.wlog.take (5 + 2)) = [49, 10, 99, 10, 0, 0, 0] ∧
      reopen_reads (replay (store [[97], [98]] []) (d.fs_.wlog.take (5 + 2))) 2
        = .ok ([some [99], none], d1) ∧
      d1.state_ = .read_eof :=
  ⟨_, _, rfl, rfl, rfl, rfl, rfl⟩

/-- C7, amended. If a write that follows a mode switch is interrupted inside a new line
(after the null-fill and at least one byte of that line, before its newline), then on the
next open reading returns the old lines before the overwrite offset and the new lines
written completely, and then ends with a structural defect: `read ()` returns no line and
the store is in `Write`, not in `ReadEnd`. -/
theorem cut_inside_line (ls : List (List Nat)) (junk : List Nat) (r : Nat)
    (a : List (List Nat)) (l : List Nat) (b : List (List Nat)) (s : Nat)
    (hls : ∀ y ∈ ls, storable y) (hns : ∀ y ∈ a ++ l :: b, plain y) (hr : 1 ≤ r)
    (hs1 : 1 ≤ s) (hs2 : s ≤ l.length) :
    ∃ d d1, overwrite_session (store ls junk) r (a ++ l :: b) = .ok d ∧
      reopen_reads
          (replay (store ls junk)
            (d.fs_.wlog.take
              ((store ls junk).length - (2 + (enc (ls.take (r - 1))).length)
                + ((enc a).length + s))))
          ((ls.take (r - 1) ++ a).length + 1)
        = .ok ((ls.take (r - 1) ++ a).map some ++ [none], d1) ∧
      d1.state_ = .write := by
  obtain ⟨d, h1, h2, -⟩ := overwrite_session_eq ls junk r (a ++ l :: b) hls hr
  have hlen : (store ls junk).length - (2 + (enc (ls.take (r - 1))).length)
      = (enc (ls.drop (r - 1)) ++ 0 :: junk).length := by
    rw [store_split ls junk (r - 1)]
    simp
    omega
  have hp : 2 + (enc (ls.take (r - 1))).length = ([49, 10] ++ enc (ls.take (r - 1))).length := by
    simp; omega
  have hl : plain l := hns l (by simp)
  -- the bytes of the new content written before the cut
  obtain ⟨c, r1, hc⟩ : ∃ c r1, l.take s = c :: r1 := by
    cases l with
    | nil => simp at hs2; omega
    | cons c l1 =>
        obtain ⟨s1, rfl⟩ : ∃ s1, s = s1 + 1 := ⟨s - 1, by omega⟩
        exact ⟨c, l1.take s1, by simp⟩
  have hc0 : c ≠ 0 := by
    intro e
    have : c ∈ l := List.mem_of_mem_take (by rw [hc]; simp)
    rw [e] at this
    exact hl.2 this
  have hy : (enc (a ++ l :: b) ++ [0]).take ((enc a).length + s) = enc a ++ c :: r1 := by
    have e1 : enc (a ++ l :: b) ++ [0] = enc a ++ (l ++ (10 :: enc b ++ [0])) := by
      simp [enc_append, enc]
    rw [e1, List.take_append_eq_append_take]
    simp only [List.take_of_length_le (Nat.le_add_right _ _), Nat.add_sub_cancel_left]
    rw [List.take_append_of_le_length hs2, hc]
  have ha : ∀ y ∈ ls.take (r - 1) ++ a, storable y := by
    intro y hy
    rcases List.mem_append.mp hy with hy | hy
    · exact hls y (List.mem_of_mem_take hy)
    · exact plain_storable y (hns y (by simp [hy]))
  have hno : 10 ∉ c :: (r1 ++ (List.replicate (enc (ls.drop (r - 1)) ++ 0 :: junk).length 0).drop
      (enc a ++ c :: r1).length) := by
    intro hmem
    rw [← List.cons_append, ← hc] at hmem
    rcases List.mem_append.mp hmem with hmem | hmem
    · exact hl.1 (List.mem_of_mem_take hmem)
    · have := List.eq_of_mem_replicate (List.mem_of_mem_drop hmem)
      exact absurd this (by decide)
  have h3 := open_reads_defect (ls.take (r - 1) ++ a) c _ ha hc0 hno
  have hfile : replay (store ls junk)
        (d.fs_.wlog.take
          ((store ls junk).length - (2 + (enc (ls.take (r - 1))).length)
            + ((enc a).length + s)))
      = [49, 10] ++ enc (ls.take (r - 1) ++ a)
        ++ c :: (r1 ++ (List.replicate (enc (ls.drop (r - 1)) ++ 0 :: junk).length 0).drop
            (enc a ++ c :: r1).length) := by
    rw [h2, hlen, store_split ls junk (r - 1), cut_late _ _ _ _ _ hp, hy]
    simp [enc_append]
  refine ⟨d, ?_, h1, ?_, ?_⟩
  rotate_left 1
  · rw [hfile]
    exact h3
  · rfl

/-- C7, amended, at a cut after the first byte of the second new line. -/
theorem cut_inside_line_witness :
    (∀ y ∈ [[97], [98]], storable y) ∧ (∀ y ∈ [[120]] ++ [121, 122] :: [[99]], plain y) ∧
    1 ≤ 2 ∧ 1 ≤ 1 ∧ 1 ≤ [121, 122].length ∧
    ∃ d d1, overwrite_session (store [[97], [98]] [7, 7, 7]) 2 ([[120]] ++ [121, 122] :: [[99]])
        = .ok d ∧
      reopen_reads
          (replay (store [[97], [98]] [7, 7, 7])
            (d.fs_.wlog.take
              ((store [[97], [98]] [7, 7, 7]).length - (2 + (enc ([[97], [98]].take (2 - 1))).length)
                + ((enc [[120]]).length + 1))))
          (([[97], [98]].take (2 - 1) ++ [[120]]).length + 1)
        = .ok (([[97], [98]].take (2 - 1) ++ [[120]]).map some ++ [none], d1) ∧
      d1.state_ = .write :=
  ⟨by simp [storable], by simp [plain], by decide, by decide, by decide,
    cut_inside_line [[97], [98]] [7, 7, 7] 2 [[120]] [121, 122] [[99]] 1 (by simp [storable])
      (by simp [plain]) (by decide) (by decide) (by decide)⟩

/-! ## States that opening and reading reach -/

/-- Opening an existing file always succeeds, and leaves the store in `Write`, in
`ReadEnd`, or in `Read` with the stream as `reading` asks. -/
theorem ctor_reading (f : List Nat) :
    ∃ d, depdb.depdb (some f) = .ok d ∧ (d.state_ = .read → reading d) := by
  by_cases hv : f.takeWhile (fun b => b != 10) ≠ [49] ∨ f = [49, 10]
  · obtain ⟨ln, h⟩ := ctor_obsolete f hv
    exact ⟨_, h, fun hst => by simp at hst⟩
  · simp only [not_or, not_not] at hv
    rcases split_nl f with hno | ⟨l, rest, e, hl⟩
    · -- the whole file is the unterminated line `1`
      have e1 : f = [49] := by rw [← takeWhile_no_nl f hno]; exact hv.1
      subst e1
      exact ⟨_, rfl, fun hst => by simp at hst⟩
    · have e1 : l = [49] := by rw [← takeWhile_nl l rest hl, ← e]; exact hv.1
      subst e1
      cases rest with
      | nil => exact absurd e hv.2
      | cons c r =>
          have h := ctor_version c r
          have e2 : f = [49, 10] ++ c :: r := by rw [e]; rfl
          rw [← e2] at h
          refine ⟨_, h, fun hst => ⟨hst, rfl, rfl, rfl, ?_⟩⟩
          simp [e2]

/-- A `read ()` on a store that is `reading` always succeeds, and leaves the store in
`Write`, in `ReadEnd`, or `reading` again. -/
theorem read_reading (d : depdb) (h : reading d) :
    ∃ l d1, d.read = .ok (l, d1) ∧ (d1.state_ = .read → reading d1) := by
  obtain ⟨mt, tch, st, ⟨file, p, e, f, x, w⟩, qq, ln⟩ := d
  obtain ⟨hst, he, hf, hx, hp⟩ := h
  simp only at hst he hf hx hp
  subst hst he hf hx
  have hlen : (file.take p).length = p := by simp [hp]
  have hfile : file = file.take p ++ file.drop p := by simp
  rcases split_nl (file.drop p) with hno | ⟨l, rest, hd, hl⟩
  · have h1 := read_defect_eof mt tch file p w qq ln (file.take p) (file.drop p) hfile
      hlen.symm hno
    exact ⟨_, _, h1, fun hst => by simp at hst⟩
  · cases rest with
    | nil =>
        have h1 := read_defect_last mt tch file p w qq ln (file.take p) l
          (by rw [List.append_assoc, ← hd]; exact hfile) hlen.symm hl
        exact ⟨_, _, h1, fun hst => by simp at hst⟩
    | cons c r =>
        have hflen : file.length = p + l.length + 1 + (r.length + 1) := by
          have := congrArg List.length hd
          simp at this
          omega
        have h1 := read_line mt tch file p false w qq ln (file.take p) l c r
          (by rw [List.append_assoc, ← hd]; exact hfile) hlen.symm hl
        rw [hlen] at h1
        refine ⟨_, _, h1, fun hst => ⟨hst, rfl, rfl, rfl, ?_⟩⟩
        simp only
        omega

/-! ## Opening a store -/

/-- C15. Opening a store on a path without a file starts in `Write` and writes the version
tag at once: after construction the file is exactly the two bytes `1` and newline, and
`read ()` returns no line. -/
theorem open_missing_file :
    ∃ d, depdb.depdb none = .ok d ∧ d.state_ = .write ∧ d.fs_.file = [49, 10] ∧
      d.fs_.wlog = [(0, 49), (1, 10)] ∧ d.read = .ok (none, d) :=
  ⟨_, ctor_none, rfl, rfl, rfl, rfl⟩

/-- C16, as stated, fails: the file made of the version line alone starts in `Write` (its
bytes are written again), and the empty cleanly closed store starts in `ReadEnd`. -/
theorem version_line_alone_starts_in_write :
    (∃ d, depdb.depdb (some [49, 10]) = .ok d ∧ d.state_ = .write ∧ d.state_ ≠ .read ∧
      d.fs_.wlog = [(0, 0), (1, 0), (0, 49), (1, 10)]) ∧
    (∃ d, depdb.depdb (some [49, 10, 0]) = .ok d ∧ d.state_ = .read_eof ∧ d.state_ ≠ .read) :=
  ⟨⟨_, rfl, rfl, by decide, rfl⟩, ⟨_, rfl, rfl, by decide⟩⟩

/-- C16, amended. For every existing file whose first line is the version token `1`
terminated by a newline and followed by at least one more byte, opening the store writes
no byte, leaves every byte of the file unchanged, and starts in `Read`, or in `ReadEnd`
when the byte after the version line is null. -/
theorem open_current_version (c : Nat) (r : List Nat) :
    ∃ d, depdb.depdb (some ([49, 10] ++ c :: r)) = .ok d ∧
      d.state_ = (if c = 0 then .read_eof else .read) ∧
      d.fs_.file = [49, 10] ++ c :: r ∧ d.fs_.wlog = [] ∧ d.fs_.pos = 2 :=
  ⟨_, ctor_version c r, rfl, rfl, rfl, rfl⟩

/-- C17, as stated, fails: opening a file that starts with the version token `2` leaves
null bytes behind the new version line, where the file held `a`, newline and `b`. -/
theorem old_bytes_are_null_filled :
    ([50, 10, 97, 10, 98] : List Nat).takeWhile (fun b => b != 10) ≠ [49] ∧
    ∃ d, depdb.depdb (some [50, 10, 97, 10, 98]) = .ok d ∧
      d.fs_.file = [49, 10, 0, 0, 0] ∧
      d.fs_.file[2]? ≠ ([50, 10, 97, 10, 98] : List Nat)[2]? :=
  ⟨by decide, _, rfl, rfl, by decide⟩

/-- C17, amended. Opening an existing store whose version tag does not match reuses the
open file: after construction the store is in `Write`, the file starts with `1` and
newline, it is as long as before (two bytes if it was shorter), and every byte at offset 2
and above is null. -/
theorem open_obsolete_version (f : List Nat) (hv : f.takeWhile (fun b => b != 10) ≠ [49]) :
    ∃ d, depdb.depdb (some f) = .ok d ∧ d.state_ = .write ∧
      d.fs_.file = [49, 10] ++ List.replicate (f.length - 2) 0 ∧
      d.fs_.file.length = max f.length 2 ∧
      (∀ i, 2 ≤ i → i < d.fs_.file.length → d.fs_.file[i]? = some 0) ∧
      d.fs_.pos = 2 := by
  obtain ⟨ln, h⟩ := ctor_obsolete f (Or.inl hv)
  refine ⟨_, h, rfl, rfl, ?_, ?_, rfl⟩
  · simp; omega
  · intro i h1 h2
    simp only at h2 ⊢
    rw [List.getElem?_append_right (by simpa using h1), List.getElem?_replicate]
    simp at h2 ⊢
    omega

/-- C17, amended, at a file that starts with the version token `2`. -/
theorem open_obsolete_version_witness :
    ([50, 10, 97, 10, 98] : List Nat).takeWhile (fun b => b != 10) ≠ [49] ∧
    ∃ d, depdb.depdb (some [50, 10, 97, 10, 98]) = .ok d ∧ d.state_ = .write ∧
      d.fs_.file = [49, 10] ++ List.replicate (([50, 10, 97, 10, 98] : List Nat).length - 2) 0 ∧
      d.fs_.file.length = max ([50, 10, 97, 10, 98] : List Nat).length 2 ∧
      (∀ i, 2 ≤ i → i < d.fs_.file.length → d.fs_.file[i]? = some 0) ∧
      d.fs_.pos = 2 :=
  ⟨by decide, open_obsolete_version [50, 10, 97, 10, 98] (by decide)⟩

/-! ## Skipping, in closed form -/

theorem skip_scan_other (c : Nat) (rest : List Nat) (h : c ≠ 10) :
    skip_scan (c :: rest) = (skip_scan rest).map (fun k => k + 1) := by
  cases rest <;> simp [skip_scan, h]

/-- The loop of `skip ()`, in closed form, on a good stream with enough fuel. -/
theorem skip_loop_eq (n : Nat) : ∀ (rest pre : List Nat) (mt : timestamp) (tch : Bool)
    (st : state) (file : List Nat) (w : List (Nat × Nat)) (q : Int) (ln : List Nat),
    file = pre ++ rest → rest.length < n →
    depdb.skip_loop n ⟨mt, tch, st, ⟨file, pre.length, false, false, false, w⟩, q, ln⟩
      = .ok (match skip_scan rest with
          | some k => (true, ⟨mt, tch, .read_eof,
              ⟨file, pre.length + k, false, false, false, w⟩, q, ln⟩)
          | none => (false, ⟨mt, tch, st, ⟨file, file.length, true, true, false, w⟩, q, ln⟩)) := by
  induction n with
  | zero => intro rest pre mt tch st file w q ln _ h; exact absurd h (by omega)
  | succ n ih =>
      intro rest pre mt tch st file w q ln hf hn
      cases rest with
      | nil =>
          have hp : pre.length = file.length := by simp [hf]
          simp only [depdb.skip_loop, get_eof file pre.length w hp, except_bind_ok, skip_scan]
          simp [hp]
      | cons c rest1 =>
          have h1 := get_some file pre.length false w pre c rest1 hf rfl
          simp only [depdb.skip_loop, h1, except_bind_ok]
          by_cases hc : c = 10
          · subst hc
            cases rest1 with
            | nil =>
                have hp : pre.length + 1 = file.length := by simp [hf]
                simp only [get_eof file (pre.length + 1) w hp, except_bind_ok, skip_scan]
                simp [hp]
            | cons c2 rest2 =>
                have h2 := get_some file (pre.length + 1) false w (pre ++ [10]) c2 rest2
                  (by simp [hf]) (by simp)
                simp only [h2, except_bind_ok, skip_scan]
                by_cases hc2 : c2 = 0
                · subst hc2
                  simp
                · have hi := ih rest2 (pre ++ [10, c2]) mt tch st file w q ln (by simp [hf])
                    (by simp at hn; omega)
                  have e : (pre ++ [10, c2]).length = pre.length + 1 + 1 := by simp
                  rw [e] at hi
                  simp only [Option.some.injEq, hc2, ↓reduceIte, bne_iff_ne, ne_eq,
                    reduceCtorEq, not_false_eq_true, except_pure, hi]
                  cases skip_scan rest2 with
                  | none => simp
                  | some k => simp; omega
          · have hi := ih rest1 (pre ++ [c]) mt tch st file w q ln (by simp [hf])
              (by simp at hn; omega)
            have e : (pre ++ [c]).length = pre.length + 1 := by simp
            rw [e] at hi
            simp only [Option.some.injEq, hc, ↓reduceIte, bne_iff_ne, ne_eq, reduceCtorEq,
              not_false_eq_true, except_pure, hi, skip_scan_other c rest1 hc]
            cases skip_scan rest1 with
            | none => simp
            | some k => simp; omega

/-- In `Read`, `skip ()` that finds the end marker: the store is in `ReadEnd`, positioned
behind the bytes it consumed, and remembers the position it started from. -/
theorem skip_found (mt : timestamp) (tch : Bool) (file : List Nat) (p : Nat)
    (w : List (Nat × Nat)) (q : Int) (ln : List Nat) (pre rest : List Nat) (k : Nat)
    (hf : file = pre ++ rest) (hp : p = pre.length) (hk : skip_scan rest = some k) :
    depdb.skip ⟨mt, tch, .read, ⟨file, p, false, false, false, w⟩, q, ln⟩
      = .ok (true, ⟨mt, tch, .read_eof, ⟨file, p + k, false, false, false, w⟩, (p : Int), ln⟩) := by
  subst hp
  have h := skip_loop_eq (file.length + 1) rest pre mt tch .read file w (pre.length : Int) ln hf
    (by simp [hf]; omega)
  simp only [depdb.skip, reduceCtorEq, ↓reduceIte, ne_eq, not_true_eq_false, tellg_ok,
    except_bind_ok, h, hk, except_pure]

/-- In `Read`, `skip ()` that runs into the end of the file: the store switches to `Write`
at the position it started from, null-filling the file from there on. -/
theorem skip_defect (mt : timestamp) (tch : Bool) (file : List Nat) (p : Nat)
    (w : List (Nat × Nat)) (q : Int) (ln : List Nat) (pre rest : List Nat)
    (hf : file = pre ++ rest) (hp : p = pre.length) (hk : skip_scan rest = none) :
    depdb.skip ⟨mt, tch, .read, ⟨file, p, false, false, false, w⟩, q, ln⟩
      = .ok (false, ⟨.timestamp_unknown, tch, .write,
          ⟨pre ++ List.replicate rest.length 0, p, false, false, true,
            w ++ trace p (List.replicate rest.length 0)⟩, (p : Int), ln⟩) := by
  subst hp
  have h := skip_loop_eq (file.length + 1) rest pre mt tch .read file w (pre.length : Int) ln hf
    (by simp [hf]; omega)
  have hc := change_eq mt tch .read file file.length true true false w (pre.length : Int) ln true
    pre rest (by decide) hf rfl
  simp only [depdb.skip, reduceCtorEq, ↓reduceIte, ne_eq, not_true_eq_false, tellg_ok,
    except_bind_ok, h, hk, except_pure, Bool.false_eq_true, hc]

/-! ## Overwriting after reads -/

/-- The file left by an overwriting session reads back as the old lines before the
remembered offset followed by the new lines. -/
theorem overwrite_session_reads (ls : List (List Nat)) (junk : List Nat) (r : Nat)
    (ns : List (List Nat)) (h : ∀ y ∈ ls, storable y) (hn : ∀ y ∈ ns, storable y) (hr : 1 ≤ r) :
    ∃ d d3, overwrite_session (store ls junk) r ns = .ok d ∧
      d.fs_.wlog
        = trace (2 + (enc (ls.take (r - 1))).length)
            (List.replicate (enc (ls.drop (r - 1)) ++ 0 :: junk).length 0)
          ++ trace (2 + (enc (ls.take (r - 1))).length) (enc ns ++ [0]) ∧
      d.fs_.file = store (ls.take (r - 1) ++ ns)
        (List.drop (enc ns ++ [0]).length
          (List.replicate (enc (ls.drop (r - 1)) ++ 0 :: junk).length 0)) ∧
      reopen_reads d.fs_.file ((ls.take (r - 1) ++ ns).length + 1)
        = .ok ((ls.take (r - 1) ++ ns).map some ++ [none], d3) ∧
      d3.state_ = .read_eof := by
  obtain ⟨d, h1, h2, h3⟩ := overwrite_session_eq ls junk r ns h hr
  have hb : ∀ y ∈ ls.take (r - 1) ++ ns, storable y := by
    intro y hy
    rcases List.mem_append.mp hy with hy | hy
    · exact h y (List.mem_of_mem_take hy)
    · exact hn y hy
  have h4 : d.fs_.file = store (ls.take (r - 1) ++ ns)
      (List.drop (enc ns ++ [0]).length
        (List.replicate (enc (ls.drop (r - 1)) ++ 0 :: junk).length 0)) := by
    rw [h3]; simp [store, enc_append]
  obtain ⟨ln, h5⟩ := open_store_reads_all (ls.take (r - 1) ++ ns)
    (List.drop (enc ns ++ [0]).length
      (List.replicate (enc (ls.drop (r - 1)) ++ 0 :: junk).length 0)) hb
  rw [← h4] at h5
  exact ⟨d, _, h1, h2, h4, h5, rfl⟩

/-- The calls behind an overwriting session with one new line. -/
theorem overwrite_session_one (ls : List (List Nat)) (junk : List Nat) (r : Nat) (x : List Nat)
    (h : ∀ y ∈ ls, storable y) (hr : 1 ≤ r) (res : List (Option (List Nat))) (d d2 : depdb)
    (h1 : reopen_reads (store ls junk) r = .ok (res, d))
    (h2 : overwrite_session (store ls junk) r [x] = .ok d2) :
    ∃ d1, d.write x true = .ok d1 ∧ d1.close = .ok d2 := by
  rw [overwrite_session_calls ls junk r x [] h hr, h1] at h2
  simp only [except_bind_ok, write_lines] at h2
  obtain ⟨d1, h3, h4⟩ := bind_ok_inv _ _ _ h2
  obtain ⟨d1a, h5, h6⟩ := bind_ok_inv _ _ _ h3
  cases h6
  exact ⟨_, h5, h4⟩

/-- C19. A `write ()` issued right after `read ()` overwrites from the start of the line
just returned: for every cleanly closed store with lines `L1..Ln`, every `k` with
`1 <= k <= n` and every line `X` without newline and null byte, opening the store, calling
`read ()` `k` times (returning `L1..Lk`), then `write (X)` and `close ()`, and reopening
yields exactly `L1..L(k-1)` followed by `X` and then the end of the data. -/
theorem overwrite_last_read (ls : List (List Nat)) (junk : List Nat) (k : Nat) (x : List Nat)
    (hls : ∀ l ∈ ls, storable l) (hx : plain x) (hk1 : 1 ≤ k) (hk2 : k ≤ ls.length) :
    ∃ d d1 d2 d3, reopen_reads (store ls junk) k = .ok ((ls.take k).map some, d) ∧
      d.pos_ = ((2 + (enc (ls.take (k - 1))).length : Nat) : Int) ∧
      d.write x true = .ok d1 ∧ d1.close = .ok d2 ∧
      reopen_reads d2.fs_.file (k + 1) = .ok ((ls.take (k - 1) ++ [x]).map some ++ [none], d3) ∧
      d3.state_ = .read_eof := by
  -- the first `k` reads
  have hlt : k - 1 < ls.length := by omega
  obtain ⟨l, b, hd⟩ : ∃ l b, ls.drop (k - 1) = l :: b := by
    cases hd : ls.drop (k - 1) with
    | nil =>
        have := congrArg List.length hd
        simp at this
        omega
    | cons l b => exact ⟨l, b, rfl⟩
  have e : ls = ls.take (k - 1) ++ l :: b := by rw [← hd, List.take_append_drop]
  have hl : (ls.take (k - 1)).length = k - 1 := by rw [List.length_take]; omega
  have hr1 := open_store_reads (ls.take (k - 1)) l b junk (by rw [← e]; exact hls)
  rw [← e, hl] at hr1
  have ek : k - 1 + 1 = k := by omega
  rw [ek] at hr1
  have etk : ls.take k = ls.take (k - 1) ++ [l] := by
    have e2 : ls.take k = (ls.take (k - 1) ++ l :: b).take ((ls.take (k - 1)).length + 1) := by
      rw [← e, hl, ek]
    rw [e2, List.take_append_eq_append_take]
    simp
  rw [← List.map_singleton (f := some), ← List.map_append, ← etk] at hr1
  -- the session
  obtain ⟨d2, d3, h1, -, -, h5, h6⟩ := overwrite_session_reads ls junk k [x] hls
    (fun y hy => by
      simp only [List.mem_singleton] at hy
      subst hy
      exact plain_storable y hx) hk1
  obtain ⟨d1, h7, h8⟩ := overwrite_session_one ls junk k x hls hk1 _ _ d2 hr1 h1
  have elen : (ls.take (k - 1) ++ [x]).length + 1 = k + 1 := by simp [hl]; omega
  rw [elen] at h5
  exact ⟨_, d1, d2, d3, hr1, rfl, h7, h8, h5, h6⟩

/-- C19 at a store of three lines, overwriting from the second. -/
theorem overwrite_last_read_witness :
    (∀ l ∈ [[97], [98], [99]], storable l) ∧ plain [120, 121] ∧ 1 ≤ 2 ∧
    2 ≤ [[97], [98], [99]].length ∧
    ∃ d d1 d2 d3, reopen_reads (store [[97], [98], [99]] []) 2
        = .ok (([[97], [98], [99]].take 2).map some, d) ∧
      d.pos_ = ((2 + (enc ([[97], [98], [99]].take (2 - 1))).length : Nat) : Int) ∧
      d.write [120, 121] true = .ok d1 ∧ d1.close = .ok d2 ∧
      reopen_reads d2.fs_.file (2 + 1)
        = .ok (([[97], [98], [99]].take (2 - 1) ++ [[120, 121]]).map some ++ [none], d3) ∧
      d3.state_ = .read_eof :=
  ⟨by decide, by decide, by decide, by decide,
    overwrite_last_read [[97], [98], [99]] [] 2 [120, 121] (by decide) (by decide) (by decide)
      (by decide)⟩

/-- C13. Append at the end marker: for every cleanly closed store with lines `L1..Ln` and
every line `X` without newline and null byte, opening it, calling `read ()` until it
returns no line (store in `ReadEnd`), then `write (X)` and `close ()`, and reopening yields
exactly `L1..Ln` followed by `X` and then the end of the data; the bytes of `X` are written
from the offset of the old end marker on. -/
theorem append_at_end_marker (ls : List (List Nat)) (junk : List Nat) (x : List Nat)
    (hls : ∀ l ∈ ls, storable l) (hx : plain x) :
    ∃ d d1 d2 d3, reopen_reads (store ls junk) (ls.length + 1) = .ok (ls.map some ++ [none], d) ∧
      d.state_ = .read_eof ∧
      (store ls junk)[2 + (enc ls).length]? = some 0 ∧
      d.write x true = .ok d1 ∧ d1.close = .ok d2 ∧
      d2.fs_.wlog = trace (2 + (enc ls).length) (List.replicate (junk.length + 1) 0)
        ++ trace (2 + (enc ls).length) (x ++ [10] ++ [0]) ∧
      reopen_reads d2.fs_.file (ls.length + 2) = .ok ((ls ++ [x]).map some ++ [none], d3) ∧
      d3.state_ = .read_eof := by
  obtain ⟨ln, hr1⟩ := open_store_reads_all ls junk hls
  have et : ls.take (ls.length + 1 - 1) = ls := by simp
  have ed : ls.drop (ls.length + 1 - 1) = [] := by simp
  obtain ⟨d2, d3, h1, h2, -, h5, h6⟩ := overwrite_session_reads ls junk (ls.length + 1) [x] hls
    (fun y hy => by
      simp only [List.mem_singleton] at hy
      subst hy
      exact plain_storable y hx) (by omega)
  obtain ⟨d1, h7, h8⟩ := overwrite_session_one ls junk (ls.length + 1) x hls (by omega) _ _ d2
    hr1 h1
  rw [et] at h2 h5
  rw [ed] at h2
  have hm : (store ls junk)[2 + (enc ls).length]? = some 0 := by
    have e1 : store ls junk = ([49, 10] ++ enc ls) ++ 0 :: junk := rfl
    rw [e1, List.getElem?_append_right (by simp; omega)]
    simp
    have : 2 + (enc ls).length - ((enc ls).length + 2) = 0 := by omega
    simp [this]
  refine ⟨_, d1, d2, d3, hr1, rfl, hm, h7, h8, ?_, ?_, h6⟩
  · rw [h2]; simp [enc]
  · have : (ls ++ [x]).length + 1 = ls.length + 2 := by simp
    rw [this] at h5
    exact h5

/-- C13 at a store of two lines with bytes left behind its end marker. -/
theorem append_at_end_marker_witness :
    (∀ l ∈ [[97], [98]], storable l) ∧ plain [120] ∧
    ∃ d d1 d2 d3, reopen_reads (store [[97], [98]] [7, 7]) ([[97], [98]].length + 1)
        = .ok ([[97], [98]].map some ++ [none], d) ∧
      d.state_ = .read_eof ∧
      (store [[97], [98]] [7, 7])[2 + (enc [[97], [98]]).length]? = some 0 ∧
      d.write [120] true = .ok d1 ∧ d1.close = .ok d2 ∧
      d2.fs_.wlog = trace (2 + (enc [[97], [98]]).length)
          (List.replicate (([7, 7] : List Nat).length + 1) 0)
        ++ trace (2 + (enc [[97], [98]]).length) ([120] ++ [10] ++ [0]) ∧
      reopen_reads d2.fs_.file ([[97], [98]].length + 2)
        = .ok (([[97], [98]] ++ [[120]]).map some ++ [none], d3) ∧
      d3.state_ = .read_eof :=
  ⟨by decide, by decide, append_at_end_marker [[97], [98]] [7, 7] [120] (by decide) (by decide)⟩

/-! ## Where skip leaves the store -/

/-- C11, as stated, fails: in the file with the line `a` and an unterminated `b`, `read ()`
returns `a` and remembers offset 2, the start of `a`; `skip ()` then stops at the defect
and leaves the overwrite position at offset 4, behind `a`, and the null-fill starts
there. -/
theorem skip_defect_keeps_read_line :
    ∃ d d1, reopen_reads [49, 10, 97, 10, 98] 1 = .ok ([some [97]], d) ∧ d.pos_ = 2 ∧
      d.skip = .ok (false, d1) ∧ d1.state_ = .write ∧
      d1.pos_ = 4 ∧ d1.pos_ ≠ 2 ∧ d1.fs_.pos = 4 ∧
      d1.fs_.file = [49, 10, 97, 10, 0] ∧ d1.fs_.wlog = [(4, 0)] :=
  ⟨_, _, rfl, rfl, rfl, rfl, rfl, by decide, rfl, rfl, rfl⟩

/-- C11, amended. When `skip ()` stops at a structural defect after `read ()` has returned
the lines `L1..Lk`, the store goes to `Write` with its overwrite position equal to the
stream position at the call of `skip ()`, the offset right behind the newline of `Lk` (the
start of the first skipped line); the null-fill and the next `write ()` begin at that
offset, so `L1..Lk` are kept. -/
theorem skip_defect_offset (ls : List (List Nat)) (c : Nat) (r x : List Nat)
    (hls : ∀ l ∈ ls, storable l) (hc : c ≠ 0) (hk : skip_scan (c :: r) = none) :
    ∃ d d1 d2, reopen_reads ([49, 10] ++ enc ls ++ c :: r) ls.length = .ok (ls.map some, d) ∧
      d.state_ = .read ∧ d.fs_.pos = 2 + (enc ls).length ∧
      d.skip = .ok (false, d1) ∧ d1.state_ = .write ∧
      d1.pos_ = ((2 + (enc ls).length : Nat) : Int) ∧ d1.fs_.pos = 2 + (enc ls).length ∧
      d1.fs_.file = [49, 10] ++ enc ls ++ List.replicate (r.length + 1) 0 ∧
      d1.fs_.wlog = trace (2 + (enc ls).length) (List.replicate (r.length + 1) 0) ∧
      d1.write x true = .ok d2 ∧
      d2.fs_.wlog = trace (2 + (enc ls).length) (List.replicate (r.length + 1) 0)
        ++ trace (2 + (enc ls).length) (x ++ [10]) ∧
      d2.fs_.file.take (2 + (enc ls).length + x.length) = [49, 10] ++ enc ls ++ x := by
  obtain ⟨q, ln, h1⟩ := open_reads_block ls c r hls hc
  have hp : 2 + (enc ls).length = ([49, 10] ++ enc ls).length := by simp; omega
  have h2 := skip_defect .known false ([49, 10] ++ enc ls ++ c :: r) (2 + (enc ls).length) []
    q ln ([49, 10] ++ enc ls) (c :: r) rfl hp hk
  have h3 := write_eq .timestamp_unknown false
    ([49, 10] ++ enc ls ++ List.replicate (c :: r).length 0) (2 + (enc ls).length) true
    ([] ++ trace (2 + (enc ls).length) (List.replicate (c :: r).length 0))
    ((2 + (enc ls).length : Nat) : Int) ln ([49, 10] ++ enc ls)
    (List.replicate (c :: r).length 0) x rfl hp
  refine ⟨_, _, _, h1, rfl, rfl, h2, rfl, rfl, rfl, rfl, rfl, h3, ?_, ?_⟩
  · simp only [← hp, List.nil_append, List.length_cons]
  · simp only [hp]
    rw [← List.length_append]
    have e : [49, 10] ++ enc ls ++ (x ++ [10]) ++ List.drop (x.length + 1)
          (List.replicate (c :: r).length 0)
        = ([49, 10] ++ enc ls ++ x)
          ++ (10 :: List.drop (x.length + 1) (List.replicate (c :: r).length 0)) := by simp
    rw [e, List.take_left]

/-- C11, amended, at a file with two lines and an unterminated third. -/
theorem skip_defect_offset_witness :
    (∀ l ∈ [[97], [98]], storable l) ∧ (99 : Nat) ≠ 0 ∧ skip_scan (99 :: [100]) = none ∧
    ∃ d d1 d2, reopen_reads ([49, 10] ++ enc [[97], [98]] ++ 99 :: [100]) [[97], [98]].length
        = .ok ([[97], [98]].map some, d) ∧
      d.state_ = .read ∧ d.fs_.pos = 2 + (enc [[97], [98]]).length ∧
      d.skip = .ok (false, d1) ∧ d1.state_ = .write ∧
      d1.pos_ = ((2 + (enc [[97], [98]]).length : Nat) : Int) ∧
      d1.fs_.pos = 2 + (enc [[97], [98]]).length ∧
      d1.fs_.file = [49, 10] ++ enc [[97], [98]] ++ List.replicate (([100] : List Nat).length + 1) 0 ∧
      d1.fs_.wlog = trace (2 + (enc [[97], [98]]).length)
        (List.replicate (([100] : List Nat).length + 1) 0) ∧
      d1.write [120] true = .ok d2 ∧
      d2.fs_.wlog = trace (2 + (enc [[97], [98]]).length)
          (List.replicate (([100] : List Nat).length + 1) 0)
        ++ trace (2 + (enc [[97], [98]]).length) ([120] ++ [10]) ∧
      d2.fs_.file.take (2 + (enc [[97], [98]]).length + ([120] : List Nat).length)
        = [49, 10] ++ enc [[97], [98]] ++ [120] :=
  ⟨by decide, by decide, by decide,
    skip_defect_offset [[97], [98]] 99 [100] [120] (by decide) (by decide) (by decide)⟩

/-- C12 fails on the code: in the cleanly closed store with the single line `a`, whose end
marker is the last byte at offset 4, `skip ()` reaches `ReadEnd` with the stream position
at offset 5, behind the end marker; a `read ()` made there remembers offset 5, and a line
written after it lands behind the end marker and is lost on the next open. -/
theorem skip_ends_behind_marker :
    ∃ d d1 d2 d3 d4 d5, depdb.depdb (some (store [[97]] [])) = .ok d ∧ d.state_ = .read ∧
      d.skip = .ok (true, d1) ∧ d1.state_ = .read_eof ∧
      d1.fs_.file = [49, 10, 97, 10, 0] ∧ d1.fs_.pos = 5 ∧
      d1.fs_.file[d1.fs_.pos]? = none ∧ d1.fs_.file[4]? = some 0 ∧
      d1.read = .ok (none, d2) ∧ d2.pos_ = 5 ∧
      d2.write [120] true = .ok d3 ∧ d3.close = .ok d4 ∧
      d4.fs_.file = [49, 10, 97, 10, 0, 120, 10, 0] ∧
      reopen_reads d4.fs_.file 3 = .ok ([some [97], none, none], d5) :=
  ⟨_, _, _, _, _, _, rfl, rfl, rfl, rfl, rfl, rfl, rfl, rfl, rfl, rfl, rfl, rfl, rfl, rfl⟩

/-- C14 fails on the code: in the cleanly closed store with the single line `a`, `close ()`
with touch requested after `skip ()` has reached `ReadEnd` puts the null byte behind the
end marker: the file grows from five to six bytes. With a byte left behind the end marker,
that byte is replaced by null. -/
theorem touch_after_skip_changes_file :
    (∃ d d1 d2, depdb.depdb (some (store [[97]] [])) = .ok d ∧
      d.skip = .ok (true, d1) ∧ d1.state_ = .read_eof ∧
      depdb.close { d1 with touch := true } = .ok d2 ∧
      d2.fs_.wlog = [(5, 0)] ∧
      d2.fs_.file = [49, 10, 97, 10, 0, 0] ∧ d2.fs_.file.length ≠ (store [[97]] []).length) ∧
    (∃ d d1 d2, depdb.depdb (some (store [[97]] [7])) = .ok d ∧
      d.skip = .ok (true, d1) ∧ d1.state_ = .read_eof ∧
      depdb.close { d1 with touch := true } = .ok d2 ∧
      d2.fs_.file = [49, 10, 97, 10, 0, 0] ∧ d2.fs_.file ≠ store [[97]] [7]) :=
  ⟨⟨_, _, _, rfl, rfl, rfl, rfl, rfl, rfl, by decide⟩,
    ⟨_, _, _, rfl, rfl, rfl, rfl, rfl, by decide⟩⟩

/-! ## Defects are not failures -/

/-- In `Read`, `close ()` accepts the lines read so far: it null-fills the file from the
current position on and puts the end marker there. -/
theorem close_read (mt : timestamp) (tch : Bool) (file : List Nat) (p : Nat) (x : Bool)
    (w : List (Nat × Nat)) (q : Int) (ln : List Nat) (pre tl : List Nat)
    (hf : file = pre ++ tl) (hp : p = pre.length) :
    depdb.close ⟨mt, tch, .read, ⟨file, p, false, false, x, w⟩, q, ln⟩
      = .ok ⟨.timestamp_unknown, tch, .write,
          ⟨pre ++ 0 :: List.drop 1 (List.replicate tl.length 0), pre.length + 1, false, false,
            true, w ++ trace pre.length (List.replicate tl.length 0) ++ [(pre.length, 0)]⟩,
          (p : Int), ln⟩ := by
  have hc := change_eq mt tch .read file p false false x w (p : Int) ln false pre tl (by decide)
    hf (by rw [hp])
  have hw := close_write .timestamp_unknown tch (pre ++ List.replicate tl.length 0) pre.length
    true (w ++ trace pre.length (List.replicate tl.length 0)) (p : Int) ln pre
    (List.replicate tl.length 0) rfl rfl
  simp only [depdb.close, reduceCtorEq, ↓reduceIte, ne_eq, not_false_eq_true, tellg_ok,
    except_bind_ok, hc, not_true_eq_false, except_pure] at hw ⊢
  exact hw

/-- In `ReadEnd`, `close ()` with touch requested puts a null byte at the current position. -/
theorem close_touch (mt : timestamp) (file : List Nat) (p : Nat) (e f x : Bool)
    (w : List (Nat × Nat)) (q : Int) (ln : List Nat) :
    depdb.close ⟨mt, true, .read_eof, ⟨file, p, e, f, x, w⟩, q, ln⟩
      = .ok ⟨mt, true, .write, ⟨poke file p 0, p + 1, false, false, true, w ++ [(p, 0)]⟩,
          q, ln⟩ := by
  simp [depdb.close, fstream.clear, fstream.exceptions, fstream.setstate, fstream.seekp_cur,
    put_ok]

/-- In `ReadEnd`, `close ()` without touch does nothing. -/
theorem close_end (d : depdb) (h1 : d.state_ = .read_eof) (h2 : d.touch = false) :
    d.close = .ok d := by
  simp [depdb.close, h1, h2]

theorem ctor_sound (f : List Nat) : ∃ d, depdb.depdb (some f) = .ok d ∧ sound d := by
  by_cases hv : f.takeWhile (fun b => b != 10) ≠ [49] ∨ f = [49, 10]
  · obtain ⟨ln, h⟩ := ctor_obsolete f hv
    refine ⟨_, h, rfl, rfl, ?_, fun hst => by simp at hst⟩
    simp
  · simp only [not_or, not_not] at hv
    rcases split_nl f with hno | ⟨l, rest, e, hl⟩
    · have e1 : f = [49] := by rw [← takeWhile_no_nl f hno]; exact hv.1
      subst e1
      exact ⟨_, rfl, by decide⟩
    · have e1 : l = [49] := by rw [← takeWhile_nl l rest hl, ← e]; exact hv.1
      subst e1
      cases rest with
      | nil => exact absurd e hv.2
      | cons c r =>
          have h := ctor_version c r
          have e2 : f = [49, 10] ++ c :: r := by rw [e]; rfl
          rw [← e2] at h
          refine ⟨_, h, rfl, rfl, ?_, fun _ => ⟨rfl, ?_, ?_⟩⟩
          · simp [e2]
          · simp
          · simp

/-- A `read ()` on a sound store succeeds and leaves a sound store; once it has returned
no line, the store is not in `Read` any more. -/
theorem read_sound (d : depdb) (h : sound d) :
    ∃ l d1, d.read = .ok (l, d1) ∧ sound d1 ∧
      (l = none ∨ d.state_ ≠ .read → d1.state_ ≠ .read) := by
  obtain ⟨mt, tch, st, ⟨file, p, e, f, x, w⟩, qq, ln⟩ := d
  obtain ⟨he, hf, hp, hs⟩ := h
  simp only at he hf hp hs
  subst he hf
  cases st with
  | write =>
      exact ⟨_, _, read_in_write _ rfl, ⟨rfl, rfl, hp, hs⟩, fun _ => by simp⟩
  | read_eof =>
      obtain ⟨hx, -, -⟩ := hs (by decide)
      refine ⟨_, _, read_at_end mt tch file p x w qq ln, ⟨rfl, rfl, hp, fun _ => ⟨hx, ?_, ?_⟩⟩,
        fun _ => by simp⟩
      · simp
      · simp only; exact_mod_cast hp
  | read =>
      obtain ⟨hx, -, -⟩ := hs (by decide)
      subst hx
      have hlen : (file.take p).length = p := by simp [hp]
      have hfile : file = file.take p ++ file.drop p := by simp
      rcases split_nl (file.drop p) with hno | ⟨l, rest, hd, hl⟩
      · have h1 := read_defect_eof mt tch file p w qq ln (file.take p) (file.drop p) hfile
          hlen.symm hno
        refine ⟨_, _, h1, ⟨rfl, rfl, ?_, fun hst => by simp at hst⟩, fun _ => by simp⟩
        simp
      · cases rest with
        | nil =>
            have h1 := read_defect_last mt tch file p w qq ln (file.take p) l
              (by rw [List.append_assoc, ← hd]; exact hfile) hlen.symm hl
            refine ⟨_, _, h1, ⟨rfl, rfl, ?_, fun hst => by simp at hst⟩, fun _ => by simp⟩
            simp
        | cons c r =>
            have hflen : file.length = p + l.length + 1 + (r.length + 1) := by
              have := congrArg List.length hd
              simp at this
              omega
            have h1 := read_line mt tch file p false w qq ln (file.take p) l c r
              (by rw [List.append_assoc, ← hd]; exact hfile) hlen.symm hl
            rw [hlen] at h1
            refine ⟨_, _, h1, ⟨rfl, rfl, ?_, fun _ => ⟨rfl, ?_, ?_⟩⟩, ?_⟩
            · simp only; omega
            · simp
            · simp only; omega
            · intro hh
              rcases hh with hh | hh
              · simp at hh
              · simp at hh

theorem reads_sound (k : Nat) : ∀ (d : depdb), sound d →
    ∃ res d1, reads k d = .ok (res, d1) ∧ sound d1 ∧
      (none ∈ res ∨ d.state_ ≠ .read → d1.state_ ≠ .read) := by
  induction k with
  | zero =>
      intro d h
      exact ⟨[], d, rfl, h, fun hh => by
        rcases hh with hh | hh
        · simp at hh
        · exact hh⟩
  | succ k ih =>
      intro d h
      obtain ⟨l, d1, h1, h2, h3⟩ := read_sound d h
      obtain ⟨res, d2, h4, h5, h6⟩ := ih d1 h2
      refine ⟨l :: res, d2, ?_, h5, ?_⟩
      · simp only [reads, h1, except_bind_ok, h4, except_pure]
      · intro hh
        apply h6
        rcases hh with hh | hh
        · rcases List.mem_cons.mp hh with hh | hh
          · exact Or.inr (h3 (Or.inl hh.symm))
          · exact Or.inl hh
        · exact Or.inr (h3 (Or.inr hh))

/-- A `write ()` on a sound store succeeds and leaves a sound store in `Write`. -/
theorem write_sound (d : depdb) (s : List Nat) (h : sound d) :
    ∃ d1, d.write s true = .ok d1 ∧ sound d1 ∧ d1.state_ = .write := by
  obtain ⟨mt, tch, st, ⟨file, p, e, f, x, w⟩, qq, ln⟩ := d
  obtain ⟨he, hf, hp, hs⟩ := h
  simp only at he hf hp hs
  subst he hf
  by_cases hst : st = .write
  · subst hst
    have hlen : (file.take p).length = p := by simp [hp]
    have h1 := write_eq mt tch file p x w qq ln (file.take p) (file.drop p) s (by simp)
      hlen.symm
    refine ⟨_, h1, ⟨rfl, rfl, ?_, fun hh => by simp at hh⟩, rfl⟩
    simp
  · obtain ⟨-, hq0, hq1⟩ := hs hst
    obtain ⟨q, rfl⟩ : ∃ q : Nat, qq = (q : Int) := ⟨qq.toNat, by omega⟩
    have hq : q ≤ file.length := by exact_mod_cast hq1
    have hlen : (file.take q).length = q := by simp [hq]
    have hc := change_eq mt tch st file p false false x w (q : Int) ln true (file.take q)
      (file.drop q) hst (by simp) (by rw [hlen])
    have h1 := write_eq .timestamp_unknown tch
      (file.take q ++ List.replicate (file.drop q).length 0) (file.take q).length true
      (w ++ trace (file.take q).length (List.replicate (file.drop q).length 0)) (q : Int) ln
      (file.take q) (List.replicate (file.drop q).length 0) s rfl rfl
    have h2 := write_after_change
      ⟨mt, tch, st, ⟨file, p, false, false, x, w⟩, (q : Int), ln⟩ s hst
    rw [h2, hc]
    simp only [except_bind_ok]
    refine ⟨_, h1, ⟨rfl, rfl, ?_, fun hh => by simp at hh⟩, rfl⟩
    simp

/-- A `close ()` on a sound store succeeds. -/
theorem close_sound (d : depdb) (h : sound d) : ∃ d1, d.close = .ok d1 := by
  obtain ⟨mt, tch, st, ⟨file, p, e, f, x, w⟩, qq, ln⟩ := d
  obtain ⟨he, hf, hp, hs⟩ := h
  simp only at he hf hp hs
  subst he hf
  have hlen : (file.take p).length = p := by simp [hp]
  cases st with
  | write => exact ⟨_, close_write mt tch file p x w qq ln (file.take p) (file.drop p) (by simp)
      hlen.symm⟩
  | read => exact ⟨_, close_read mt tch file p x w qq ln (file.take p) (file.drop p) (by simp)
      hlen.symm⟩
  | read_eof =>
      cases tch with
      | true => exact ⟨_, close_touch mt file p false false x w qq ln⟩
      | false => exact ⟨_, close_end _ rfl rfl⟩

/-- C18. Format defects are never errors: for every byte content of an existing file,
constructing the store and calling `read ()` any number of times raises no failure; once a
call has returned no line the store is in `Write` or in `ReadEnd`; and the store then
accepts `close ()`, and `write ()` followed by `close ()`. -/
theorem defects_are_not_failures (f : List Nat) (k : Nat) (x : List Nat) :
    ∃ res d, reopen_reads f k = .ok (res, d) ∧
      (none ∈ res → d.state_ = .write ∨ d.state_ = .read_eof) ∧
      (∃ d1, d.close = .ok d1) ∧
      (∃ d1 d2, d.write x true = .ok d1 ∧ d1.close = .ok d2) := by
  obtain ⟨d0, h0, hs0⟩ := ctor_sound f
  obtain ⟨res, d, h1, hs1, h2⟩ := reads_sound k d0 hs0
  obtain ⟨d1, h3, hs3, -⟩ := write_sound d x hs1
  obtain ⟨d2, h4⟩ := close_sound d1 hs3
  refine ⟨res, d, ?_, ?_, close_sound d hs1, d1, d2, h3, h4⟩
  · simp only [reopen_reads, h0, except_bind_ok, h1]
  · intro hn
    have := h2 (Or.inl hn)
    cases hst : d.state_ with
    | read => exact absurd hst this
    | read_eof => exact Or.inr rfl
    | write => exact Or.inl rfl

/-! ## Closing and skipping before the end -/

/-- Reading the first `k` lines of a cleanly closed store that holds more than `k` lines
leaves the store in `Read`, positioned at the start of the next line. -/
theorem open_store_reads_some (ls : List (List Nat)) (junk : List Nat) (k : Nat)
    (hls : ∀ l ∈ ls, storable l) (hk : k < ls.length) :
    ∃ c r q ln, c :: r = enc (ls.drop k) ++ 0 :: junk ∧
      store ls junk = [49, 10] ++ enc (ls.take k) ++ c :: r ∧
      reopen_reads (store ls junk) k
        = .ok ((ls.take k).map some, ⟨.known, false, .read,
            ⟨store ls junk, 2 + (enc (ls.take k)).length, false, false, false, []⟩, q, ln⟩) := by
  obtain ⟨l, b, hd⟩ : ∃ l b, ls.drop k = l :: b := by
    cases hd : ls.drop k with
    | nil =>
        have := congrArg List.length hd
        simp at this
        omega
    | cons l b => exact ⟨l, b, rfl⟩
  have hl : storable l := hls l (List.mem_of_mem_drop (by rw [hd]; simp))
  obtain ⟨c, r, hcr, hc⟩ := enc_head l b (0 :: junk) hl
  obtain ⟨q, ln, h1⟩ := open_reads_block (ls.take k) c r
    (fun y hy => hls y (List.mem_of_mem_take hy)) hc
  have hs : store ls junk = [49, 10] ++ enc (ls.take k) ++ c :: r := by
    rw [store_split ls junk k, hd, hcr]
  have hlen : (ls.take k).length = k := by rw [List.length_take]; omega
  rw [← hs, hlen] at h1
  exact ⟨c, r, q, ln, by rw [hd, hcr], hs, h1⟩

/-- In `Write` on a null-filled tail, `write (x)` followed by `close ()` leaves the line,
its newline and the end marker, and what remains of the null-filled tail. -/
theorem write_close_eq (mt : timestamp) (tch : Bool) (file : List Nat) (p : Nat) (e : Bool)
    (w : List (Nat × Nat)) (q : Int) (ln : List Nat) (pre : List Nat) (m : Nat) (x : List Nat)
    (hf : file = pre ++ List.replicate m 0) (hp : p = pre.length) :
    ∃ d2 d3, depdb.write ⟨mt, tch, .write, ⟨file, p, false, false, e, w⟩, q, ln⟩ x true = .ok d2 ∧
      d2.close = .ok d3 ∧
      d3.fs_.file = pre ++ x ++ [10] ++ 0 :: List.replicate (m - (x.length + 1) - 1) 0 := by
  have h1 := write_eq mt tch file p e w q ln pre (List.replicate m 0) x hf hp
  have h2 := close_write mt tch
    (pre ++ (x ++ [10]) ++ (List.replicate m 0).drop (x.length + 1))
    (pre.length + (x.length + 1)) e (w ++ trace pre.length (x ++ [10])) q ln
    (pre ++ (x ++ [10])) ((List.replicate m 0).drop (x.length + 1)) rfl (by simp)
  refine ⟨_, _, h1, h2, ?_⟩
  simp

/-- The file left by `write (x)` and `close ()` behind the lines `ls` is a cleanly closed
store of `ls` and `x`. -/
theorem store_snoc (ls : List (List Nat)) (x junk : List Nat) :
    [49, 10] ++ enc ls ++ x ++ [10] ++ 0 :: junk = store (ls ++ [x]) junk := by
  simp [store, enc_append, enc]

/-- C23. A `close ()` while still in `Read` accepts exactly the lines read so far: for every
cleanly closed store with lines `L1..Ln` and every `k < n`, opening it, calling `read ()`
`k` times and then `close ()` (no write, no touch) leaves a file that on reopening yields
exactly `L1..Lk` and then the end of the data; the bytes of the lines not yet read and
everything behind them are null, and the end marker follows `Lk`. -/
theorem close_accepts_lines_read (ls : List (List Nat)) (junk : List Nat) (k : Nat)
    (hls : ∀ l ∈ ls, storable l) (hk : k < ls.length) :
    ∃ d d1 d2, reopen_reads (store ls junk) k = .ok ((ls.take k).map some, d) ∧
      d.state_ = .read ∧ d.touch = false ∧ d.close = .ok d1 ∧
      d1.fs_.file
        = store (ls.take k) (List.replicate ((enc (ls.drop k)).length + junk.length) 0) ∧
      d1.fs_.file.length = (store ls junk).length ∧
      reopen_reads d1.fs_.file (k + 1) = .ok ((ls.take k).map some ++ [none], d2) ∧
      d2.state_ = .read_eof := by
  obtain ⟨c, r, q, ln, hcr, hs, h1⟩ := open_store_reads_some ls junk k hls hk
  have hp : 2 + (enc (ls.take k)).length = ([49, 10] ++ enc (ls.take k)).length := by
    simp; omega
  have h2 := close_read .known false (store ls junk) (2 + (enc (ls.take k)).length) false []
    q ln ([49, 10] ++ enc (ls.take k)) (c :: r) hs hp
  have hlen : (c :: r).length = (enc (ls.drop k)).length + junk.length + 1 := by
    rw [hcr]; simp; omega
  have hfile : [49, 10] ++ enc (ls.take k)
        ++ 0 :: List.drop 1 (List.replicate (c :: r).length 0)
      = store (ls.take k) (List.replicate ((enc (ls.drop k)).length + junk.length) 0) := by
    rw [hlen]; simp [store]
  obtain ⟨ln2, h3⟩ := open_store_reads_all (ls.take k)
    (List.replicate ((enc (ls.drop k)).length + junk.length) 0)
    (fun y hy => hls y (List.mem_of_mem_take hy))
  have hl : (ls.take k).length = k := by rw [List.length_take]; omega
  rw [hl, ← hfile] at h3
  refine ⟨_, _, _, h1, rfl, rfl, h2, hfile, ?_, h3, rfl⟩
  simp only
  rw [hfile, store_split ls junk k]
  simp [store]
  omega

/-- C23 at a store of three lines of which one is read. -/
theorem close_accepts_lines_read_witness :
    (∀ l ∈ [[97], [98], [99]], storable l) ∧ 1 < [[97], [98], [99]].length ∧
    ∃ d d1 d2, reopen_reads (store [[97], [98], [99]] [7]) 1
        = .ok (([[97], [98], [99]].take 1).map some, d) ∧
      d.state_ = .read ∧ d.touch = false ∧ d.close = .ok d1 ∧
      d1.fs_.file = store ([[97], [98], [99]].take 1)
        (List.replicate ((enc ([[97], [98], [99]].drop 1)).length + ([7] : List Nat).length) 0) ∧
      d1.fs_.file.length = (store [[97], [98], [99]] [7]).length ∧
      reopen_reads d1.fs_.file (1 + 1)
        = .ok (([[97], [98], [99]].take 1).map some ++ [none], d2) ∧
      d2.state_ = .read_eof :=
  ⟨by decide, by decide, close_accepts_lines_read [[97], [98], [99]] [7] 1 (by decide) (by decide)⟩

/-- C24. A `skip ()` makes only the skipped lines eligible for overwriting: for every
cleanly closed store with lines `L1..Ln`, every `k < n` and every line `X` without newline
and null byte, opening the store, reading `L1..Lk` (store still in `Read`), calling
`skip ()`, then `write (X)` and `close ()`, and reopening yields exactly `L1..Lk` followed
by `X` and then the end of the data, whatever `skip ()` returned. -/
theorem skip_then_write (ls : List (List Nat)) (junk : List Nat) (k : Nat) (x : List Nat)
    (hls : ∀ l ∈ ls, storable l) (hx : plain x) (hk : k < ls.length) :
    ∃ d r d1 d2 d3 d4, reopen_reads (store ls junk) k = .ok ((ls.take k).map some, d) ∧
      d.state_ = .read ∧ d.skip = .ok (r, d1) ∧
      d1.write x true = .ok d2 ∧ d2.close = .ok d3 ∧
      reopen_reads d3.fs_.file (k + 2) = .ok ((ls.take k ++ [x]).map some ++ [none], d4) ∧
      d4.state_ = .read_eof := by
  obtain ⟨c, r, q, ln, hcr, hs, h1⟩ := open_store_reads_some ls junk k hls hk
  have hp : 2 + (enc (ls.take k)).length = ([49, 10] ++ enc (ls.take k)).length := by
    simp; omega
  have hb : ∀ y ∈ ls.take k ++ [x], storable y := by
    intro y hy
    rcases List.mem_append.mp hy with hy | hy
    · exact hls y (List.mem_of_mem_take hy)
    · simp only [List.mem_singleton] at hy
      subst hy
      exact plain_storable y hx
  have hl : (ls.take k ++ [x]).length + 1 = k + 2 := by
    simp [List.length_take]; omega
  -- what reopening the final file yields, whatever is left behind the end marker
  have hfin : ∀ (d3 : depdb) (jk : List Nat),
      d3.fs_.file = [49, 10] ++ enc (ls.take k) ++ x ++ [10] ++ 0 :: jk →
      ∃ d4, reopen_reads d3.fs_.file (k + 2)
          = .ok ((ls.take k ++ [x]).map some ++ [none], d4) ∧ d4.state_ = .read_eof := by
    intro d3 jk h3
    obtain ⟨ln2, h4⟩ := open_store_reads_all (ls.take k ++ [x]) jk hb
    rw [hl, ← store_snoc, ← h3] at h4
    exact ⟨_, h4, rfl⟩
  cases hsc : skip_scan (c :: r) with
  | some n =>
      have h2 := skip_found .known false (store ls junk) (2 + (enc (ls.take k)).length) []
        q ln ([49, 10] ++ enc (ls.take k)) (c :: r) n hs hp hsc
      have hc := change_eq .known false .read_eof (store ls junk)
        (2 + (enc (ls.take k)).length + n) false false false []
        ((2 + (enc (ls.take k)).length : Nat) : Int) ln true ([49, 10] ++ enc (ls.take k))
        (c :: r) (by decide) hs (by rw [hp])
      obtain ⟨d2, d3, h5, h6, h7⟩ := write_close_eq .timestamp_unknown false
        ([49, 10] ++ enc (ls.take k) ++ List.replicate (c :: r).length 0)
        ([49, 10] ++ enc (ls.take k)).length true
        ([] ++ trace ([49, 10] ++ enc (ls.take k)).length (List.replicate (c :: r).length 0))
        ((2 + (enc (ls.take k)).length : Nat) : Int) ln ([49, 10] ++ enc (ls.take k))
        (c :: r).length x rfl rfl
      obtain ⟨d4, h8, h9⟩ := hfin d3 _ h7
      have hw := write_after_change ⟨.known, false, .read_eof,
        ⟨store ls junk, 2 + (enc (ls.take k)).length + n, false, false, false, []⟩,
        ((2 + (enc (ls.take k)).length : Nat) : Int), ln⟩ x (by simp)
      rw [hc] at hw
      exact ⟨_, true, _, d2, d3, d4, h1, rfl, h2, hw.trans h5, h6, h8, h9⟩
  | none =>
      have h2 := skip_defect .known false (store ls junk) (2 + (enc (ls.take k)).length) []
        q ln ([49, 10] ++ enc (ls.take k)) (c :: r) hs hp hsc
      obtain ⟨d2, d3, h5, h6, h7⟩ := write_close_eq .timestamp_unknown false
        ([49, 10] ++ enc (ls.take k) ++ List.replicate (c :: r).length 0)
        (2 + (enc (ls.take k)).length) true
        ([] ++ trace (2 + (enc (ls.take k)).length) (List.replicate (c :: r).length 0))
        ((2 + (enc (ls.take k)).length : Nat) : Int) ln ([49, 10] ++ enc (ls.take k))
        (c :: r).length x rfl hp
      obtain ⟨d4, h8, h9⟩ := hfin d3 _ h7
      exact ⟨_, false, _, d2, d3, d4, h1, rfl, h2, h5, h6, h8, h9⟩

/-- C24 at a store of three lines of which one is read before the rest is skipped. -/
theorem skip_then_write_witness :
    (∀ l ∈ [[97], [98], [99]], storable l) ∧ plain [120] ∧ 1 < [[97], [98], [99]].length ∧
    ∃ d r d1 d2 d3 d4, reopen_reads (store [[97], [98], [99]] []) 1
        = .ok (([[97], [98], [99]].take 1).map some, d) ∧
      d.state_ = .read ∧ d.skip = .ok (r, d1) ∧
      d1.write [120] true = .ok d2 ∧ d2.close = .ok d3 ∧
      reopen_reads d3.fs_.file (1 + 2)
        = .ok (([[97], [98], [99]].take 1 ++ [[120]]).map some ++ [none], d4) ∧
      d4.state_ = .read_eof :=
  ⟨by decide, by decide, by decide,
    skip_then_write [[97], [98], [99]] [] 1 [120] (by decide) (by decide) (by decide)⟩

/-- C25. When the store is in `ReadEnd` and touch was not requested, `close ()` writes no
byte: the store, and with it the content of the file and the state, is left as it was. -/
theorem close_at_end_writes_nothing (d : depdb) (h1 : d.state_ = .read_eof)
    (h2 : d.touch = false) :
    ∃ d1, d.close = .ok d1 ∧ d1.fs_.file = d.fs_.file ∧ d1.fs_.wlog = d.fs_.wlog ∧
      d1.state_ = .read_eof ∧ d1 = d :=
  ⟨d, close_end d h1 h2, rfl, rfl, h1, rfl⟩

/-- C25 at the store with the lines `a` and `b`, read to its end marker. -/
theorem close_at_end_writes_nothing_witness :
    ∃ d, reopen_reads (store [[97], [98]] []) 2 = .ok ([some [97], some [98]], d) ∧
      d.state_ = .read_eof ∧ d.touch = false ∧
      ∃ d1, d.close = .ok d1 ∧ d1.fs_.file = d.fs_.file ∧ d1.fs_.wlog = d.fs_.wlog ∧
        d1.state_ = .read_eof ∧ d1 = d :=
  ⟨_, rfl, rfl, rfl, close_at_end_writes_nothing _ rfl rfl⟩

/-! ## Invariants of single calls -/

theorem skip_scan_le : ∀ (n : Nat) (rest : List Nat) (k : Nat), rest.length < n →
    skip_scan rest = some k → k ≤ rest.length := by
  intro n
  induction n with
  | zero => intro rest k h; omega
  | succ n ih =>
      intro rest k hn h
      cases rest with
      | nil => simp [skip_scan] at h
      | cons c rest1 =>
          by_cases hc : c = 10
          · subst hc
            cases rest1 with
            | nil => simp [skip_scan] at h
            | cons c2 rest2 =>
                by_cases h0 : c2 = 0
                · simp [skip_scan, h0] at h
                  subst h
                  simp
                · simp only [skip_scan, ↓reduceIte, h0, Option.map_eq_some'] at h
                  obtain ⟨k1, h1, h2⟩ := h
                  have := ih rest2 k1 (by simp at hn; omega) h1
                  simp
                  omega
          · rw [skip_scan_other c rest1 hc] at h
            simp only [Option.map_eq_some'] at h
            obtain ⟨k1, h1, h2⟩ := h
            have := ih rest1 k1 (by simp at hn; omega) h1
            simp
            omega

/-- The bytes after a null-filled tail, and the first two bytes in front of it. -/
theorem null_filled (pre : List Nat) (m : Nat) :
    (∀ b ∈ (pre ++ List.replicate m 0).drop pre.length, b = 0) ∧
      (2 ≤ pre.length → (pre ++ List.replicate m 0).take 2 = pre.take 2) := by
  constructor
  · intro b hb
    simp at hb
    exact hb.2
  · intro h
    exact List.take_append_of_le_length h

theorem drop_behind (pre bs tl : List Nat) :
    (pre ++ bs ++ tl).drop (pre.length + bs.length) = tl := by
  rw [← List.length_append, List.drop_left]

theorem take_two (file : List Nat) (p : Nat) (tl : List Nat) (h : 2 ≤ p) (hp : p ≤ file.length) :
    (file.take p ++ tl).take 2 = file.take 2 := by
  rw [List.take_append_of_le_length (by simp; omega), List.take_take]
  congr 1
  omega

/-- In `Write`, `write (s, nl)` puts the bytes of `s` and, when asked, the newline. -/
theorem write_gen (mt : timestamp) (tch : Bool) (file : List Nat) (p : Nat) (x : Bool)
    (w : List (Nat × Nat)) (q : Int) (ln : List Nat) (pre tl bs : List Nat) (nl : Bool)
    (hf : file = pre ++ tl) (hp : p = pre.length) :
    depdb.write ⟨mt, tch, .write, ⟨file, p, false, false, x, w⟩, q, ln⟩ bs nl
      = .ok ⟨mt, tch, .write,
          ⟨pre ++ (bs ++ if nl then [10] else []) ++ tl.drop (bs ++ if nl then [10] else []).length,
            pre.length + (bs ++ if nl then [10] else []).length,
            false, false, x, w ++ trace pre.length (bs ++ if nl then [10] else [])⟩, q, ln⟩ := by
  cases nl with
  | true =>
      have := write_eq mt tch file p x w q ln pre tl bs hf hp
      simpa using this
  | false =>
      subst hf hp
      have h1 := fstream_write_eq bs pre tl x w
      simp [depdb.write, h1]

/-- Outside `Write`, `write (s, nl)` is the mode switch followed by the write. -/
theorem write_switch (d : depdb) (s : List Nat) (nl : Bool) (h : d.state_ ≠ .write) :
    d.write s nl = (do let d1 ← d.change true; d1.write s nl) := by
  simp only [depdb.write, h, ne_eq, not_false_eq_true, ↓reduceIte]
  cases hc : d.change true with
  | error e => rfl
  | ok d1 =>
      have := (change_state d true d1 hc).1
      simp [this]

/-- On a good stream, `write (c, nl)` is `write (s, 1, nl)` for the one byte `c`. -/
theorem write_char_write (d : depdb) (c : Nat) (nl : Bool) (h : sound d) :
    d.write_char c nl = d.write [c] nl := by
  obtain ⟨mt, tch, st, ⟨file, p, e, f, x, w⟩, qq, ln⟩ := d
  obtain ⟨he, hf, hp, hs⟩ := h
  simp only at he hf hp hs
  subst he hf
  by_cases hst : st = .write
  · subst hst
    simp [depdb.write_char, depdb.write, fstream.write, fstream.good, put_ok]
  · obtain ⟨-, hq0, hq1⟩ := hs hst
    obtain ⟨q, rfl⟩ : ∃ q : Nat, qq = (q : Int) := ⟨qq.toNat, by omega⟩
    have hq : q ≤ file.length := by exact_mod_cast hq1
    have hlen : (file.take q).length = q := by simp [hq]
    have hc := change_eq mt tch st file p false false x w (q : Int) ln true (file.take q)
      (file.drop q) hst (by simp) (by rw [hlen])
    simp [depdb.write_char, depdb.write, hst, hc, fstream.write, fstream.good, put_ok]

/-- A `read ()` on a sound store keeps the null tail of `Write` and the version line, and
leaves a remembered offset behind the version line. -/
theorem read_step (d : depdb) (h : sound d) :
    ∃ l d1, d.read = .ok (l, d1) ∧ sound d1 ∧
      ((d.state_ = .write → null_tail d) → d1.state_ = .write → null_tail d1) ∧
      (headed d → headed d1 ∧ armed d1) := by
  obtain ⟨mt, tch, st, ⟨file, p, e, f, x, w⟩, qq, ln⟩ := d
  have h0 := h
  obtain ⟨he, hf, hp, hs⟩ := h
  simp only at he hf hp hs
  subst he hf
  cases st with
  | write =>
      exact ⟨_, _, read_in_write _ rfl, h0, fun hn _ => hn rfl, fun hh => ⟨hh, fun hh2 => by
        simp at hh2⟩⟩
  | read_eof =>
      obtain ⟨hx, -, -⟩ := hs (by decide)
      refine ⟨_, _, read_at_end mt tch file p x w qq ln, ⟨rfl, rfl, hp, fun _ => ⟨hx, ?_, ?_⟩⟩,
        fun _ hh => by simp at hh, fun hh => ⟨hh, fun _ => ?_⟩⟩
      · simp
      · simp only; exact_mod_cast hp
      · simp only; exact_mod_cast hh.2
  | read =>
      obtain ⟨hx, -, -⟩ := hs (by decide)
      subst hx
      have hlen : (file.take p).length = p := by simp [hp]
      have hfile : file = file.take p ++ file.drop p := by simp
      have hnull := null_filled (file.take p)
      rcases split_nl (file.drop p) with hno | ⟨l, rest, hd, hl⟩
      · have h1 := read_defect_eof mt tch file p w qq ln (file.take p) (file.drop p) hfile
          hlen.symm hno
        refine ⟨_, _, h1, ⟨rfl, rfl, ?_, fun hst => by simp at hst⟩, fun _ _ => (hnull _).1,
          fun hh => ⟨⟨?_, ?_⟩, fun hst => by simp at hst⟩⟩
        · simp
        · simp only; rw [take_two file p _ hh.2 hp]; exact hh.1
        · simp only; rw [hlen]; exact hh.2
      · cases rest with
        | nil =>
            have h1 := read_defect_last mt tch file p w qq ln (file.take p) l
              (by rw [List.append_assoc, ← hd]; exact hfile) hlen.symm hl
            refine ⟨_, _, h1, ⟨rfl, rfl, ?_, fun hst => by simp at hst⟩,
              fun _ _ => (hnull _).1, fun hh => ⟨⟨?_, ?_⟩, fun hst => by simp at hst⟩⟩
            · simp
            · simp only; rw [take_two file p _ hh.2 hp]; exact hh.1
            · simp only; rw [hlen]; exact hh.2
        | cons c r =>
            have hflen : file.length = p + l.length + 1 + (r.length + 1) := by
              have := congrArg List.length hd
              simp at this
              omega
            have h1 := read_line mt tch file p false w qq ln (file.take p) l c r
              (by rw [List.append_assoc, ← hd]; exact hfile) hlen.symm hl
            rw [hlen] at h1
            refine ⟨_, _, h1, ⟨rfl, rfl, ?_, fun _ => ⟨rfl, ?_, ?_⟩⟩, ?_, fun hh => ⟨⟨hh.1, ?_⟩,
              fun _ => ?_⟩⟩
            · simp only; omega
            · simp
            · simp only; omega
            · intro _ hst
              simp only at hst
              split at hst <;> simp at hst
            · have := hh.2
              simp only at this ⊢
              omega
            · simp only; exact_mod_cast hh.2

/-- A `skip ()` outside `Write` on a sound store keeps the null tail of `Write` and the
version line; made in `Read` it leaves a remembered offset behind the version line, and
made in `ReadEnd` it changes nothing. -/
theorem skip_step (d : depdb) (h : sound d) (hst : d.state_ ≠ .write) :
    ∃ r d1, d.skip = .ok (r, d1) ∧ sound d1 ∧ (d1.state_ = .write → null_tail d1) ∧
      (headed d → headed d1 ∧ (d.state_ = .read → armed d1)) ∧
      (d.state_ = .read_eof → d1 = d) := by
  obtain ⟨mt, tch, st, ⟨file, p, e, f, x, w⟩, qq, ln⟩ := d
  have h0 := h
  obtain ⟨he, hf, hp, hs⟩ := h
  simp only at he hf hp hs hst
  subst he hf
  cases st with
  | write => exact absurd rfl hst
  | read_eof =>
      exact ⟨true, _, by simp [depdb.skip], h0, fun hh => by simp at hh,
        fun hh => ⟨hh, fun hh2 => by simp at hh2⟩, fun _ => rfl⟩
  | read =>
      obtain ⟨hx, -, -⟩ := hs (by decide)
      subst hx
      have hlen : (file.take p).length = p := by simp [hp]
      have hfile : file = file.take p ++ file.drop p := by simp
      have hnull := null_filled (file.take p)
      cases hsc : skip_scan (file.drop p) with
      | some k =>
          have h1 := skip_found mt tch file p w qq ln (file.take p) (file.drop p) k hfile
            hlen.symm hsc
          have hk := skip_scan_le _ (file.drop p) k (Nat.lt_succ_self _) hsc
          simp only [List.length_drop] at hk
          refine ⟨_, _, h1, ⟨rfl, rfl, ?_, fun _ => ⟨rfl, ?_, ?_⟩⟩, fun hh => by simp at hh,
            fun hh => ⟨⟨hh.1, ?_⟩, fun _ _ => ?_⟩, fun hh => by simp at hh⟩
          · simp only; omega
          · simp
          · simp only; exact_mod_cast hp
          · have := hh.2
            simp only at this ⊢
            omega
          · simp only; exact_mod_cast hh.2
      | none =>
          have h1 := skip_defect mt tch file p w qq ln (file.take p) (file.drop p) hfile
            hlen.symm hsc
          refine ⟨_, _, h1, ⟨rfl, rfl, ?_, fun hh => by simp at hh⟩, fun _ => ?_,
            fun hh => ⟨⟨?_, hh.2⟩, fun _ hh2 => by simp at hh2⟩, fun hh => by simp at hh⟩
          · simp; omega
          · have := (hnull (file.drop p).length).1
            rw [hlen] at this
            exact this
          · simp only; rw [take_two file p _ hh.2 hp]; exact hh.1

theorem skip_in_write (d : depdb) (h : d.state_ = .write) : d.skip = .error .assertion := by
  simp [depdb.skip, h]

/-- A `write (s, nl)` on a sound store leaves a sound store in `Write` with a null tail
if it had one, and keeps the version line if the store is in `Write` or remembers an
offset behind the version line. -/
theorem write_step (d : depdb) (s : List Nat) (nl : Bool) (h : sound d) :
    ∃ d1, d.write s nl = .ok d1 ∧ sound d1 ∧ d1.state_ = .write ∧
      ((d.state_ = .write → null_tail d) → null_tail d1) ∧
      (headed d → armed d → headed d1) := by
  obtain ⟨mt, tch, st, ⟨file, p, e, f, x, w⟩, qq, ln⟩ := d
  obtain ⟨he, hf, hp, hs⟩ := h
  simp only at he hf hp hs
  subst he hf
  by_cases hst : st = .write
  · subst hst
    have hlen : (file.take p).length = p := by simp [hp]
    have h1 := write_gen mt tch file p x w qq ln (file.take p) (file.drop p) s nl (by simp)
      hlen.symm
    refine ⟨_, h1, ⟨rfl, rfl, ?_, fun hh => by simp at hh⟩, rfl, fun hn => ?_, fun hh _ => ⟨?_, ?_⟩⟩
    · simp
    · have hn := hn rfl
      intro b hb
      simp only [null_tail] at hn hb
      rw [drop_behind] at hb
      exact hn b (List.mem_of_mem_drop hb)
    · simp only
      rw [List.append_assoc, take_two file p _ hh.2 hp]
      exact hh.1
    · have := hh.2
      simp only at this ⊢
      omega
  · obtain ⟨-, hq0, hq1⟩ := hs hst
    obtain ⟨q, rfl⟩ : ∃ q : Nat, qq = (q : Int) := ⟨qq.toNat, by omega⟩
    have hq : q ≤ file.length := by exact_mod_cast hq1
    have hlen : (file.take q).length = q := by simp [hq]
    have hc := change_eq mt tch st file p false false x w (q : Int) ln true (file.take q)
      (file.drop q) hst (by simp) (by rw [hlen])
    have h1 := write_gen .timestamp_unknown tch
      (file.take q ++ List.replicate (file.drop q).length 0) (file.take q).length true
      (w ++ trace (file.take q).length (List.replicate (file.drop q).length 0)) (q : Int) ln
      (file.take q) (List.replicate (file.drop q).length 0) s nl rfl rfl
    have h2 := write_switch
      ⟨mt, tch, st, ⟨file, p, false, false, x, w⟩, (q : Int), ln⟩ s nl hst
    rw [h2, hc]
    simp only [except_bind_ok]
    refine ⟨_, h1, ⟨rfl, rfl, ?_, fun hh => by simp at hh⟩, rfl, fun _ => ?_, fun hh ha => ⟨?_, ?_⟩⟩
    · simp
    · intro b hb
      simp only [null_tail] at hb
      rw [drop_behind] at hb
      have := List.mem_of_mem_drop hb
      simp at this
      exact this.2
    · have ha2 : (2 : Int) ≤ (q : Int) := ha hst
      have ha3 : 2 ≤ q := by exact_mod_cast ha2
      simp only
      rw [List.append_assoc, take_two file q _ ha3 hq]
      exact hh.1
    · have ha2 : (2 : Int) ≤ (q : Int) := ha hst
      have ha3 : 2 ≤ q := by exact_mod_cast ha2
      simp only [hlen]
      omega

/-! ## Invariants of call sequences -/

/-- A `close ()` on a sound store succeeds; made in `Write` on a null tail it puts the end
marker at the current position and leaves a null tail behind it, and it keeps the version
line. -/
theorem close_step (d : depdb) (h : sound d) :
    ∃ d1, d.close = .ok d1 ∧
      (d.state_ = .write → null_tail d →
        null_tail d1 ∧ d1.fs_.pos = d.fs_.pos + 1 ∧ d1.fs_.file[d.fs_.pos]? = some 0) ∧
      (headed d → d1.fs_.file.take 2 = [49, 10]) := by
  obtain ⟨mt, tch, st, ⟨file, p, e, f, x, w⟩, qq, ln⟩ := d
  obtain ⟨he, hf, hp, hs⟩ := h
  simp only at he hf hp hs
  subst he hf
  have hlen : (file.take p).length = p := by simp [hp]
  cases st with
  | write =>
      have h1 := close_write mt tch file p x w qq ln (file.take p) (file.drop p) (by simp)
        hlen.symm
      refine ⟨_, h1, fun _ hn => ⟨?_, ?_, ?_⟩, fun hh => ?_⟩
      · intro b hb
        simp only [null_tail] at hn hb
        have e1 : file.take p ++ 0 :: List.drop 1 (file.drop p)
            = file.take p ++ [0] ++ List.drop 1 (file.drop p) := by simp
        have e2 := drop_behind (file.take p) [0] (List.drop 1 (file.drop p))
        rw [e1] at hb
        simp only [List.length_singleton] at e2
        rw [e2] at hb
        exact hn b (List.mem_of_mem_drop hb)
      · simp only [hlen]
      · simp only
        rw [List.getElem?_append_right (by simp [hlen])]
        simp [hlen]
      · simp only
        rw [take_two file p _ hh.2 hp]
        exact hh.1
  | read =>
      have h1 := close_read mt tch file p x w qq ln (file.take p) (file.drop p) (by simp)
        hlen.symm
      refine ⟨_, h1, fun hst => by simp at hst, fun hh => ?_⟩
      simp only
      rw [take_two file p _ hh.2 hp]
      exact hh.1
  | read_eof =>
      cases tch with
      | true =>
          refine ⟨_, close_touch mt file p false false x w qq ln, fun hst => by simp at hst,
            fun hh => ?_⟩
          have e1 : poke file p 0 = file.take p ++ 0 :: List.drop 1 (file.drop p) := by
            have := poke_mid (file.take p) (file.drop p) 0
            rw [hlen, List.take_append_drop] at this
            exact this
          simp only
          rw [e1, take_two file p _ hh.2 hp]
          exact hh.1
      | false =>
          exact ⟨_, close_end _ rfl rfl, fun hst => by simp at hst, fun hh => hh.1⟩

/-- The constructor leaves a sound store that begins with the version line, with a null
tail when it is in `Write`. -/
theorem ctor_step (p : Option (List Nat)) :
    ∃ d, depdb.depdb p = .ok d ∧ sound d ∧ (d.state_ = .write → null_tail d) ∧ headed d := by
  cases p with
  | none => exact ⟨_, ctor_none, by decide, fun _ => by decide, by decide⟩
  | some f =>
    by_cases hv : f.takeWhile (fun b => b != 10) ≠ [49] ∨ f = [49, 10]
    · obtain ⟨ln, h⟩ := ctor_obsolete f hv
      refine ⟨_, h, ⟨rfl, rfl, ?_, fun hst => by simp at hst⟩, fun _ => ?_, ?_, ?_⟩
      · simp
      · intro b hb
        simp only [null_tail] at hb
        have := null_filled [49, 10] (f.length - 2)
        exact this.1 b hb
      · rfl
      · simp
    · simp only [not_or, not_not] at hv
      rcases split_nl f with hno | ⟨l, rest, e, hl⟩
      · have e1 : f = [49] := by rw [← takeWhile_no_nl f hno]; exact hv.1
        subst e1
        exact ⟨_, rfl, by decide, fun _ => by decide, by decide⟩
      · have e1 : l = [49] := by rw [← takeWhile_nl l rest hl, ← e]; exact hv.1
        subst e1
        cases rest with
        | nil => exact absurd e hv.2
        | cons c r =>
            have h := ctor_version c r
            have e2 : f = [49, 10] ++ c :: r := by rw [e]; rfl
            rw [← e2] at h
            refine ⟨_, h, ⟨rfl, rfl, ?_, fun _ => ⟨rfl, ?_, ?_⟩⟩, fun hst => ?_, ?_, ?_⟩
            · simp [e2]
            · simp
            · simp
            · simp only at hst
              split at hst <;> simp at hst
            · simp only [e2]; rfl
            · simp

/-- The null tail of `Write` holds along every sequence of calls that return. -/
theorem exec_upheld (ops : List op) : ∀ (d d1 : depdb), sound d →
    (d.state_ = .write → null_tail d) → exec ops d = .ok d1 →
    sound d1 ∧ (d1.state_ = .write → null_tail d1) := by
  induction ops with
  | nil =>
      intro d d1 hs hn he
      simp only [exec, Except.ok.injEq] at he
      subst he
      exact ⟨hs, hn⟩
  | cons o cs ih =>
      intro d d1 hs hn he
      cases o with
      | read =>
          obtain ⟨l, d2, h1, hs2, hn2, -⟩ := read_step d hs
          simp only [exec, h1, except_bind_ok] at he
          exact ih d2 d1 hs2 (hn2 hn) he
      | skip =>
          by_cases hst : d.state_ = .write
          · simp [exec, skip_in_write d hst, except_bind_error] at he
          · obtain ⟨r, d2, h1, hs2, hn2, -, -⟩ := skip_step d hs hst
            simp only [exec, h1, except_bind_ok] at he
            exact ih d2 d1 hs2 hn2 he
      | write s nl =>
          obtain ⟨d2, h1, hs2, -, hn2, -⟩ := write_step d s nl hs
          simp only [exec, h1, except_bind_ok] at he
          exact ih d2 d1 hs2 (fun _ => hn2 hn) he
      | write_char c nl =>
          obtain ⟨d2, h1, hs2, -, hn2, -⟩ := write_step d [c] nl hs
          simp only [exec, write_char_write d c nl hs, h1, except_bind_ok] at he
          exact ih d2 d1 hs2 (fun _ => hn2 hn) he

/-- The version line is kept along every sequence of calls that return and in which no
write comes before the store remembers an offset behind the version line. -/
theorem exec_headed (ops : List op) : ∀ (d d1 : depdb), sound d → headed d →
    (armed d ∨ reads_first d.state_ ops = true) → exec ops d = .ok d1 →
    sound d1 ∧ headed d1 := by
  induction ops with
  | nil =>
      intro d d1 hs hh _ he
      simp only [exec, Except.ok.injEq] at he
      subst he
      exact ⟨hs, hh⟩
  | cons o cs ih =>
      intro d d1 hs hh ha he
      cases o with
      | read =>
          obtain ⟨l, d2, h1, hs2, -, hh2⟩ := read_step d hs
          simp only [exec, h1, except_bind_ok] at he
          exact ih d2 d1 hs2 (hh2 hh).1 (Or.inl (hh2 hh).2) he
      | skip =>
          by_cases hst : d.state_ = .write
          · simp [exec, skip_in_write d hst, except_bind_error] at he
          · obtain ⟨r, d2, h1, hs2, -, hh2, hsame⟩ := skip_step d hs hst
            simp only [exec, h1, except_bind_ok] at he
            refine ih d2 d1 hs2 (hh2 hh).1 ?_ he
            cases hd : d.state_ with
            | write => exact absurd hd hst
            | read => exact Or.inl ((hh2 hh).2 hd)
            | read_eof =>
                have e := hsame hd
                subst e
                rcases ha with ha | ha
                · exact Or.inl ha
                · rw [hd] at ha ⊢
                  simp only [reads_first, reduceCtorEq, decide_False, Bool.false_or] at ha
                  exact Or.inr ha
      | write s nl =>
          have ha2 : armed d := by
            rcases ha with ha | ha
            · exact ha
            · simp [reads_first] at ha
          obtain ⟨d2, h1, hs2, hw2, -, hh2⟩ := write_step d s nl hs
          simp only [exec, h1, except_bind_ok] at he
          exact ih d2 d1 hs2 (hh2 hh ha2) (Or.inl (fun hne => absurd hw2 hne)) he
      | write_char c nl =>
          have ha2 : armed d := by
            rcases ha with ha | ha
            · exact ha
            · simp [reads_first] at ha
          obtain ⟨d2, h1, hs2, hw2, -, hh2⟩ := write_step d [c] nl hs
          simp only [exec, write_char_write d c nl hs, h1, except_bind_ok] at he
          exact ih d2 d1 hs2 (hh2 hh ha2) (Or.inl (fun hne => absurd hw2 hne)) he

/-- C26. Null-tail invariant of `Write`: in every state reached through the constructor
and a sequence of `read ()`, `skip ()` and `write ()` calls in which the store is in
`Write`, every byte of the file at or after the current position is null; `close ()` then
puts the end marker at that position, and every byte behind the end marker is null. -/
theorem write_tail_is_null (p : Option (List Nat)) (ops : List op) (d0 d : depdb)
    (h0 : depdb.depdb p = .ok d0) (h1 : exec ops d0 = .ok d) (hw : d.state_ = .write) :
    (∀ i, d.fs_.pos ≤ i → i < d.fs_.file.length → d.fs_.file[i]? = some 0) ∧
    ∃ d1, d.close = .ok d1 ∧ d1.fs_.file[d.fs_.pos]? = some 0 ∧
      ∀ i, d.fs_.pos < i → i < d1.fs_.file.length → d1.fs_.file[i]? = some 0 := by
  obtain ⟨d0a, h2, hs0, hn0, -⟩ := ctor_step p
  rw [h0] at h2
  cases h2
  obtain ⟨hs, hn⟩ := exec_upheld ops d0 d hs0 hn0 h1
  have hn := hn hw
  have key : ∀ (g : List Nat) (q : Nat), (∀ b ∈ g.drop q, b = 0) →
      ∀ i, q ≤ i → i < g.length → g[i]? = some 0 := by
    intro g q hg i hqi hi
    have e : (g.drop q)[i - q]? = g[i]? := by
      rw [List.getElem?_drop]
      congr 1
      omega
    have hi2 : g[i]? = some g[i] := List.getElem?_eq_getElem hi
    have hm : g[i] ∈ g.drop q := List.getElem?_mem (e.trans hi2)
    rw [hi2, hg _ hm]
  refine ⟨key _ _ hn, ?_⟩
  obtain ⟨d1, h3, h4, -⟩ := close_step d hs
  obtain ⟨hn1, hp1, hm1⟩ := h4 hw hn
  refine ⟨d1, h3, hm1, fun i hi hlt => key _ _ hn1 i ?_ hlt⟩
  rw [hp1]
  omega

/-- C26 at a store of two lines of which the second is overwritten by a shorter one. -/
theorem write_tail_is_null_witness :
    ∃ d0 d, depdb.depdb (some (store [[97], [98, 98, 98]] [])) = .ok d0 ∧
      exec [.read, .read, .write [120] true] d0 = .ok d ∧ d.state_ = .write ∧
      d.fs_.file = [49, 10, 97, 10, 120, 10, 0, 0, 0] ∧ d.fs_.pos = 6 ∧
      (∀ i, d.fs_.pos ≤ i → i < d.fs_.file.length → d.fs_.file[i]? = some 0) ∧
      ∃ d1, d.close = .ok d1 ∧ d1.fs_.file[d.fs_.pos]? = some 0 ∧
        ∀ i, d.fs_.pos < i → i < d1.fs_.file.length → d1.fs_.file[i]? = some 0 :=
  ⟨_, _, rfl, rfl, rfl, rfl, rfl,
    write_tail_is_null (some (store [[97], [98, 98, 98]] [])) [.read, .read, .write [120] true]
      _ _ rfl rfl rfl⟩

/-- C27, as stated, fails: a `write ()` made right after opening the cleanly closed store
with the line `a` overwrites the file from offset 0, so the file begins with the bytes of
the written line and the next open rejects the version line; the same happens when a
`skip ()` in `ReadEnd` comes before the write. -/
theorem write_before_read_drops_version :
    (∃ d0 d d1 d2, depdb.depdb (some (store [[97]] [])) = .ok d0 ∧ d0.state_ = .read ∧
      d0.pos_ = 0 ∧
      exec [.write [120] true] d0 = .ok d ∧ d.fs_.file = [120, 10, 0, 0, 0] ∧
      d.fs_.file.take 2 ≠ [49, 10] ∧ d.close = .ok d1 ∧ d1.fs_.file = [120, 10, 0, 0, 0] ∧
      reopen_reads d1.fs_.file 1 = .ok ([none], d2) ∧ d2.state_ = .write) ∧
    (∃ d0 d, depdb.depdb (some (store [] [])) = .ok d0 ∧ d0.state_ = .read_eof ∧
      exec [.skip, .write [120] true] d0 = .ok d ∧ d.fs_.file = [120, 10, 0] ∧
      d.fs_.file.take 2 ≠ [49, 10]) :=
  ⟨⟨_, _, _, _, rfl, rfl, rfl, rfl, rfl, by decide, rfl, rfl, rfl, rfl⟩,
    ⟨_, _, rfl, rfl, rfl, rfl, by decide⟩⟩

/-- C27, amended. Version header invariant: once the constructor has returned, no sequence
of `read ()`, `skip ()`, `write ()` and `close ()` calls in which the first write on a
store opened in `Read` or `ReadEnd` comes after a `read ()`, or after a `skip ()` made in
`Read`, modifies the first line of the file: in every state so reached, and after
`close ()` with or without touch, the file begins with the bytes `1` and newline. -/
theorem version_line_kept (p : Option (List Nat)) (ops : List op) (d0 d : depdb)
    (h0 : depdb.depdb p = .ok d0)
    (hr : d0.state_ = .write ∨ reads_first d0.state_ ops = true)
    (h1 : exec ops d0 = .ok d) :
    d.fs_.file.take 2 = [49, 10] ∧
    ∀ t, ∃ d1, depdb.close { d with touch := t } = .ok d1 ∧ d1.fs_.file.take 2 = [49, 10] := by
  obtain ⟨d0a, h2, hs0, -, hh0⟩ := ctor_step p
  rw [h0] at h2
  cases h2
  have ha : armed d0 ∨ reads_first d0.state_ ops = true := by
    rcases hr with hr | hr
    · exact Or.inl (fun hne => absurd hr hne)
    · exact Or.inr hr
  obtain ⟨hs, hh⟩ := exec_headed ops d0 d hs0 hh0 ha h1
  refine ⟨hh.1, fun t => ?_⟩
  have hs2 : sound { d with touch := t } := hs
  have hh2 : headed { d with touch := t } := hh
  obtain ⟨d1, h3, -, h4⟩ := close_step _ hs2
  exact ⟨d1, h3, h4 hh2⟩

/-- C27, amended, at a store of two lines: read one, skip the rest, write a line. -/
theorem version_line_kept_witness :
    ∃ d0 d, depdb.depdb (some (store [[97], [98]] [])) = .ok d0 ∧
      (d0.state_ = .write ∨ reads_first d0.state_ [.read, .skip, .write [120] true] = true) ∧
      exec [.read, .skip, .write [120] true] d0 = .ok d ∧
      d.fs_.file = [49, 10, 97, 10, 120, 10, 0] ∧
      d.fs_.file.take 2 = [49, 10] ∧
      ∀ t, ∃ d1, depdb.close { d with touch := t } = .ok d1 ∧
        d1.fs_.file.take 2 = [49, 10] :=
  ⟨_, _, rfl, Or.inr rfl, rfl, rfl,
    version_line_kept (some (store [[97], [98]] [])) [.read, .skip, .write [120] true] _ _
      rfl (Or.inr rfl) rfl⟩

/-! ## Parsing a version component -/

theorem dec_small : ∀ n, n < 100 →
    dec n = if n < 10 then [48 + n] else [48 + n / 10, 48 + n % 10] := by
  decide

/-- The digits of a number below 100 are a decimal numeral of it. -/
theorem dec_decimal (n : Nat) (h : n < 100) : decimal (dec n) n := by
  rw [dec_small n h]
  by_cases h1 : n < 10
  · simp only [h1, ↓reduceIte]
    refine ⟨by simp, ?_, ?_⟩
    · intro c hc
      simp only [List.mem_singleton] at hc
      omega
    · simp [digits_val]
  · simp only [h1, ↓reduceIte]
    refine ⟨by simp, ?_, ?_⟩
    · intro c hc
      simp only [List.mem_cons, List.mem_singleton, List.not_mem_nil, or_false] at hc
      omega
    · simp [digits_val]
      omega

theorem char_at_mid (pre : List Nat) (c : Nat) (r : List Nat) :
    char_at (pre ++ c :: r) pre.length = c := by
  rw [char_at, List.getD_eq_getElem?_getD, List.getElem?_append_right (Nat.le_refl _)]
  simp

theorem char_at_end (pre : List Nat) : char_at pre pre.length = 0 := by
  simp [char_at, List.getD_eq_getElem?_getD]

theorem takeWhile_head (p : Nat → Bool) (rest : List Nat) (c : Nat)
    (h : (rest.takeWhile p).head? = some c) : rest.head? = some c := by
  cases rest with
  | nil => simp at h
  | cons a r =>
      simp only [List.takeWhile] at h
      split at h
      · simpa using h
      · simp at h

theorem takeWhile_run (p : Nat → Bool) (ds rest : List Nat) (hd : ∀ c ∈ ds, p c = true)
    (hr : ∀ c, rest.head? = some c → p c = false) :
    (ds ++ rest).takeWhile p = ds := by
  induction ds with
  | nil =>
      cases rest with
      | nil => rfl
      | cons a r => simp [List.takeWhile, hr a rfl]
  | cons a as ih =>
      rw [List.cons_append, List.takeWhile_cons, if_pos (hd a (List.mem_cons_self _ _)),
        ih (fun c hc => hd c (List.mem_cons_of_mem _ hc))]

/-- On a run of digits that is followed by no digit, `strtol` converts the run. -/
theorem strtol_digits (ds rest : List Nat) (n : Nat) (h : decimal ds n) (hn : n ≤ 99)
    (hr : ∀ c, rest.head? = some c → ¬ (48 ≤ c ∧ c ≤ 57)) :
    strtol (ds ++ rest) = some ((n : Int), ds.length) := by
  obtain ⟨hne, hd, hv⟩ := h
  cases ds with
  | nil => exact absurd rfl hne
  | cons d ds1 =>
      have hd0 := hd d (List.mem_cons_self _ _)
      have hsp : isspace d = false := by
        simp [isspace]
        omega
      have h1 : (d :: ds1 ++ rest).takeWhile isspace = [] := by
        simp [List.takeWhile, hsp]
      have h2 : (d :: ds1 ++ rest).dropWhile isspace = d :: ds1 ++ rest := by
        simp [List.dropWhile, hsp]
      have h3 : ¬ ((d :: ds1 ++ rest).head? = some 45 ∨ (d :: ds1 ++ rest).head? = some 43) := by
        simp
        omega
      have h3b : ¬ ((d :: ds1 ++ rest).head? = some 45) := fun hh => h3 (Or.inl hh)
      have h4 : (d :: ds1 ++ rest).takeWhile isdigit = d :: ds1 := by
        apply takeWhile_run
        · intro c hc
          have := hd c hc
          simp [isdigit]
          omega
        · intro c hc
          have := hr c hc
          simp only [isdigit, Bool.and_eq_false_imp, decide_eq_true_eq, decide_eq_false_iff_not]
          intro h48 h57
          exact this ⟨h48, h57⟩
      have h3c : ¬ ((d :: ds1 ++ rest).head? = some 43) := fun hh => h3 (Or.inr hh)
      have h5 : min (n : Int) (2 ^ 63 - 1) = n := by
        apply min_eq_left
        have : (n : Int) ≤ 99 := by exact_mod_cast hn
        norm_num
        linarith
      simp only [strtol, h1, h2, h3b, h3c, or_self, ↓reduceIte, List.drop_zero, h4, hv,
        reduceCtorEq, List.length_nil, Nat.zero_add, h5]

theorem c_str_digits (pre ds rest : List Nat) (hd : ∀ c ∈ ds, 48 ≤ c ∧ c ≤ 57) :
    c_str (pre ++ ds ++ rest) pre.length = ds ++ rest.takeWhile (fun c => c != 0) := by
  simp only [c_str, List.append_assoc, List.drop_left]
  induction ds with
  | nil => rfl
  | cons a as ih =>
      have := hd a (List.mem_cons_self _ _)
      have ha : (a != 0) = true := by simp; omega
      rw [List.cons_append, List.takeWhile_cons, if_pos ha,
        ih (fun c hc => hd c (List.mem_cons_of_mem _ hc))]
      rfl

/-- The lambda `parse` on a decimal numeral that is followed by no digit. -/
theorem parse_digits (s : List Nat) (p : Nat) (m : invalid_argument) (lo hi : Int)
    (pre ds rest : List Nat) (n : Nat) (hs : s = pre ++ ds ++ rest) (hp : p = pre.length)
    (h : decimal ds n) (hn : n ≤ 99)
    (hr : ∀ c, rest.head? = some c → ¬ (48 ≤ c ∧ c ≤ 57))
    (hlo : lo ≤ (n : Int)) (hhi : (n : Int) ≤ hi) :
    to_version.parse s p m lo hi = .ok (n, p + ds.length) := by
  subst hs hp
  have h1 := c_str_digits pre ds rest h.2.1
  have h2 := strtol_digits ds (rest.takeWhile (fun c => c != 0)) n h hn
    (fun c hc => hr c (takeWhile_head _ rest c hc))
  have h3 : ¬ (char_at (pre ++ ds ++ rest) pre.length = 45
      ∨ char_at (pre ++ ds ++ rest) pre.length = 43) := by
    obtain ⟨hne, hd, -⟩ := h
    cases ds with
    | nil => exact absurd rfl hne
    | cons d ds1 =>
        have := hd d (List.mem_cons_self _ _)
        have e : pre ++ d :: ds1 ++ rest = pre ++ d :: (ds1 ++ rest) := by simp
        rw [e, char_at_mid]
        omega
  have h4 : ¬ ((n : Int) < lo ∨ (n : Int) > hi) := by omega
  simp only [to_version.parse, h3, ↓reduceIte, h1, h2, h4, Int.toNat_ofNat]

/-! ## The value of a version string -/

theorem bind_ok_any {ε α β : Type} (a : α) (f : α → Except ε β) :
    (Except.ok a >>= f) = f a := rfl

theorem bind_error_any {ε α β : Type} (e : ε) (f : α → Except ε β) :
    ((Except.error e : Except ε α) >>= f) = Except.error e := rfl

theorem pure_any {ε α : Type} (a : α) : (pure a : Except ε α) = Except.ok a := rfl

theorem stage_bounds (k N : Nat) (h1 : 1 ≤ N) (h2 : N ≤ 49) :
    ¬ ((if k = 98 then N + 50 else N) = 0) ∧ (if k = 98 then N + 50 else N) ≤ 99 := by
  split <;> omega

theorem value_bounds (ma mi bf : Nat) (h1 : ma ≤ 99) (h2 : mi ≤ 99) (h3 : bf ≤ 99)
    (hz : ¬ (ma = 0 ∧ mi = 0 ∧ bf = 0)) :
    100 ≤ ma * 1000000 + mi * 10000 + bf * 100 ∧
      ma * 1000000 + mi * 10000 + bf * 100 ≤ 99999900 := by
  omega

/-- The `unsigned int` arithmetic `r -= 100; r += ab` does not wrap around. -/
theorem unsigned_value (v ab : Nat) (h1 : 100 ≤ v) (h2 : v ≤ 99999900) (h3 : ab ≤ 99) :
    ¬ (v % 4294967296 = 0) ∧
      ((v % 4294967296 + (4294967296 - 100)) % 4294967296 + ab) % 4294967296
        = v - 100 + ab := by
  omega

/-- What `to_version` returns on three decimal numerals up to 99 separated by dots and
followed by nothing or by a pre-release component. -/
theorem to_version_eq (A B C T : List Nat) (ma mi bf res : Nat)
    (hA : decimal A ma) (hB : decimal B mi) (hC : decimal C bf)
    (h1 : ma ≤ 99) (h2 : mi ≤ 99) (h3 : bf ≤ 99)
    (hT : (T = [] ∧ res = ma * 1000000 + mi * 10000 + bf * 100) ∨
      (∃ k D N, T = 45 :: k :: D ∧ (k = 97 ∨ k = 98) ∧ decimal D N ∧ 1 ≤ N ∧ N ≤ 49 ∧
        ¬ (ma = 0 ∧ mi = 0 ∧ bf = 0) ∧
        res = ma * 1000000 + mi * 10000 + bf * 100 - 100 + (if k = 98 then N + 50 else N))) :
    to_version (A ++ 46 :: B ++ 46 :: C ++ T) = .ok res := by
  have hTh : ∀ c, T.head? = some c → ¬ (48 ≤ c ∧ c ≤ 57) := by
    intro c hc
    rcases hT with ⟨hT, -⟩ | ⟨k, D, N, hT, -⟩
    · subst hT; simp at hc
    · subst hT
      simp at hc
      omega
  generalize hs : A ++ 46 :: B ++ 46 :: C ++ T = s
  have hlen : s.length = A.length + 1 + B.length + 1 + C.length + T.length := by
    rw [← hs]; simp; omega
  have P1 := parse_digits s 0 .invalid_major 0 99 [] A (46 :: B ++ 46 :: C ++ T) ma
    (by rw [← hs]; simp) rfl hA h1 (by simp) (by omega) (by omega)
  have c1 : ¬ (0 + A.length ≥ s.length ∨ char_at s (0 + A.length) ≠ 46) := by
    have e : A ++ 46 :: B ++ 46 :: C ++ T = A ++ 46 :: (B ++ 46 :: C ++ T) := by simp
    rw [← hs, e, Nat.zero_add, char_at_mid, ← e, hs]
    simp
    omega
  have P2 := parse_digits s (0 + A.length + 1) .invalid_minor 0 99 (A ++ [46]) B
    (46 :: C ++ T) mi (by rw [← hs]; simp) (by simp) hB h2 (by simp) (by omega) (by omega)
  have c2 : ¬ (0 + A.length + 1 + B.length ≥ s.length
      ∨ char_at s (0 + A.length + 1 + B.length) ≠ 46) := by
    have e : A ++ 46 :: B ++ 46 :: C ++ T = (A ++ 46 :: B) ++ 46 :: (C ++ T) := by simp
    have e2 : 0 + A.length + 1 + B.length = (A ++ 46 :: B).length := by simp; omega
    rw [← hs, e, e2, char_at_mid, ← e2, ← e, hs]
    simp
    omega
  have P3 := parse_digits s (0 + A.length + 1 + B.length + 1) .invalid_bugfix 0 99
    (A ++ 46 :: B ++ [46]) C T bf (by rw [← hs]; simp) (by simp; omega) hC h3 hTh
    (by omega) (by omega)
  have hpow : (2 : Nat) ^ 32 = 4294967296 := by norm_num
  simp only [to_version, P1, bind_ok_any, c1, ↓reduceIte, P2, c2, P3]
  rcases hT with ⟨hT, hres⟩ | ⟨k, D, N, hT, hk, hD, hN1, hN2, hz, hres⟩
  · subst hT
    have c3 : ¬ (0 + A.length + 1 + B.length + 1 + C.length < s.length) := by
      rw [hlen]; simp
    simp only [c3, ↓reduceIte, pure_any, bind_ok_any, ne_eq, not_true_eq_false, hpow]
    congr 1
    omega
  · subst hT
    have c3 : 0 + A.length + 1 + B.length + 1 + C.length < s.length := by
      rw [hlen]; simp
    have e3 : 0 + A.length + 1 + B.length + 1 + C.length
        = (A ++ 46 :: B ++ 46 :: C).length := by simp; omega
    have c4 : ¬ (char_at s (0 + A.length + 1 + B.length + 1 + C.length) ≠ 45) := by
      have e : A ++ 46 :: B ++ 46 :: C ++ 45 :: k :: D
          = (A ++ 46 :: B ++ 46 :: C) ++ 45 :: (k :: D) := by simp
      rw [← hs, e, e3, char_at_mid]
      simp
    have c5 : char_at s (0 + A.length + 1 + B.length + 1 + C.length + 1) = k := by
      have e : A ++ 46 :: B ++ 46 :: C ++ 45 :: k :: D
          = (A ++ 46 :: B ++ 46 :: C ++ [45]) ++ k :: D := by simp
      have e4 : 0 + A.length + 1 + B.length + 1 + C.length + 1
          = (A ++ 46 :: B ++ 46 :: C ++ [45]).length := by simp; omega
      rw [← hs, e, e4, char_at_mid]
    have c6 : k ≠ 0 := by omega
    have c7 : ¬ (k ≠ 97 ∧ k ≠ 98) := by omega
    have P4 := parse_digits s (0 + A.length + 1 + B.length + 1 + C.length + 1 + 1)
      .invalid_release 1 49 (A ++ 46 :: B ++ 46 :: C ++ [45, k]) D [] N
      (by rw [← hs]; simp) (by simp; omega) hD (by omega) (by simp) (by omega) (by omega)
    have c8 : ¬ (0 + A.length + 1 + B.length + 1 + C.length + 1 + 1 + D.length ≠ s.length) := by
      rw [hlen]; simp; omega
    simp only [c3, ↓reduceIte, c4, c5, c6, c7, ne_eq, not_false_eq_true, P4, bind_ok_any,
      c8, pure_any, hpow]
    obtain ⟨hab1, hab2⟩ := stage_bounds k N hN1 hN2
    have hv1 := value_bounds ma mi bf h1 h2 h3 hz
    have hv2 := unsigned_value _ _ hv1.1 hv1.2 hab2
    simp only [hab1, hv2.1, not_false_eq_true, ↓reduceIte, hv2.2, hres]

/-! ## The version encoding and its order -/

/-- What `to_version` returns on the string of an accepted version. -/
theorem to_version_render (v : version) (h : v.accepted) :
    to_version v.render
      = .ok (v.major * 1000000 + v.minor * 10000 + v.bugfix * 100 + v.stage.rank - 100) := by
  obtain ⟨ma, mi, bf, st⟩ := v
  obtain ⟨h1, h2, h3, h4, h5⟩ := h
  simp only at h1 h2 h3 h4 h5
  have hA := dec_decimal ma (by omega)
  have hB := dec_decimal mi (by omega)
  have hC := dec_decimal bf (by omega)
  cases st with
  | final =>
      have := to_version_eq (dec ma) (dec mi) (dec bf) [] ma mi bf
        (ma * 1000000 + mi * 10000 + bf * 100 + 100 - 100) hA hB hC h1 h2 h3
        (Or.inl ⟨rfl, by omega⟩)
      simpa [version.render, stage.rank] using this
  | alpha n =>
      simp only [stage.in_range, decide_eq_true_eq] at h4
      have := to_version_eq (dec ma) (dec mi) (dec bf) (45 :: 97 :: dec n) ma mi bf
        (ma * 1000000 + mi * 10000 + bf * 100 + n - 100) hA hB hC h1 h2 h3
        (Or.inr ⟨97, dec n, n, rfl, Or.inl rfl, dec_decimal n (by omega), h4.1, h4.2,
          h5 (by simp), by
            have := value_bounds ma mi bf h1 h2 h3 (h5 (by simp))
            simp only [reduceCtorEq, Nat.reduceEqDiff, ↓reduceIte]
            omega⟩)
      simpa [version.render, stage.rank] using this
  | beta n =>
      simp only [stage.in_range, decide_eq_true_eq] at h4
      have := to_version_eq (dec ma) (dec mi) (dec bf) (45 :: 98 :: dec n) ma mi bf
        (ma * 1000000 + mi * 10000 + bf * 100 + (50 + n) - 100) hA hB hC h1 h2 h3
        (Or.inr ⟨98, dec n, n, rfl, Or.inr rfl, dec_decimal n (by omega), h4.1, h4.2,
          h5 (by simp), by
            have := value_bounds ma mi bf h1 h2 h3 (h5 (by simp))
            simp only [↓reduceIte]
            omega⟩)
      simpa [version.render, stage.rank] using this

/-- C28. The function `to_version` computes the AABBCCDD encoding: for major, minor and
bugfix from 0 to 99 written in decimal, `ma.mi.bf` gives `ma*1000000 + mi*10000 + bf*100`;
for a version other than `0.0.0` and `N` from 1 to 49, `ma.mi.bf-aN` gives that value
minus 100 plus `N` and `ma.mi.bf-bN` gives that value minus 100 plus 50 plus `N`; the value
is at least 100 there and below `2^32`, so the unsigned subtraction does not wrap. -/
theorem to_version_encoding (ma mi bf N : Nat) (h1 : ma ≤ 99) (h2 : mi ≤ 99) (h3 : bf ≤ 99) :
    to_version (dec ma ++ 46 :: dec mi ++ 46 :: dec bf)
      = .ok (ma * 1000000 + mi * 10000 + bf * 100) ∧
    ma * 1000000 + mi * 10000 + bf * 100 < 2 ^ 32 ∧
    (1 ≤ N → N ≤ 49 → ¬ (ma = 0 ∧ mi = 0 ∧ bf = 0) →
      100 ≤ ma * 1000000 + mi * 10000 + bf * 100 ∧
      to_version (dec ma ++ 46 :: dec mi ++ 46 :: dec bf ++ 45 :: 97 :: dec N)
        = .ok (ma * 1000000 + mi * 10000 + bf * 100 - 100 + N) ∧
      to_version (dec ma ++ 46 :: dec mi ++ 46 :: dec bf ++ 45 :: 98 :: dec N)
        = .ok (ma * 1000000 + mi * 10000 + bf * 100 - 100 + 50 + N)) := by
  have hA := dec_decimal ma (by omega)
  have hB := dec_decimal mi (by omega)
  have hC := dec_decimal bf (by omega)
  refine ⟨?_, ?_, fun hN1 hN2 hz => ⟨(value_bounds ma mi bf h1 h2 h3 hz).1, ?_, ?_⟩⟩
  · have := to_version_eq (dec ma) (dec mi) (dec bf) [] ma mi bf
      (ma * 1000000 + mi * 10000 + bf * 100) hA hB hC h1 h2 h3 (Or.inl ⟨rfl, rfl⟩)
    simpa using this
  · norm_num
    omega
  · exact to_version_eq (dec ma) (dec mi) (dec bf) (45 :: 97 :: dec N) ma mi bf _ hA hB hC
      h1 h2 h3 (Or.inr ⟨97, dec N, N, rfl, Or.inl rfl, dec_decimal N (by omega), hN1, hN2, hz,
        by simp⟩)
  · exact to_version_eq (dec ma) (dec mi) (dec bf) (45 :: 98 :: dec N) ma mi bf _ hA hB hC
      h1 h2 h3 (Or.inr ⟨98, dec N, N, rfl, Or.inr rfl, dec_decimal N (by omega), hN1, hN2, hz,
        by simp; omega⟩)

/-- C28 at the versions `12.3.45`, `12.3.45-a7` and `12.3.45-b7`. -/
theorem to_version_encoding_witness :
    (12 ≤ 99 ∧ 3 ≤ 99 ∧ 45 ≤ 99) ∧
    to_version (dec 12 ++ 46 :: dec 3 ++ 46 :: dec 45)
      = .ok (12 * 1000000 + 3 * 10000 + 45 * 100) ∧
    12 * 1000000 + 3 * 10000 + 45 * 100 < 2 ^ 32 ∧
    (1 ≤ 7 → 7 ≤ 49 → ¬ (12 = 0 ∧ 3 = 0 ∧ 45 = 0) →
      100 ≤ 12 * 1000000 + 3 * 10000 + 45 * 100 ∧
      to_version (dec 12 ++ 46 :: dec 3 ++ 46 :: dec 45 ++ 45 :: 97 :: dec 7)
        = .ok (12 * 1000000 + 3 * 10000 + 45 * 100 - 100 + 7) ∧
      to_version (dec 12 ++ 46 :: dec 3 ++ 46 :: dec 45 ++ 45 :: 98 :: dec 7)
        = .ok (12 * 1000000 + 3 * 10000 + 45 * 100 - 100 + 50 + 7)) :=
  ⟨by decide, to_version_encoding 12 3 45 7 (by decide) (by decide) (by decide)⟩

/-- C29. The function `to_version` is strictly order-preserving: of two accepted versions
compared lexicographically on (major, minor, bugfix, stage), with the stages ordered
`a1 < ... < a49 < b1 < ... < b49 < final`, the smaller one maps to the strictly smaller
number. -/
theorem to_version_strictly_monotone (a b : version) (ha : a.accepted) (hb : b.accepted)
    (hlt : a.lt b) :
    ∃ x y, to_version a.render = .ok x ∧ to_version b.render = .ok y ∧ x < y := by
  refine ⟨_, _, to_version_render a ha, to_version_render b hb, ?_⟩
  obtain ⟨ma, mi, bf, st⟩ := a
  obtain ⟨ma2, mi2, bf2, st2⟩ := b
  obtain ⟨h1, h2, h3, h4, h5⟩ := ha
  obtain ⟨k1, k2, k3, k4, k5⟩ := hb
  simp only [version.lt] at hlt
  simp only at h1 h2 h3 h4 h5 k1 k2 k3 k4 k5 ⊢
  have r1 : 1 ≤ st.rank ∧ st.rank ≤ 100 ∧ (st.rank < 100 → st ≠ .final) := by
    cases st <;> simp [stage.in_range] at h4 <;> simp [stage.rank] <;> omega
  have r2 : 1 ≤ st2.rank ∧ st2.rank ≤ 100 ∧ (st2.rank < 100 → st2 ≠ .final) := by
    cases st2 <;> simp [stage.in_range] at k4 <;> simp [stage.rank] <;> omega
  by_cases hz1 : st.rank < 100
  · have := h5 (r1.2.2 hz1)
    by_cases hz2 : st2.rank < 100
    · have := k5 (r2.2.2 hz2)
      omega
    · omega
  · by_cases hz2 : st2.rank < 100
    · have := k5 (r2.2.2 hz2)
      omega
    · omega

/-- C29 at a pre-release against the final release below it and its own final release:
`1.2.2 < 1.2.3-a1 < 1.2.3-b49 < 1.2.3`. -/
theorem to_version_strictly_monotone_witness :
    (version.accepted ⟨1, 2, 2, .final⟩ ∧ version.accepted ⟨1, 2, 3, .alpha 1⟩ ∧
      version.lt ⟨1, 2, 2, .final⟩ ⟨1, 2, 3, .alpha 1⟩) ∧
    to_version (version.render ⟨1, 2, 2, .final⟩) = .ok 1020200 ∧
    to_version (version.render ⟨1, 2, 3, .alpha 1⟩) = .ok 1020201 ∧
    to_version (version.render ⟨1, 2, 3, .beta 49⟩) = .ok 1020299 ∧
    to_version (version.render ⟨1, 2, 3, .final⟩) = .ok 1020300 ∧
    ∃ x y, to_version (version.render ⟨1, 2, 2, .final⟩) = .ok x ∧
      to_version (version.render ⟨1, 2, 3, .alpha 1⟩) = .ok y ∧ x < y :=
  ⟨by decide, rfl, rfl, rfl, rfl,
    to_version_strictly_monotone ⟨1, 2, 2, .final⟩ ⟨1, 2, 3, .alpha 1⟩ (by decide) (by decide)
      (by decide)⟩

/-- C30 fails on the code: a component with leading white space is accepted. The strings
` 1.2.3`, `1. 2.3` and `1.2.3-a 5` give the values of `1.2.3` and `1.2.3-a5`, and a sign
behind white space is accepted too; a sign in front is rejected. -/
theorem leading_space_is_accepted :
    to_version [32, 49, 46, 50, 46, 51] = .ok 1020300 ∧
    to_version [49, 46, 32, 50, 46, 51] = .ok 1020300 ∧
    to_version [49, 46, 50, 46, 51, 45, 97, 32, 53] = .ok 1020205 ∧
    to_version [32, 43, 49, 46, 50, 46, 51] = .ok 1020300 ∧
    to_version [49, 46, 50, 46, 51] = .ok 1020300 ∧
    to_version [43, 49, 46, 50, 46, 51] = .error .invalid_major :=
  ⟨rfl, rfl, rfl, rfl, rfl, rfl⟩

/-! ## Kinds and prerequisites -/

theorem is_a_self (t : target_type) : t.is_a t = true := by
  cases t with
  | mk i n b f s =>
      cases b <;> simp [target_type.is_a, target_type.id]

theorem is_a_base (i n f s : String) (b tt : target_type) :
    (target_type.mk i n (some b) f s).is_a tt = (i == tt.id || b.is_a tt) := by
  simp [target_type.is_a]

/-- C22. Each of the six source kinds of `build/cxx/target.cxx` has the generic file kind
as its direct base and reuses the search function of `file`, so the is-a query against
`file` succeeds, after one step of the base chain; and, the base chain of `file` holding
none of the six, none of the six is-a another of the six. -/
theorem source_kinds_are_files (file : target_type)
    (hf : ∀ k ∈ source_kinds file, file.is_a k = false) :
    ∀ k ∈ source_kinds file,
      k.base = some file ∧ k.search = file.search ∧ k.is_a file = true ∧
        ∀ k2 ∈ source_kinds file, k2.id ≠ k.id → k.is_a k2 = false := by
  intro k hk
  have hfile := is_a_self file
  simp only [source_kinds, List.mem_cons, List.mem_singleton, List.not_mem_nil, or_false] at hk
  have hbase : ∀ (i f : String) (k2 : target_type), k2 ∈ source_kinds file → k2.id ≠ i →
      (target_type.mk i i (some file) f file.search).is_a k2 = false := by
    intro i f k2 hk2 hne
    rw [is_a_base, hf k2 hk2]
    simp only [Bool.or_false, beq_eq_false_iff_ne, ne_eq]
    exact fun h => hne h.symm
  rcases hk with rfl | rfl | rfl | rfl | rfl | rfl
  all_goals
    refine ⟨rfl, rfl, ?_, fun k2 hk2 hne => hbase _ _ k2 hk2 hne⟩
    simp only [hxx.static_type, ixx.static_type, txx.static_type, cxx.static_type,
      h.static_type, c.static_type, is_a_base, hfile, Bool.or_true]

/-- C22 at a file kind without a base. -/
theorem source_kinds_are_files_witness :
    (∀ k ∈ source_kinds (.mk "file" "file" none "target_factory<file>" "search_file"),
      (target_type.mk "file" "file" none "target_factory<file>" "search_file").is_a k = false) ∧
    ∀ k ∈ source_kinds (.mk "file" "file" none "target_factory<file>" "search_file"),
      k.base = some (.mk "file" "file" none "target_factory<file>" "search_file") ∧
      k.search = (target_type.mk "file" "file" none "target_factory<file>" "search_file").search ∧
      k.is_a (.mk "file" "file" none "target_factory<file>" "search_file") = true ∧
        ∀ k2 ∈ source_kinds (.mk "file" "file" none "target_factory<file>" "search_file"),
          k2.id ≠ k.id → k.is_a k2 = false :=
  ⟨by decide,
    source_kinds_are_files (.mk "file" "file" none "target_factory<file>" "search_file")
      (by decide)⟩

/-- C21. Group member identity: of two prerequisite instances with equal field values, one
an element of the prerequisite list of the target and one living outside that list, the
keys are equal component by component, yet `belongs` is true for the element and false for
the freestanding instance. -/
theorem belongs_is_by_identity (t : target) (size i : Nat) (a b : placed)
    (hsz : 0 < size) (ha : t.element size i = some a)
    (hb : b.addr + size ≤ t.data ∨ t.data + t.prerequisites.length * size ≤ b.addr)
    (h1 : b.obj.proj = a.obj.proj) (h2 : b.obj.type = a.obj.type) (h3 : b.obj.dir = a.obj.dir)
    (h4 : b.obj.out = a.obj.out) (h5 : b.obj.name = a.obj.name) (h6 : b.obj.ext = a.obj.ext)
    (h7 : b.obj.scope = a.obj.scope) :
    a.obj.key = b.obj.key ∧ a.belongs size t = true ∧ b.belongs size t = false := by
  refine ⟨?_, ?_, ?_⟩
  · simp only [prerequisite.key, h1, h2, h3, h4, h5, h6, h7]
  · simp only [target.element, Option.map_eq_some'] at ha
    obtain ⟨o, ho, rfl⟩ := ha
    have hi : i < t.prerequisites.length := by
      rw [List.get?_eq_some] at ho
      exact ho.1
    simp only [placed.belongs, List.any_eq_true, List.mem_range, beq_iff_eq]
    exact ⟨i, hi, rfl⟩
  · simp only [placed.belongs, List.any_eq_false, List.mem_range, beq_iff_eq]
    intro j hj heq
    have hm : j * size + size ≤ t.prerequisites.length * size := by
      have := Nat.mul_le_mul_right size (Nat.succ_le_of_lt hj)
      rw [Nat.succ_mul] at this
      exact this
    omega

/-- C21 at a target with two prerequisites and, elsewhere, an instance with the field
values of the first. -/
theorem belongs_is_by_identity_witness :
    ∃ (p q : prerequisite) (t : target) (a b : placed),
      t = ⟨1000, [p, q]⟩ ∧ a = ⟨1000, p⟩ ∧ b = ⟨5000, { p with target := some 7 }⟩ ∧
      0 < 64 ∧ t.element 64 0 = some a ∧
      (b.addr + 64 ≤ t.data ∨ t.data + t.prerequisites.length * 64 ≤ b.addr) ∧
      a.obj.key = b.obj.key ∧ a.belongs 64 t = true ∧ b.belongs 64 t = false :=
  ⟨⟨none, .mk "file" "file" none "target_factory<file>" "search_file", "bar/", "", "y", none,
      1, none⟩,
    ⟨none, .mk "file" "file" none "target_factory<file>" "search_file", "bar/", "", "z", none,
      1, none⟩,
    ⟨1000, _⟩, ⟨1000, _⟩, ⟨5000, _⟩, rfl, rfl, rfl, by decide, rfl, Or.inr (by decide),
    belongs_is_by_identity ⟨1000, _⟩ 64 0 ⟨1000, _⟩ ⟨5000, _⟩ (by decide) rfl
      (Or.inr (by decide)) rfl rfl rfl rfl rfl rfl rfl⟩

end build2
